import Mathlib

/-
Verification development for the title-extraction engine of the
kmog_trust_crawler repository (src/address_only_regex.py, v12).

The Python module is a library of pure functions built from compiled
regular expressions.  We shallow-embed it over `List Char`: every regular
expression of the source is hand-compiled into a deterministic Lean
function.  Where the Python backtracking engine could in principle
backtrack, the surrounding pattern makes the outcome deterministic
(every element that follows a greedy token inside one alternative is
optional, and lookaheads fail on all shorter backtracking candidates);
the compilation of each pattern documents the relevant argument.

Modelling conventions:
  * strings are `List Char` of Unicode scalar values (same as Python
    code points for the BMP text this program processes);
  * `\d` is modelled as the ASCII digits and `\w` as ASCII alphanumerics,
    underscore and Hangul syllables; the program only processes
    Korean/Latin/digit text, per the spec's non-goals;
  * `\s` is the set of Unicode whitespace characters Python's `re`
    recognises;
  * a nullable Python `title` parameter is an `Option String`
    (`title or ""` becomes `Option.getD "" `).
-/

abbrev Str := List Char

/-- Hangul syllable block, the class written `[가-힣]` in the source. -/
def isKo (c : Char) : Bool := 0xAC00 ≤ c.toNat && c.toNat ≤ 0xD7A3

/-- ASCII decimal digit, modelling `\d` and `[0-9]`. -/
def isDigitC (c : Char) : Bool := 48 ≤ c.toNat && c.toNat ≤ 57

/-- Unicode whitespace as matched by Python's `\s` / `str.strip()`. -/
def isSpaceC (c : Char) : Bool :=
  let n := c.toNat
  (9 ≤ n && n ≤ 13) || n = 32 || (28 ≤ n && n ≤ 31) || n = 0x85 || n = 0xA0 ||
  n = 0x1680 || (0x2000 ≤ n && n ≤ 0x200A) || n = 0x2028 || n = 0x2029 ||
  n = 0x202F || n = 0x205F || n = 0x3000

/-- Word character for `\b`, restricted to the scripts the program
processes: ASCII alphanumerics, underscore, Hangul syllables. -/
def isWordC (c : Char) : Bool :=
  c.isAlphanum || c = '_' || isKo c

/-- The hyphen class `HYP = [-–—−﹣－]` (ASCII and Unicode hyphens). -/
def isHyp (c : Char) : Bool :=
  c = '-' || c = '–' || c = '—' || c = '−' || c = '﹣' || c = '－'

/-- `[가-힣0-9]`, the core class of TOWN_STRICT / PLAN_DIST / ROAD. -/
def isKoDigit (c : Char) : Bool := isKo c || isDigitC c

/-- Python `str.strip()`: drop leading and trailing whitespace. -/
def pyStrip (s : Str) : Str :=
  ((s.dropWhile isSpaceC).reverse.dropWhile isSpaceC).reverse

/-- First position at which `pat` occurs as a contiguous substring,
modelling Python `str.find` (with `none` for `-1`). -/
def idxOfSub (s pat : Str) : Option Nat :=
  if pat.length ≤ s.length then
    if s.take pat.length = pat then some 0
    else match s with
      | [] => none
      | _ :: t => (idxOfSub t pat).map (· + 1)
  else none

/-- Python `str.replace(old, new, 1)` specialised to `new = ""`:
remove the first occurrence of `old`. -/
def removeFirst (s old : Str) : Str :=
  match idxOfSub s old with
  | none => s
  | some i => s.take i ++ s.drop (i + old.length)

/-- Try alternatives in order, committing to the first whose
continuation succeeds (faithful to regex alternation backtracking). -/
def firstSome : List α → (α → Option β) → Option β
  | [], _ => none
  | a :: as, f => match f a with
    | some b => some b
    | none => firstSome as f

/-- Literal-alternation step: all alternatives of `alts` that are a
prefix of `s`, in the source's alternation order. -/
def litMatches (alts : List Str) (s : Str) : List (Str × Str) :=
  alts.filterMap (fun a => if s.take a.length = a then some (a, s.drop a.length) else none)

/-- `\s+` (greedy, maximal run; every token that can follow it in the
source patterns starts with a non-space character, so the maximal run
is the only viable choice). -/
def spaces1 (s : Str) : Option (Str × Str) :=
  let sp := s.takeWhile isSpaceC
  if sp.isEmpty then none else some (sp, s.drop sp.length)

/-- `\s+` followed by a token matcher. -/
def sepThen (m : Str → Option (Str × Str)) (s : Str) : Option (Str × Str) :=
  match spaces1 s with
  | none => none
  | some (sp, s1) =>
    match m s1 with
    | none => none
    | some (c, r) => some (sp ++ c, r)

/-- Greedy repetition of a step, at most `fuel` times, stopping at the
first failure.  Used with `fuel` at least the input length for `*`/`+`
(each successful step consumes at least one character) and with the
literal bound for `{0,n}`. -/
def repRun (step : Str → Option (Str × Str)) : Nat → Str → Str × Str
  | 0, s => ([], s)
  | Nat.succ n, s =>
    match step s with
    | none => ([], s)
    | some (c, r) =>
      let p := repRun step n r
      (c ++ p.1, p.2)

/-- Descending search used to compile `X+suffix` greedy cores: try the
largest core length first, exactly as the backtracking engine does;
`g c` decides whether the suffix alternation matches at offset `c`.
Offsets are tried from `c₀` down to `1` (the core needs one character). -/
def searchDesc (g : Nat → Option Nat) : Nat → Option Nat
  | 0 => none
  | Nat.succ c =>
    match g (Nat.succ c) with
    | some n => some n
    | none => searchDesc g c

-- ─────────────────────────────────────────────────────────────
-- Lexicon (module-level pattern constants of the source)

/-- `PROV_SEJONG = (?:세종특별자치시|세종시|세종)`. -/
def sejongAlts : List Str := ["세종특별자치시".data, "세종시".data, "세종".data]

/-- `REG1_NO_SEJONG`, the province/metro alternation in source order. -/
def regAlts : List Str :=
  ["서울특별시".data, "서울시".data, "서울".data,
   "부산광역시".data, "부산시".data, "부산".data,
   "대구광역시".data, "대구시".data, "대구".data,
   "인천광역시".data, "인천시".data, "인천".data,
   "광주광역시".data, "광주시".data, "광주".data,
   "대전광역시".data, "대전시".data, "대전".data,
   "울산광역시".data, "울산시".data, "울산".data,
   "경기도".data, "경기".data,
   "강원특별자치도".data, "강원도".data, "강원".data,
   "충청북도".data, "충북".data,
   "충청남도".data, "충남".data,
   "전북특별자치도".data, "전라북도".data, "전북".data,
   "전라남도".data, "전남".data,
   "경상북도".data, "경북".data,
   "경상남도".data, "경남".data,
   "제주특별자치도".data, "제주도".data, "제주".data]

/-- The suffix alternation of `CITY_GUN_GU`: 시/군/구. -/
def isSiGunGu (c : Char) : Bool := c = '시' || c = '군' || c = '구'

/-- The suffix alternation of `TOWN_STRICT`: 읍/면/동/가/리. -/
def isTownSuffix (c : Char) : Bool :=
  c = '읍' || c = '면' || c = '동' || c = '가' || c = '리'

-- ─────────────────────────────────────────────────────────────
-- Token matchers (one per grammar fragment of the source)

/-- `CITY_GUN_GU = (?:[가-힣]+(?:시|군|구))(?=\s|$)`.
Compilation: the greedy `[가-힣]+` first takes the whole maximal Hangul
run; the suffix then has to be the run's last character (any shorter
core puts the lookahead on a Hangul character, which is neither `\s`
nor the end), so the unique candidate consumes the entire run. -/
def cgg (s : Str) : Option (Str × Str) :=
  let run := s.takeWhile isKo
  let rest := s.drop run.length
  if 2 ≤ run.length && (run.getLast?.map isSiGunGu).getD false &&
      (rest.isEmpty || (rest.head?.map isSpaceC).getD false) then
    some (run, rest)
  else none

/-- `TOWN_STRICT = (?:[가-힣0-9]+(?:읍|면|동|가|리))`.
Compilation: greedy core over the maximal `[가-힣0-9]` run, suffix at
the largest offset carrying one of the five suffix syllables (nothing
mandatory follows a TOWN in the source patterns, so the greedy choice
is final). -/
def townStrict (s : Str) : Option (Str × Str) :=
  match searchDesc
      (fun c => if (((s.takeWhile isKoDigit).drop c).head?.map isTownSuffix).getD false
                then some (c + 1) else none)
      ((s.takeWhile isKoDigit).length - 1) with
  | some n => some (s.take n, s.drop n)
  | none => none

/-- `TOWN_RELAX = (?:[가-힣]{2,})`: the whole maximal Hangul run when it
has at least two characters. -/
def townRelax (s : Str) : Option (Str × Str) :=
  let run := s.takeWhile isKo
  if 2 ≤ run.length then some (run, s.drop run.length) else none

/-- `TOWN = (?:TOWN_STRICT|TOWN_RELAX)`, alternation order preserved. -/
def town (s : Str) : Option (Str × Str) :=
  match townStrict s with
  | some r => some r
  | none => townRelax s

/-- `PLAN_DIST = (?:[가-힣0-9]+(?:지구|구역))`, compiled like TOWN_STRICT
with the two-syllable suffixes 지구/구역. -/
def planDist (s : Str) : Option (Str × Str) :=
  match searchDesc
      (fun c => if ((s.takeWhile isKoDigit).drop c).take 2 = "지구".data then some (c + 2)
                else if ((s.takeWhile isKoDigit).drop c).take 2 = "구역".data then some (c + 2)
                else none)
      ((s.takeWhile isKoDigit).length - 1) with
  | some n => some (s.take n, s.drop n)
  | none => none

/-- `ROAD = (?:[가-힣0-9]+(?:로|길|대로|번길))`, suffix alternation tried
in source order at each core length, largest core first. -/
def road (s : Str) : Option (Str × Str) :=
  match searchDesc
      (fun c => if ((s.takeWhile isKoDigit).drop c).take 1 = ['로'] then some (c + 1)
                else if ((s.takeWhile isKoDigit).drop c).take 1 = ['길'] then some (c + 1)
                else if ((s.takeWhile isKoDigit).drop c).take 2 = "대로".data then some (c + 2)
                else if ((s.takeWhile isKoDigit).drop c).take 2 = "번길".data then some (c + 2)
                else none)
      ((s.takeWhile isKoDigit).length - 1) with
  | some n => some (s.take n, s.drop n)
  | none => none

/-- The core alternation of `LOT`: `(?:[가-힣]HYP\d+|\d+)`. -/
def lotCore (s : Str) : Option (Str × Str) :=
  let digits : Option (Str × Str) :=
    let ds := s.takeWhile isDigitC
    if ds.isEmpty then none else some (ds, s.drop ds.length)
  match s with
  | k :: h :: rest =>
    if isKo k && isHyp h then
      let ds := rest.takeWhile isDigitC
      if ds.isEmpty then digits else some (k :: h :: ds, rest.drop ds.length)
    else digits
  | _ => digits

/-- The optional `(?:HYP\d+)?` fragment shared by `LOT` and the
`LOT_LIST` continuation. -/
def hypDigits (s : Str) : Str × Str :=
  match s with
  | h :: rest =>
    if isHyp h then
      let ds := rest.takeWhile isDigitC
      if ds.isEmpty then ([], s) else (h :: ds, rest.drop ds.length)
    else ([], s)
  | [] => ([], s)

/-- The optional tail of `LOT`: `(?:HYP\d+)?(?:\s*(?:일원|번지))?`. -/
def lotAfterCore (s : Str) : Str × Str :=
  let p1 := hypDigits s
  let sp := p1.2.takeWhile isSpaceC
  let r := p1.2.drop sp.length
  if r.take 2 = "일원".data then (p1.1 ++ sp ++ "일원".data, r.drop 2)
  else if r.take 2 = "번지".data then (p1.1 ++ sp ++ "번지".data, r.drop 2)
  else (p1.1, p1.2)

/-- `LOT = (?:산\s*)?(?:[가-힣]HYP\d+|\d+)(?:HYP\d+)?(?:\s*(?:일원|번지))?`.
If the optional `산` prefix is taken but no core follows, the engine
backtracks and retries without it. -/
def lot (s : Str) : Option (Str × Str) :=
  let direct : Option (Str × Str) :=
    (lotCore s).map (fun p =>
      let t := lotAfterCore p.2
      (p.1 ++ t.1, t.2))
  match s with
  | c :: rest =>
    if c = '산' then
      let sp := rest.takeWhile isSpaceC
      match lotCore (rest.drop sp.length) with
      | some (co, r) =>
        let t := lotAfterCore r
        some ('산' :: (sp ++ co ++ t.1), t.2)
      | none => direct
    else direct
  | [] => direct

/-- One continuation step of `LOT_LIST`:
`\s*,\s*(?:[가-힣]HYP\d+|\d+)(?:HYP\d+)?`. -/
def lotListStep (s : Str) : Option (Str × Str) :=
  let sp := s.takeWhile isSpaceC
  match s.drop sp.length with
  | c0 :: r2 =>
    if c0 = ',' then
      let sp2 := r2.takeWhile isSpaceC
      match lotCore (r2.drop sp2.length) with
      | some (co, r3) =>
        some (sp ++ ',' :: (sp2 ++ co ++ (hypDigits r3).1), (hypDigits r3).2)
      | none => none
    else none
  | [] => none

/-- `LOT_LIST = LOT (\s*,\s*core(HYP\d+)?)*`. -/
def lotList (s : Str) : Option (Str × Str) :=
  (lot s).map (fun p =>
    let q := repRun lotListStep p.2.length p.2
    (p.1 ++ q.1, q.2))

/-- `PREFIX = (?:\d+\.\s*)?(?:\[[^\]]+\]\s*)*`, the leading ordinal and
bracket-tag stripper.  Returns (consumed, rest).  Greedy consumption is
faithful: every address branch begins with a Hangul letter, so a parse
that gives back part of the prefix can never succeed. -/
def bracketGroups : Nat → Str → Str × Str
  | 0, s => ([], s)
  | Nat.succ n, s =>
    match s with
    | c0 :: r =>
      if c0 = '[' then
        let inner := r.takeWhile (fun c => c ≠ ']')
        let r2 := r.drop inner.length
        if inner.isEmpty then ([], s)
        else match r2 with
          | c1 :: r3 =>
            if c1 = ']' then
              let sp := r3.takeWhile isSpaceC
              let q := bracketGroups n (r3.drop sp.length)
              ('[' :: (inner ++ ']' :: sp ++ q.1), q.2)
            else ([], s)
          | [] => ([], s)
      else ([], s)
    | [] => ([], s)

def matchPfx (s : Str) : Str × Str :=
  let ds := s.takeWhile isDigitC
  let p1 : Str × Str :=
    if ds.isEmpty then ([], s)
    else match s.drop ds.length with
      | c0 :: r =>
        if c0 = '.' then
          let sp := r.takeWhile isSpaceC
          (ds ++ '.' :: sp, r.drop sp.length)
        else ([], s)
      | [] => ([], s)
  let q := bracketGroups p1.2.length p1.2
  (p1.1 ++ q.1, q.2)

-- ─────────────────────────────────────────────────────────────
-- The five address alternatives of PATTERN (source order)

/-- The shared optional tail
`(?:\s+PLAN_DIST)?(?:\s+ROAD)?(?:\s*LOT_LIST)?`. -/
def tailOpt (s : Str) : Str × Str :=
  let a :=
    match sepThen planDist s with
    | some p => p
    | none => ([], s)
  let b :=
    match sepThen road a.2 with
    | some p => p
    | none => ([], a.2)
  let c :=
    let sp := b.2.takeWhile isSpaceC
    match lotList (b.2.drop sp.length) with
    | some p => (sp ++ p.1, p.2)
    | none => ([], b.2)
  (a.1 ++ b.1 ++ c.1, c.2)

/-- Sejong alternative: `PROV_SEJONG (\s+TOWN)⁰˙³ tail`. -/
def sejongBr (s : Str) : Option (Str × Str) :=
  firstSome (litMatches sejongAlts s) (fun pr =>
    let t := repRun (sepThen town) 3 pr.2
    let tl := tailOpt t.2
    some (pr.1 ++ t.1 ++ tl.1, tl.2))

/-- General alternative: `REG1_NO_SEJONG (\s+CITY_GUN_GU)⁺ (\s+TOWN)⁰˙³ tail`. -/
def provEtcBr (s : Str) : Option (Str × Str) :=
  firstSome (litMatches regAlts s) (fun pr =>
    match sepThen cgg pr.2 with
    | none => none
    | some (c1, s2) =>
      let cs := repRun (sepThen cgg) s2.length s2
      let t := repRun (sepThen town) 3 cs.2
      let tl := tailOpt t.2
      some (pr.1 ++ c1 ++ cs.1 ++ t.1 ++ tl.1, tl.2))

/-- District-only alternative: `CITY_GUN_GU (\s+CITY_GUN_GU)* (\s+TOWN)⁰˙³ tail`. -/
def sggOnlyBr (s : Str) : Option (Str × Str) :=
  match cgg s with
  | none => none
  | some (c1, s2) =>
    let cs := repRun (sepThen cgg) s2.length s2
    let t := repRun (sepThen town) 3 cs.2
    let tl := tailOpt t.2
    some (c1 ++ cs.1 ++ t.1 ++ tl.1, tl.2)

/-- `RAW_CITY = (?:[가-힣]{2,})` inside the prov_raw alternative: the
greedy run must be followed by `\s+` (shorter backtracking candidates
end on a Hangul character where `\s+` fails), so it is the full run. -/
def rawCity (s : Str) : Option (Str × Str) :=
  let run := s.takeWhile isKo
  if 2 ≤ run.length then some (run, s.drop run.length) else none

/-- Province+raw-city alternative:
`REG1_NO_SEJONG \s+ RAW_CITY (\s+TOWN)¹˙³ tail`. -/
def provRawBr (s : Str) : Option (Str × Str) :=
  firstSome (litMatches regAlts s) (fun pr =>
    match sepThen rawCity pr.2 with
    | none => none
    | some (rc, s2) =>
      match sepThen town s2 with
      | none => none
      | some (t1, s3) =>
        let t := repRun (sepThen town) 2 s3
        let tl := tailOpt t.2
        some (pr.1 ++ rc ++ t1 ++ t.1 ++ tl.1, tl.2))

/-- Province+town alternative: `REG1_NO_SEJONG (\s+TOWN)¹˙³ tail`. -/
def provTownBr (s : Str) : Option (Str × Str) :=
  firstSome (litMatches regAlts s) (fun pr =>
    match sepThen town pr.2 with
    | none => none
    | some (t1, s2) =>
      let t := repRun (sepThen town) 2 s2
      let tl := tailOpt t.2
      some (pr.1 ++ t1 ++ t.1 ++ tl.1, tl.2))

/-- The alternation body of `PATTERN` (group `addr` minus `PREFIX`):
the five alternatives in source order, first match wins. -/
def addrBody (s : Str) : Option (Str × Str) :=
  match sejongBr s with
  | some r => some r
  | none =>
    match provEtcBr s with
    | some r => some r
    | none =>
      match sggOnlyBr s with
      | some r => some r
      | none =>
        match provRawBr s with
        | some r => some r
        | none => provTownBr s

/-- `RX_ADDR.search(title)`: the pattern is anchored with `^`, so the
only possible match starts at offset 0; the whole match is the `addr`
group, `PREFIX` included. -/
def rxAddrMatch (s : Str) : Option Str :=
  let p := matchPfx s
  (addrBody p.2).map (fun b => p.1 ++ b.1)

/-- `extract_address` (source lines 123-128): search, then strip the
`^PREFIX` of the matched span again, then Python `str.strip()`. -/
def extract_address (title : Option String) : String :=
  match rxAddrMatch (title.getD "").data with
  | none => ""
  | some span => String.mk (pyStrip (matchPfx span).2)

-- ─────────────────────────────────────────────────────────────
-- Region summarizer (RX_SGG / RX_SGJ / RX_SGG_ONLY / RX_PROV_RAWCITY /
-- RX_PROV_TOWN and the two public queries)

/-- `RX_SGG = ^PREFIX (prov)(\s+sgg1)(\s+sgg2)?` with captured groups
(prov surface form, sgg1, sgg2 or empty). -/
def rxSgg (s : Str) : Option (Str × Str × Str) :=
  let p := matchPfx s
  firstSome (litMatches regAlts p.2) (fun pr =>
    match sepThen cgg pr.2 with
    | none => none
    | some (_, s2) =>
      let sgg1 := ((pr.2.dropWhile isSpaceC).takeWhile isKo)
      match sepThen cgg s2 with
      | some (_, _) =>
        some (pr.1, sgg1, (s2.dropWhile isSpaceC).takeWhile isKo)
      | none => some (pr.1, sgg1, []))

/-- `RX_SGJ = ^PREFIX (PROV_SEJONG)\b`. -/
def rxSgj (s : Str) : Option Str :=
  let p := matchPfx s
  firstSome (litMatches sejongAlts p.2) (fun pr =>
    if pr.2.isEmpty || !((pr.2.head?.map isWordC).getD false) then some pr.1 else none)

/-- `RX_SGG_ONLY = ^PREFIX (sgg1)(\s+sgg2)?`. -/
def rxSggOnly (s : Str) : Option (Str × Str) :=
  let p := matchPfx s
  match cgg p.2 with
  | none => none
  | some (c1, s2) =>
    match sepThen cgg s2 with
    | some (_, _) => some (c1, (s2.dropWhile isSpaceC).takeWhile isKo)
    | none => some (c1, [])

/-- `RX_PROV_RAWCITY = ^PREFIX (prov)\s+(rawcity)\s+TOWN`. -/
def rxProvRawCity (s : Str) : Option (Str × Str) :=
  let p := matchPfx s
  firstSome (litMatches regAlts p.2) (fun pr =>
    match sepThen rawCity pr.2 with
    | none => none
    | some (_, s2) =>
      match sepThen town s2 with
      | none => none
      | some _ => some (pr.1, (pr.2.dropWhile isSpaceC).takeWhile isKo))

/-- `RX_PROV_TOWN = ^PREFIX (prov)\s+TOWN`. -/
def rxProvTown (s : Str) : Option Str :=
  let p := matchPfx s
  firstSome (litMatches regAlts p.2) (fun pr =>
    match sepThen town pr.2 with
    | none => none
    | some _ => some pr.1)

/-- `_PROV_STD`, the abbreviation-to-official-name table in source order. -/
def PROV_STD : List (String × String) :=
  [("서울", "서울특별시"), ("서울시", "서울특별시"),
   ("부산", "부산광역시"), ("부산시", "부산광역시"),
   ("대구", "대구광역시"), ("대구시", "대구광역시"),
   ("인천", "인천광역시"), ("인천시", "인천광역시"),
   ("광주", "광주광역시"), ("광주시", "광주광역시"),
   ("대전", "대전광역시"), ("대전시", "대전광역시"),
   ("울산", "울산광역시"), ("울산시", "울산광역시"),
   ("경기", "경기도"),
   ("강원", "강원특별자치도"), ("강원도", "강원특별자치도"),
   ("충북", "충청북도"),
   ("충남", "충청남도"),
   ("전라북도", "전북특별자치도"), ("전북", "전북특별자치도"),
   ("전남", "전라남도"),
   ("경북", "경상북도"),
   ("경남", "경상남도"),
   ("제주", "제주특별자치도"), ("제주도", "제주특별자치도"),
   ("세종", "세종특별자치시"), ("세종시", "세종특별자치시")]

/-- `_normalize_province`: `_PROV_STD.get(p, p)`. -/
def normalize_province (p : String) : String :=
  (PROV_STD.lookup p).getD p

/-- The string preprocessing shared by the two region queries:
`s = (x or "").strip()` then `s = re.sub(^PREFIX, "", s)`. -/
def regionPre (x : Option String) : Str :=
  (matchPfx (pyStrip (x.getD "").data)).2

def joinSgg (a b : Str) : String :=
  String.mk (pyStrip (a ++ (if b.isEmpty then [] else ' ' :: b)))

/-- `extract_province_sgg` (source lines 192-250), with the
`use_address_fallback` keyword parameter. -/
def extract_province_sgg (x : Option String) (useAddressFallback : Bool := true) : String :=
  let s := regionPre x
  match rxSgg s with
  | some (pr, sgg1, sgg2) =>
    String.mk (pyStrip ((normalize_province (String.mk pr)).data ++ ' ' :: sgg1 ++
      (if sgg2.isEmpty then [] else ' ' :: sgg2)))
  | none =>
    let addr := (extract_address (some (String.mk s))).data
    let fb := useAddressFallback && !addr.isEmpty
    match rxSgj s with
    | some pr => normalize_province (String.mk pr)
    | none =>
      match (if fb then rxSgg addr else none) with
      | some (pr, sgg1, sgg2) =>
        String.mk (pyStrip ((normalize_province (String.mk pr)).data ++ ' ' :: sgg1 ++
          (if sgg2.isEmpty then [] else ' ' :: sgg2)))
      | none =>
        match (if fb then rxSgj addr else none) with
        | some pr => normalize_province (String.mk pr)
        | none =>
          match (match rxSggOnly s with
                 | some m => some m
                 | none => if fb then rxSggOnly addr else none) with
          | some (sgg1, sgg2) => joinSgg (pyStrip sgg1) (pyStrip sgg2)
          | none =>
            match (match rxProvRawCity s with
                   | some m => some m
                   | none => if fb then rxProvRawCity addr else none) with
            | some (pr, rc) =>
              String.mk (pyStrip ((normalize_province (String.mk pr)).data ++ ' ' :: pyStrip rc))
            | none =>
              match (match rxProvTown s with
                     | some m => some m
                     | none => if fb then rxProvTown addr else none) with
              | some pr => normalize_province (String.mk pr)
              | none => ""

/-- `extract_city_sgg` (source lines 252-301): same cascade as
`extract_province_sgg` but returning only the district part. -/
def extract_city_sgg (x : Option String) (useAddressFallback : Bool := true) : String :=
  let s := regionPre x
  match rxSgg s with
  | some (_, sgg1, sgg2) => joinSgg sgg1 sgg2
  | none =>
    let addr := (extract_address (some (String.mk s))).data
    let fb := useAddressFallback && !addr.isEmpty
    match rxSgj s with
    | some _ => ""
    | none =>
      match (if fb then rxSgg addr else none) with
      | some (_, sgg1, sgg2) => joinSgg sgg1 sgg2
      | none =>
        match (if fb then rxSgj addr else none) with
        | some _ => ""
        | none =>
          match (match rxSggOnly s with
                 | some m => some m
                 | none => if fb then rxSggOnly addr else none) with
          | some (sgg1, sgg2) => joinSgg (pyStrip sgg1) (pyStrip sgg2)
          | none =>
            match (match rxProvRawCity s with
                   | some m => some m
                   | none => if fb then rxProvRawCity addr else none) with
            | some (_, rc) => String.mk (pyStrip rc)
            | none =>
              match (match rxProvTown s with
                     | some m => some m
                     | none => if fb then rxProvTown addr else none) with
              | some _ => ""
              | none => ""

-- ─────────────────────────────────────────────────────────────
-- Building-name extractor

/-- `[0-9A-Za-z\-]`, the core class of `_UNIT_TOKENS`. -/
def isUnitCore (c : Char) : Bool := c.isAlphanum || c = '-'

/-- `[가-힣A-Za-z0-9\-·]`, the class `_BUILDING_CORE`. -/
def isCoreC (c : Char) : Bool := isKo c || c.isAlphanum || c = '-' || c = '·'

/-- Nearest `]`/`)` reachable by the lazy `.*?` (which cannot cross a
newline) — for `_BRACKET = [\[\(].*?[\]\)]`. -/
def closerIdx : Str → Option Nat
  | [] => none
  | c :: r =>
    if c = ']' || c = ')' then some 0
    else if c = '\n' then none
    else (closerIdx r).map (· + 1)

/-- `_BRACKET.sub(" ", s)`: replace every bracketed/parenthesised aside
with one space (leftmost, non-overlapping). -/
def bracketSub : Nat → Str → Str
  | 0, s => s
  | _ + 1, [] => []
  | n + 1, c :: r =>
    if c = '[' || c = '(' then
      match closerIdx r with
      | some j => ' ' :: bracketSub n (r.drop (j + 1))
      | none => c :: bracketSub n r
    else c :: bracketSub n r

/-- Match length of `_UNIT_TOKENS` at the current position:
`제?[0-9A-Za-z\-]+(동|층|호)` (the digit-only alternatives of the source
are special cases of this shape). -/
def unitMatchLen (s : Str) : Option Nat :=
  let tryAt : Str → Nat → Option Nat := fun u pre =>
    let run := u.takeWhile isUnitCore
    if run.isEmpty then none
    else match u.drop run.length with
      | c :: _ =>
        if c = '동' || c = '층' || c = '호' then some (pre + run.length + 1) else none
      | [] => none
  match s with
  | '제' :: r =>
    match tryAt r 1 with
    | some n => some n
    | none => tryAt s 0
  | _ => tryAt s 0

/-- `_UNIT_TOKENS.sub(" ", s)`. -/
def unitSub : Nat → Str → Str
  | 0, s => s
  | _ + 1, [] => []
  | n + 1, c :: r =>
    match unitMatchLen (c :: r) with
    | some k => ' ' :: unitSub n ((c :: r).drop k)
    | none => c :: unitSub n r

/-- literal `a` at the head. -/
def litHere (a : Str) (s : Str) : Bool := s.take a.length = a

/-- `a \s* b` at the head. -/
def litSpLit (a b : Str) (s : Str) : Bool :=
  litHere a s &&
    (let r := s.drop a.length
     let sp := r.takeWhile isSpaceC
     litHere b (r.drop sp.length))

/-- `후\s*개별수의계약\s*공고` at the head. -/
def litHuGongo (s : Str) : Bool :=
  litHere "후".data s &&
    (let r := s.drop 1
     let sp := r.takeWhile isSpaceC
     let r1 := r.drop sp.length
     litHere "개별수의계약".data r1 &&
       (let r2 := r1.drop 6
        let sp2 := r2.takeWhile isSpaceC
        litHere "공고".data (r2.drop sp2.length)))

/-- `_BUILDING_STOP` matches at the head (given the previous character
for the `\b공고\b` alternative). -/
def stopHere (prev : Option Char) (s : Str) : Bool :=
  litHere "일괄매각".data s || litHere "개별매각".data s ||
  litSpLit "매각".data "공고".data s || litHere "매각공고".data s ||
  litHere "재공매".data s || litHere "재매각".data s ||
  litHuGongo s ||
  litSpLit "공매".data "공고".data s || litHere "공매공고".data s ||
  litSpLit "입찰".data "공고".data s || litHere "입찰공고".data s ||
  ((match prev with | none => true | some c => !isWordC c) &&
   litHere "공고".data s &&
   (match s.drop 2 with | [] => true | c :: _ => !isWordC c))

/-- `_BUILDING_STOP.search(s).start()`: leftmost match position. -/
def findStopFrom (prev : Option Char) : Str → Option Nat
  | [] => if stopHere prev [] then some 0 else none
  | c :: r =>
    if stopHere prev (c :: r) then some 0
    else (findStopFrom (some c) r).map (· + 1)

/-- `_SEPARATORS = [,··/]|(?:\s+외\s+)` match length at the head. -/
def sepLen (s : Str) : Option Nat :=
  match s with
  | [] => none
  | c :: _ =>
    if c = ',' || c = '·' || c = '/' then some 1
    else
      let sp := s.takeWhile isSpaceC
      if sp.isEmpty then none
      else match s.drop sp.length with
        | '외' :: r2 =>
          let sp2 := r2.takeWhile isSpaceC
          if sp2.isEmpty then none else some (sp.length + 1 + sp2.length)
        | _ => none

/-- `_SEPARATORS.split(s)`. -/
def splitSeps : Nat → Str → List Str
  | 0, s => [s]
  | _ + 1, [] => [[]]
  | n + 1, c :: r =>
    match sepLen (c :: r) with
    | some k => [] :: splitSeps n ((c :: r).drop k)
    | none =>
      match splitSeps n r with
      | [] => [[c]]
      | p :: ps => (c :: p) :: ps

/-- `_BUILDING_CANDIDATE.finditer`: the optional building suffix is a
Hangul string, hence always inside the greedy `_BUILDING_CORE` run, so
the matches are exactly the maximal runs of the core class. -/
def runsOf : Nat → Str → List Str
  | 0, _ => []
  | _ + 1, [] => []
  | n + 1, c :: r =>
    if isCoreC c then (c :: r.takeWhile isCoreC) :: runsOf n (r.dropWhile isCoreC)
    else runsOf n r

/-- Python `str.strip(chars)` for a character predicate. -/
def trimChars (p : Char → Bool) (s : Str) : Str :=
  ((s.dropWhile p).reverse.dropWhile p).reverse

/-- First alternative of `_EXCLUDE_BUILDING`'s body:
`(?:[가-힣]HYP\d+|\d+)(?:HYP\d+)?(?:번지)?` as a prefix (`.match`). -/
def exclA1 (u : Str) : Bool :=
  match u with
  | [] => false
  | k :: r =>
    isDigitC k ||
    (isKo k && (match r with
                | h :: d :: _ => isHyp h && isDigitC d
                | _ => false))

/-- Second alternative: `\d+\s*개(?:\s*(?:호|호실|세대|필지))?` as a prefix. -/
def exclA2 (u : Str) : Bool :=
  let ds := u.takeWhile isDigitC
  !ds.isEmpty &&
    (let r := u.drop ds.length
     let sp := r.takeWhile isSpaceC
     (r.drop sp.length).head? = some '개')

/-- Third alternative: `(?:호|호실|세대|필지)$` (anchored at the end). -/
def exclA3 (u : Str) : Bool :=
  u = "호".data || u = "호실".data || u = "세대".data || u = "필지".data

/-- The optional prefix `(?:외\s*\d+\s*)?` taken with its `\d+` greedy:
the remainder the engine sees on the full-digit-run split.  Backtracking
the trailing `\s*` only exposes a space to the body, on which every body
alternative fails (none begins with whitespace), so among the splits that
consume the whole digit run this is the only viable one; the splits that
give digits back to the body are handled in `exclBuilding`. -/
def exclOe (u : Str) : Option Str :=
  match u with
  | '외' :: r =>
    let sp := r.takeWhile isSpaceC
    let r1 := r.drop sp.length
    let ds := r1.takeWhile isDigitC
    if ds.isEmpty then none
    else
      let r2 := r1.drop ds.length
      some (r2.drop (r2.takeWhile isSpaceC).length)
  | _ => none

/-- `_EXCLUDE_BUILDING.match(token)` (anchored at the start only).  The
optional prefix backtracks over its `\d+`: whenever the digit run after
외 (and optional spaces) has at least two digits, the engine can give one
digit back, the trailing `\s*` matches empty in front of it, and the
body's bare `\d+` alternative then matches immediately — so every such
token matches regardless of what follows the digits.  That split is the
first disjunct; the full-run split and the prefix-less parse follow. -/
def exclBuilding (u : Str) : Bool :=
  (match u with
   | '외' :: r =>
     2 ≤ ((r.drop (r.takeWhile isSpaceC).length).takeWhile isDigitC).length
   | _ => false) ||
  (match exclOe u with
   | some v => exclA1 v || exclA2 v || exclA3 v
   | none => false) ||
  exclA1 u || exclA2 u || exclA3 u

/-- `u` ends with `w`. -/
def endsWithL (u w : Str) : Bool :=
  w.length ≤ u.length && u.drop (u.length - w.length) = w

/-- `_ADMIN_FULL` (exact full match against the fixed name list). -/
def ADMIN_FULL : List String :=
  ["서울특별시", "서울시", "서울", "부산광역시", "부산시", "부산",
   "대구광역시", "대구시", "대구", "인천광역시", "인천시", "인천",
   "광주광역시", "광주시", "광주", "대전광역시", "대전시", "대전",
   "울산광역시", "울산시", "울산", "경기도", "경기",
   "강원특별자치도", "강원도", "강원", "충청북도", "충북",
   "충청남도", "충남", "전북특별자치도", "전라북도", "전북",
   "전라남도", "전남", "경상북도", "경북", "경상남도", "경남",
   "제주특별자치도", "제주도", "제주", "세종특별자치시", "세종시", "세종"]

/-- `_ADMIN_SUFFIX.search(token)`: token ends with one of the
administrative suffixes. -/
def adminSuffixEnds (u : Str) : Bool :=
  endsWithL u "광역시".data || endsWithL u "특별시".data ||
  endsWithL u "특별자치시".data || endsWithL u "특별자치도".data ||
  endsWithL u "도".data || endsWithL u "시".data ||
  endsWithL u "군".data || endsWithL u "구".data

/-- `_is_admin_token` of the source. -/
def is_admin_token (u : Str) : Bool :=
  ADMIN_FULL.any (fun w => u = w.data) || adminSuffixEnds u

/-- `_FORBID_BUILDING` (exact match against the announcement words). -/
def FORBID_BUILDING : List String :=
  ["공매공고", "공매", "입찰공고", "입찰", "매각공고", "매각", "공고",
   "연기공고", "연기"]

def forbidBuilding (u : Str) : Bool := FORBID_BUILDING.any (fun w => u = w.data)

/-- `_BUILDING_SUFFIX`, the suffix alternation of `_BUILDING_CANDIDATE`
(the set the spec calls the recognized building-type suffixes). -/
def BUILDING_SUFFIX : List String :=
  ["타워", "팰리스", "캐슬", "캐슬플러스", "팰리움", "밸리", "스퀘어", "시티",
   "힐스", "힐스테이트", "아이파크", "자이", "더힐", "프라자", "프라임",
   "스카이", "에버빌", "해링턴타워", "해링턴", "아파트", "오피스텔",
   "연립주택", "주건축물", "몰", "빌라", "빌리지", "스포츠몰", "블록",
   "블럭", "롯트", "로트", "생활형숙박시설"]

/-- The suffix tuple hard-coded inside `score` (source lines 376-380);
note it is a proper subset of `_BUILDING_SUFFIX`. -/
def SCORE_SUFFIX : List String :=
  ["타워", "팰리스", "캐슬", "밸리", "스퀘어", "시티", "힐스", "아이파크",
   "자이", "더힐", "프라자", "프라임", "스카이", "에버빌", "해링턴타워",
   "해링턴", "아파트", "오피스텔", "빌라", "빌리지", "몰", "스포츠몰",
   "블록", "블럭", "롯트", "로트", "생활형숙박시설"]

/-- `score(x)` of `extract_building_name`. -/
def score (x : Str) : Nat × Nat :=
  (if SCORE_SUFFIX.any (fun w => endsWithL x w.data) then 1 else 0, x.length)

/-- Python tuple comparison `score(a) > score(b)` (lexicographic). -/
def scoreGtB (a b : Nat × Nat) : Bool :=
  b.1 < a.1 || (a.1 = b.1 && b.2 < a.2)

/-- The truncated search region of `extract_building_name`: text after
the address span, brackets and unit tokens blanked, cut at the first
sale/announcement keyword. -/
def buildingTail (title : Option String) : Str :=
  let s := (matchPfx (pyStrip (title.getD "").data)).2
  let addr := (extract_address (some (String.mk s))).data
  let tail :=
    if addr.isEmpty then s
    else match idxOfSub s addr with
      | some i => pyStrip (s.drop (i + addr.length))
      | none => s
  let t1 := bracketSub tail.length tail
  let t2 := unitSub t1.length t1
  match findStopFrom none t2 with
  | some i => pyStrip (t2.take i)
  | none => t2

/-- The nonempty stripped segments between separators. -/
def buildingParts (title : Option String) : List Str :=
  let t := buildingTail title
  ((splitSeps t.length t).map pyStrip).filter (fun p => !p.isEmpty)

/-- All candidate tokens, in scan order, after the per-token strip. -/
def candTokens (title : Option String) : List Str :=
  (buildingParts title).flatMap (fun p =>
    (runsOf p.length p).map (fun r =>
      pyStrip (trimChars (fun c => c = '-' || c = '·') r)))

/-- The filter block of the candidate loop (length, lot/quantity,
administrative, forbidden word). -/
def keepToken (tok : Str) : Bool :=
  2 ≤ tok.length && !exclBuilding tok && !is_admin_token tok && !forbidBuilding tok

/-- The candidates that reach the scoring comparison. -/
def survivors (title : Option String) : List Str :=
  (candTokens title).filter keepToken

/-- The `best` accumulation loop of `extract_building_name`. -/
def bestFold : List Str → Str → Str
  | [], best => best
  | t :: ts, best =>
    bestFold ts (if best.isEmpty || scoreGtB (score t) (score best) then t else best)

/-- `extract_building_name` (source lines 350-397). -/
def extract_building_name (title : Option String) : String :=
  String.mk (bestFold (survivors title) [])

-- ─────────────────────────────────────────────────────────────
-- Residual sale-content reducer

/-- `re.sub(r"\s+", " ", s)`: collapse whitespace runs. -/
def collapseWs : Nat → Str → Str
  | 0, s => s
  | _ + 1, [] => []
  | n + 1, c :: r =>
    if isSpaceC c then ' ' :: collapseWs n (r.dropWhile isSpaceC)
    else c :: collapseWs n r

def isSepPunct (c : Char) : Bool := c = ',' || c = '·' || c = '/'

/-- `re.sub(r"\s*([,··/])\s*", r"\1", s)`: drop spaces around the
separator punctuation. -/
def sepSpaceSub : Nat → Str → Str
  | 0, s => s
  | _ + 1, [] => []
  | n + 1, c :: r =>
    let sp := (c :: r).takeWhile isSpaceC
    match (c :: r).drop sp.length with
    | d :: r2 =>
      if isSepPunct d then d :: sepSpaceSub n (r2.dropWhile isSpaceC)
      else c :: sepSpaceSub n r
    | [] => c :: sepSpaceSub n r

/-- `extract_sale_content` (source lines 402-431). -/
def extract_sale_content (title : Option String) : String :=
  let s0 := (matchPfx (pyStrip (title.getD "").data)).2
  let addr := (extract_address (some (String.mk s0))).data
  let s1 :=
    if addr.isEmpty then s0
    else match idxOfSub s0 addr with
      | some i => pyStrip (s0.take i ++ s0.drop (i + addr.length))
      | none => s0
  let ps := (extract_province_sgg title true).data
  let s2 := if ps.isEmpty then s1 else pyStrip (removeFirst s1 ps)
  let bld := (extract_building_name title).data
  let s3 := if bld.isEmpty then s2 else pyStrip (removeFirst s2 bld)
  let s4 :=
    match s3 with
    | '외' :: r =>
      let sp := r.takeWhile isSpaceC
      let r1 := r.drop sp.length
      let ds := r1.takeWhile isDigitC
      if ds.isEmpty then s3 else ds ++ (r1.drop ds.length).dropWhile isSpaceC
    | _ => s3
  let s5 := collapseWs s4.length s4
  let s6 := sepSpaceSub s5.length s5
  let s7 := s6.dropWhile isSepPunct
  let s8 := (s7.reverse.dropWhile isSepPunct).reverse
  String.mk (pyStrip s8)

-- ─────────────────────────────────────────────────────────────
-- Auxiliary definitions for the claim statements

/-- The spec's end-to-end scenario 3 title. -/
def t_paju : String := "경기 파주 야당동 한빛마을아파트 101동 일괄매각"

/-- The spec's end-to-end scenario 4 title. -/
def t_mansu : String := "인천 만수동 3필지 외 2개 개별매각"

/-- A title whose building candidates separate a suffix-confirmed name
from a longer unconfirmed token. -/
def t_hills : String := "인천 만수동, 가나힐스테이트, 가나다라마바사아자차"

/-- Whitespace-delimited tokens of a string (maximal nonspace runs). -/
def tokensOf (s : Str) : List Str :=
  (s.splitOnP isSpaceC).filter (fun t => !t.isEmpty)

/-- A token of the form digits followed by 동, 층 or 호 (the spec's
"digit-prefixed unit-number token"). -/
def isUnitNumTok (tok : Str) : Bool :=
  !tok.dropLast.isEmpty && tok.dropLast.all isDigitC &&
    (tok.getLast? = some '동' || tok.getLast? = some '층' || tok.getLast? = some '호')

/-- The branch of the region-summarizer cascade (with the default
address fallback) that decides a title, mirroring the control flow of
`extract_city_sgg` / `extract_province_sgg`. -/
inductive RegionCase where
  | viaSgg | viaSggAddr | sejong | sggOnly | provRawCity | provTown | noMatch
deriving DecidableEq

def regionCase (x : Option String) : RegionCase :=
  let s := regionPre x
  match rxSgg s with
  | some _ => .viaSgg
  | none =>
    let addr := (extract_address (some (String.mk s))).data
    let fb := !addr.isEmpty
    match rxSgj s with
    | some _ => .sejong
    | none =>
      match (if fb then rxSgg addr else none) with
      | some _ => .viaSggAddr
      | none =>
        match (if fb then rxSgj addr else none) with
        | some _ => .sejong
        | none =>
          match (match rxSggOnly s with
                 | some m => some m
                 | none => if fb then rxSggOnly addr else none) with
          | some _ => .sggOnly
          | none =>
            match (match rxProvRawCity s with
                   | some m => some m
                   | none => if fb then rxProvRawCity addr else none) with
            | some _ => .provRawCity
            | none =>
              match (match rxProvTown s with
                     | some m => some m
                     | none => if fb then rxProvTown addr else none) with
              | some _ => .provTown
              | none => .noMatch

/-- The `rawcity` capture group of the branch-4 match used by the
region queries (with the default fallback). -/
def rawCityCapture (x : Option String) : Option Str :=
  let s := regionPre x
  let addr := (extract_address (some (String.mk s))).data
  let fb := !addr.isEmpty
  match (match rxProvRawCity s with
         | some m => some m
         | none => if fb then rxProvRawCity addr else none) with
  | some (_, rc) => some rc
  | none => none

-- ─────────────────────────────────────────────────────────────
-- Helper lemmas

theorem drop_takeWhile_length (p : Char → Bool) :
    ∀ s : Str, s.drop (s.takeWhile p).length = s.dropWhile p
  | [] => rfl
  | c :: r => by
    by_cases h : p c
    · simp [List.takeWhile_cons, List.dropWhile_cons, h, drop_takeWhile_length p r]
    · simp [List.takeWhile_cons, List.dropWhile_cons, h]

theorem lookup_val_stable {l : List (String × String)} {p v : String}
    (hall : l.all (fun q => (PROV_STD.lookup q.2).isNone) = true)
    (h : l.lookup p = some v) : PROV_STD.lookup v = none := by
  induction l with
  | nil => simp [List.lookup] at h
  | cons a as ih =>
    simp only [List.all_cons, Bool.and_eq_true] at hall
    rw [List.lookup] at h
    cases hk : (p == a.1) with
    | true =>
      rw [hk] at h
      cases h
      exact Option.isNone_iff_eq_none.mp hall.1
    | false =>
      rw [hk] at h
      exact ih hall.2 h

-- ─────────────────────────────────────────────────────────────
-- Claim theorems

/-- Claim C2, counterexample: on the scenario-3 title the relaxed town
token of the prov_raw alternative absorbs the building name and the
digit-prefixed 동 token into the address, and the building extractor
consequently returns the empty string, so the claimed quadruple of
outputs does not hold. -/
theorem C2_counterexample :
    ¬ (extract_address (some t_paju) = "경기 파주 야당동" ∧
       extract_province_sgg (some t_paju) = "경기도 파주" ∧
       extract_building_name (some t_paju) = "한빛마을아파트" ∧
       extract_sale_content (some t_paju) = "일괄매각") := by
  intro h
  exact absurd h.1 (by decide)

/-- Claim C2, amended: on the title
"경기 파주 야당동 한빛마을아파트 101동 일괄매각" the engine returns
address "경기 파주 야당동 한빛마을아파트 101동", province+district
"경기도 파주", building name "" and sale content "일괄매각". -/
theorem C2_actual_values :
    extract_address (some t_paju) = "경기 파주 야당동 한빛마을아파트 101동" ∧
    extract_province_sgg (some t_paju) = "경기도 파주" ∧
    extract_building_name (some t_paju) = "" ∧
    extract_sale_content (some t_paju) = "일괄매각" := by
  refine ⟨by decide, by decide, by decide, by decide⟩

/-- Claim C3, counterexample: on the scenario-4 title the optional
lot-list tail of the prov_town alternative absorbs the bare digit "3",
so the address is "인천 만수동 3" rather than "인천 만수동", and the
sale content keeps its interior spaces, so the claimed quadruple does
not hold. -/
theorem C3_counterexample :
    ¬ (extract_address (some t_mansu) = "인천 만수동" ∧
       extract_province_sgg (some t_mansu) = "인천광역시" ∧
       extract_building_name (some t_mansu) = "" ∧
       extract_sale_content (some t_mansu) = "3필지외2개개별매각") := by
  intro h
  exact absurd h.1 (by decide)

/-- Claim C3, amended: on the title "인천 만수동 3필지 외 2개 개별매각"
the engine returns address "인천 만수동 3", province+district
"인천광역시", building name "" and sale content
"필지 외 2개 개별매각" (whitespace is collapsed, not removed). -/
theorem C3_actual_values :
    extract_address (some t_mansu) = "인천 만수동 3" ∧
    extract_province_sgg (some t_mansu) = "인천광역시" ∧
    extract_building_name (some t_mansu) = "" ∧
    extract_sale_content (some t_mansu) = "필지 외 2개 개별매각" := by
  refine ⟨by decide, by decide, by decide, by decide⟩

/-- Claim C6: province canonicalization is idempotent (every value of
the normalization table is itself out of the table's domain) and total:
a surface form outside the table passes through unchanged. -/
theorem C6_normalize_province_idem (p : String) :
    normalize_province (normalize_province p) = normalize_province p ∧
    (PROV_STD.lookup p = none → normalize_province p = p) := by
  constructor
  · unfold normalize_province
    cases h : PROV_STD.lookup p with
    | none => simp [h]
    | some v =>
      have hv : PROV_STD.lookup v = none :=
        lookup_val_stable (l := PROV_STD) (by decide) h
      simp [h, hv]
  · intro h
    unfold normalize_province
    simp [h]

/-- Witness for C6 at a lexicon abbreviation and an unknown form. -/
theorem C6_witness :
    normalize_province (normalize_province "경기") = normalize_province "경기" ∧
    normalize_province "한양" = "한양" :=
  ⟨(C6_normalize_province_idem "경기").1,
   (C6_normalize_province_idem "한양").2 (by decide)⟩

/-- Claim C9: the city/county/district token requires a
whitespace-or-end boundary, so it never matches a proper prefix of a
longer Hangul word — whatever follows a successful match is never a
Hangul syllable (a town name such as 강구면 cannot be truncated at its
embedded district-like syllable). -/
theorem C9_cgg_boundary (s c : Str) (ch : Char) (r : Str)
    (h : cgg s = some (c, ch :: r)) : isKo ch = false := by
  unfold cgg at h
  by_cases hc :
      (2 ≤ (s.takeWhile isKo).length &&
        (((s.takeWhile isKo).getLast?.map isSiGunGu).getD false) &&
        ((s.drop (s.takeWhile isKo).length).isEmpty ||
          (((s.drop (s.takeWhile isKo).length).head?.map isSpaceC).getD false))) = true
  · rw [if_pos hc] at h
    simp only [Option.some.injEq, Prod.mk.injEq] at h
    have hdw : s.dropWhile isKo = ch :: r := by
      rw [← drop_takeWhile_length isKo s]
      exact h.2
    have := List.head_dropWhile_not isKo s (by rw [hdw]; simp)
    simp only [hdw, List.head_cons] at this
    exact this
  · rw [if_neg hc] at h
    cases h

/-- Witness for C9 at a concrete district token followed by a town. -/
theorem C9_witness : isKo ' ' = false :=
  C9_cgg_boundary "강남구 역삼동".data "강남구".data ' ' "역삼동".data (by decide)

theorem all_takeWhile (p : Char → Bool) : ∀ s : Str, (s.takeWhile p).all p = true
  | [] => rfl
  | c :: r => by
    by_cases h : p c
    · simp [List.takeWhile_cons, h, all_takeWhile p r]
    · simp [List.takeWhile_cons, h]

theorem getLast?_of_all {p : Char → Bool} {l : Str} {d : Char}
    (hall : l.all p = true) (h : l.getLast? = some d) : p d = true := by
  have hd : d ∈ l := List.mem_of_mem_getLast? (by rw [h]; exact rfl)
  exact (List.all_eq_true.mp hall) d hd

theorem searchDesc_spec {g : Nat → Option Nat} :
    ∀ c0 n, searchDesc g c0 = some n → ∃ c, 1 ≤ c ∧ c ≤ c0 ∧ g c = some n := by
  intro c0
  induction c0 with
  | zero => intro n h; simp [searchDesc] at h
  | succ c ih =>
    intro n h
    rw [searchDesc] at h
    cases hg : g (c + 1) with
    | some m =>
      rw [hg] at h
      cases h
      exact ⟨c + 1, by omega, by omega, hg⟩
    | none =>
      rw [hg] at h
      obtain ⟨c', h1, h2, h3⟩ := ih n h
      exact ⟨c', h1, by omega, h3⟩

theorem scoreGtB_irrefl (a : Nat × Nat) : scoreGtB a a = false := by
  simp [scoreGtB]

theorem scoreGtB_zero_left (y : Nat × Nat) : scoreGtB (0, 0) y = false := by
  simp [scoreGtB]

theorem scoreGtB_neg_trans {a b c : Nat × Nat} (h1 : scoreGtB a b = false)
    (h2 : scoreGtB b c = false) : scoreGtB a c = false := by
  simp only [scoreGtB, Bool.or_eq_false_iff, Bool.and_eq_false_iff,
    decide_eq_false_iff_not, decide_eq_true_eq] at *
  omega

theorem scoreGtB_lt_trans {a b c : Nat × Nat} (h1 : scoreGtB a b = false)
    (h2 : scoreGtB c b = true) : scoreGtB a c = false := by
  simp only [scoreGtB, Bool.or_eq_false_iff, Bool.and_eq_false_iff, Bool.or_eq_true,
    Bool.and_eq_true, decide_eq_false_iff_not, decide_eq_true_eq] at *
  omega

theorem score_nil_eq : score ([] : Str) = (0, 0) := by decide

theorem scoreGtB_trans2 {a b c : Nat × Nat} (h1 : scoreGtB b a = true)
    (h2 : scoreGtB b c = false) : scoreGtB a c = false := by
  simp only [scoreGtB, Bool.or_eq_false_iff, Bool.and_eq_false_iff, Bool.or_eq_true,
    Bool.and_eq_true, decide_eq_false_iff_not, decide_eq_true_eq] at *
  omega

/-- The `best` loop returns the accumulator or a list element, and its
score is maximal among the processed candidates and the accumulator. -/
theorem bestFold_spec : ∀ (l : List Str) (acc : Str),
    (∀ x ∈ l, x ≠ []) →
    (bestFold l acc = acc ∨ bestFold l acc ∈ l) ∧
    (∀ c ∈ l, scoreGtB (score c) (score (bestFold l acc)) = false) ∧
    scoreGtB (score acc) (score (bestFold l acc)) = false := by
  intro l
  induction l with
  | nil =>
    intro acc _
    refine ⟨Or.inl rfl, ?_, ?_⟩
    · intro c hc
      cases hc
    · exact scoreGtB_irrefl _
  | cons t ts ih =>
    intro acc hne
    have hne' : ∀ x ∈ ts, x ≠ [] := fun x hx => hne x (List.mem_cons_of_mem _ hx)
    by_cases hcond : (acc.isEmpty || scoreGtB (score t) (score acc)) = true
    · have hstep : bestFold (t :: ts) acc = bestFold ts t := by
        simp only [bestFold, hcond, if_pos]
      obtain ⟨hmem, hmax, haccle⟩ := ih t hne'
      refine ⟨?_, ?_, ?_⟩
      · rw [hstep]
        rcases hmem with h | h
        · exact Or.inr (by rw [h]; exact List.mem_cons_self t ts)
        · exact Or.inr (List.mem_cons_of_mem _ h)
      · intro c hc
        rw [hstep]
        rcases List.mem_cons.mp hc with rfl | hc'
        · exact haccle
        · exact hmax c hc'
      · rw [hstep]
        rcases Bool.or_eq_true .. |>.mp hcond with hemp | hgt
        · have hacc : acc = [] := by
            cases acc with
            | nil => rfl
            | cons a as => simp [List.isEmpty] at hemp
          rw [hacc, score_nil_eq]
          exact scoreGtB_zero_left _
        · exact scoreGtB_trans2 hgt haccle
    · have hfalse : (acc.isEmpty || scoreGtB (score t) (score acc)) = false := by
        revert hcond
        cases (acc.isEmpty || scoreGtB (score t) (score acc)) <;> simp
      have hstep : bestFold (t :: ts) acc = bestFold ts acc := by
        simp only [bestFold, hfalse, if_neg, Bool.false_eq_true, not_false_iff]
      obtain ⟨hmem, hmax, haccle⟩ := ih acc hne'
      have hncond : scoreGtB (score t) (score acc) = false :=
        (Bool.or_eq_false_iff.mp hfalse).2
      refine ⟨?_, ?_, ?_⟩
      · rw [hstep]
        rcases hmem with h | h
        · exact Or.inl h
        · exact Or.inr (List.mem_cons_of_mem _ h)
      · intro c hc
        rw [hstep]
        rcases List.mem_cons.mp hc with rfl | hc'
        · exact scoreGtB_neg_trans hncond haccle
        · exact hmax c hc'
      · rw [hstep]; exact haccle

theorem head?_drop (s : Str) : ∀ n : Nat, (s.drop n).head? = s[n]? := by
  induction s with
  | nil => intro n; simp
  | cons a t ih =>
    intro n
    cases n with
    | zero => simp
    | succ m => simp only [List.drop_succ_cons, List.getElem?_cons_succ]; exact ih m

theorem take_getLast?_of_getElem {s : Str} {n : Nat} {ch : Char} (h : s[n]? = some ch) :
    (s.take (n + 1)).getLast? = some ch := by
  rw [List.take_succ, h]
  simp

theorem getElem?_of_takeWhile {p : Char → Bool} {s : Str} {n : Nat} {ch : Char}
    (h : (s.takeWhile p)[n]? = some ch) : s[n]? = some ch := by
  obtain ⟨t, ht⟩ := List.takeWhile_prefix (l := s) p
  have hn : n < (s.takeWhile p).length := by
    rcases List.getElem?_eq_some.mp h with ⟨h1, _⟩
    exact h1
  rw [← ht, List.getElem?_append_left hn]
  exact h

theorem townStrict_last {s c r : Str} (h : townStrict s = some (c, r)) :
    ∃ ch, c.getLast? = some ch ∧ isTownSuffix ch = true := by
  unfold townStrict at h
  cases hs : searchDesc
      (fun c => if (((s.takeWhile isKoDigit).drop c).head?.map isTownSuffix).getD false
                then some (c + 1) else none)
      ((s.takeWhile isKoDigit).length - 1) with
  | none => rw [hs] at h; cases h
  | some n =>
    rw [hs] at h
    simp only [Option.some.injEq, Prod.mk.injEq] at h
    obtain ⟨c', _, _, h3⟩ := searchDesc_spec _ n hs
    by_cases hcond : ((((s.takeWhile isKoDigit).drop c').head?.map isTownSuffix).getD false) = true
    · rw [if_pos hcond] at h3
      injection h3 with hn
      cases hh : ((s.takeWhile isKoDigit).drop c').head? with
      | none => rw [hh] at hcond; simp at hcond
      | some ch =>
        rw [hh] at hcond
        simp only [Option.map_some', Option.getD_some] at hcond
        have hget : s[c']? = some ch := by
          apply getElem?_of_takeWhile (p := isKoDigit)
          rw [← head?_drop]
          exact hh
        refine ⟨ch, ?_, hcond⟩
        rw [← h.1, ← hn]
        exact take_getLast?_of_getElem hget
    · rw [if_neg hcond] at h3
      cases h3

theorem drop_take_two {s : Str} {n : Nat} {a b : Char}
    (h : (s.drop n).take 2 = [a, b]) : s[n + 1]? = some b := by
  have h2 : s.drop n = a :: b :: (s.drop n).drop 2 := by
    conv_lhs => rw [← List.take_append_drop 2 (s.drop n)]
    rw [h]
    rfl
  have : (s.drop (n + 1)).head? = some b := by
    rw [← List.drop_drop]
    rw [h2]
    rfl
  rw [head?_drop] at this
  exact this

theorem planDist_last {s c r : Str} (h : planDist s = some (c, r)) :
    c.getLast? = some '구' ∨ c.getLast? = some '역' := by
  unfold planDist at h
  cases hs : searchDesc
      (fun c => if ((s.takeWhile isKoDigit).drop c).take 2 = "지구".data then some (c + 2)
                else if ((s.takeWhile isKoDigit).drop c).take 2 = "구역".data then some (c + 2)
                else none)
      ((s.takeWhile isKoDigit).length - 1) with
  | none => rw [hs] at h; cases h
  | some n =>
    rw [hs] at h
    simp only [Option.some.injEq, Prod.mk.injEq] at h
    obtain ⟨c', _, _, h3⟩ := searchDesc_spec _ n hs
    by_cases h1 : ((s.takeWhile isKoDigit).drop c').take 2 = "지구".data
    · rw [if_pos h1] at h3
      injection h3 with hn
      left
      have hget : s[c' + 1]? = some '구' :=
        getElem?_of_takeWhile (p := isKoDigit) (drop_take_two h1)
      rw [← h.1, ← hn]
      exact take_getLast?_of_getElem hget
    · rw [if_neg h1] at h3
      by_cases h2 : ((s.takeWhile isKoDigit).drop c').take 2 = "구역".data
      · rw [if_pos h2] at h3
        injection h3 with hn
        right
        have hget : s[c' + 1]? = some '역' :=
          getElem?_of_takeWhile (p := isKoDigit) (drop_take_two h2)
        rw [← h.1, ← hn]
        exact take_getLast?_of_getElem hget
      · rw [if_neg h2] at h3
        cases h3

theorem drop_take_one {s : Str} {n : Nat} {a : Char}
    (h : (s.drop n).take 1 = [a]) : s[n]? = some a := by
  have : (s.drop n).head? = some a := by
    cases hd : s.drop n with
    | nil => rw [hd] at h; cases h
    | cons x t =>
      rw [hd] at h
      simp only [List.take_succ_cons, List.take_zero] at h
      injection h with h1
      rw [h1]
      rfl
  rw [head?_drop] at this
  exact this

theorem road_last {s c r : Str} (h : road s = some (c, r)) :
    c.getLast? = some '로' ∨ c.getLast? = some '길' := by
  unfold road at h
  cases hs : searchDesc
      (fun c => if ((s.takeWhile isKoDigit).drop c).take 1 = ['로'] then some (c + 1)
                else if ((s.takeWhile isKoDigit).drop c).take 1 = ['길'] then some (c + 1)
                else if ((s.takeWhile isKoDigit).drop c).take 2 = "대로".data then some (c + 2)
                else if ((s.takeWhile isKoDigit).drop c).take 2 = "번길".data then some (c + 2)
                else none)
      ((s.takeWhile isKoDigit).length - 1) with
  | none => rw [hs] at h; cases h
  | some n =>
    rw [hs] at h
    simp only [Option.some.injEq, Prod.mk.injEq] at h
    obtain ⟨c', _, _, h3⟩ := searchDesc_spec _ n hs
    by_cases h1 : ((s.takeWhile isKoDigit).drop c').take 1 = ['로']
    · rw [if_pos h1] at h3
      injection h3 with hn
      left
      have hget : s[c']? = some '로' :=
        getElem?_of_takeWhile (p := isKoDigit) (drop_take_one h1)
      rw [← h.1, ← hn]
      exact take_getLast?_of_getElem hget
    · rw [if_neg h1] at h3
      by_cases h2 : ((s.takeWhile isKoDigit).drop c').take 1 = ['길']
      · rw [if_pos h2] at h3
        injection h3 with hn
        right
        have hget : s[c']? = some '길' :=
          getElem?_of_takeWhile (p := isKoDigit) (drop_take_one h2)
        rw [← h.1, ← hn]
        exact take_getLast?_of_getElem hget
      · rw [if_neg h2] at h3
        by_cases h4 : ((s.takeWhile isKoDigit).drop c').take 2 = "대로".data
        · rw [if_pos h4] at h3
          injection h3 with hn
          left
          have hget : s[c' + 1]? = some '로' :=
            getElem?_of_takeWhile (p := isKoDigit) (drop_take_two h4)
          rw [← h.1, ← hn]
          exact take_getLast?_of_getElem hget
        · rw [if_neg h4] at h3
          by_cases h5 : ((s.takeWhile isKoDigit).drop c').take 2 = "번길".data
          · rw [if_pos h5] at h3
            injection h3 with hn
            right
            have hget : s[c' + 1]? = some '길' :=
              getElem?_of_takeWhile (p := isKoDigit) (drop_take_two h5)
            rw [← h.1, ← hn]
            exact take_getLast?_of_getElem hget
          · rw [if_neg h5] at h3
            cases h3

/-- A digit, or one of the closing syllables of the lot qualifiers. -/
def lotEnd (d : Char) : Bool := isDigitC d || d = '원' || d = '지'

theorem last_of_digits {l : Str} (hne : ¬ l.isEmpty = true) (hall : l.all isDigitC = true) :
    ∃ d, l.getLast? = some d ∧ lotEnd d = true := by
  cases hlast : l.getLast? with
  | none =>
    rw [List.getLast?_eq_none_iff.mp hlast] at hne
    simp at hne
  | some d =>
    refine ⟨d, rfl, ?_⟩
    have := getLast?_of_all hall hlast
    simp [lotEnd, this]

theorem append_last_cases {x y : Str} :
    (x ++ y).getLast? = y.getLast? ∨ (y = [] ∧ (x ++ y).getLast? = x.getLast?) := by
  cases y with
  | nil => right; simp
  | cons a t =>
    left
    rw [List.getLast?_append]
    cases hl : (a :: t).getLast? with
    | none => simp [List.getLast?_eq_none_iff] at hl
    | some z => rfl

theorem lotCore_last {s c r : Str} (h : lotCore s = some (c, r)) :
    ∃ d, c.getLast? = some d ∧ lotEnd d = true := by
  unfold lotCore at h
  dsimp only at h
  split at h
  · rename_i k hd rest
    split at h
    · split at h
      · -- fell back to the digit alternative
        split at h
        · cases h
        · rename_i hne
          simp only [Option.some.injEq, Prod.mk.injEq] at h
          rw [← h.1]
          exact last_of_digits hne (all_takeWhile _ _)
      · rename_i hne
        simp only [Option.some.injEq, Prod.mk.injEq] at h
        rw [← h.1]
        obtain ⟨d, hd1, hd2⟩ := last_of_digits hne (all_takeWhile isDigitC rest)
        refine ⟨d, ?_, hd2⟩
        rw [show k :: hd :: rest.takeWhile isDigitC = [k, hd] ++ rest.takeWhile isDigitC from rfl,
            List.getLast?_append, hd1]
        rfl
    · split at h
      · cases h
      · rename_i hne
        simp only [Option.some.injEq, Prod.mk.injEq] at h
        rw [← h.1]
        exact last_of_digits hne (all_takeWhile _ _)
  · split at h
    · cases h
    · rename_i hne
      simp only [Option.some.injEq, Prod.mk.injEq] at h
      rw [← h.1]
      exact last_of_digits hne (all_takeWhile _ _)

theorem hypDigits_last (s : Str) :
    (hypDigits s).1 = [] ∨ ∃ d, (hypDigits s).1.getLast? = some d ∧ lotEnd d = true := by
  unfold hypDigits
  split
  · rename_i h rest
    dsimp only
    split
    · split
      · left; rfl
      · rename_i hne
        right
        obtain ⟨d, hd1, hd2⟩ := last_of_digits hne (all_takeWhile isDigitC rest)
        refine ⟨d, ?_, hd2⟩
        rw [show h :: rest.takeWhile isDigitC = [h] ++ rest.takeWhile isDigitC from rfl,
            List.getLast?_append, hd1]
        rfl
    · left; rfl
  · left; rfl

theorem lotAfterCore_last (s : Str) :
    (lotAfterCore s).1 = [] ∨ ∃ d, (lotAfterCore s).1.getLast? = some d ∧ lotEnd d = true := by
  unfold lotAfterCore
  dsimp only
  split
  · right
    refine ⟨'원', ?_, by decide⟩
    rw [List.getLast?_append]
    rfl
  · split
    · right
      refine ⟨'지', ?_, by decide⟩
      rw [List.getLast?_append]
      rfl
    · exact hypDigits_last s

theorem last_append_or {x y : Str} {d : Char}
    (hy : y = [] ∨ y.getLast? = some d) (hx : y = [] → x.getLast? = some d) :
    (x ++ y).getLast? = some d := by
  rcases hy with rfl | hsome
  · simpa using hx rfl
  · rw [List.getLast?_append, hsome]
    rfl

theorem getLast?_cons_append {a d : Char} {x z : Str} (h : z.getLast? = some d) :
    (a :: (x ++ z)).getLast? = some d := by
  rw [show a :: (x ++ z) = (a :: x) ++ z from rfl, List.getLast?_append, h]
  rfl

theorem getLast?_cons_append2 {a d : Char} {x y z : Str} (h : z.getLast? = some d) :
    (a :: (x ++ y ++ z)).getLast? = some d := by
  rw [show a :: (x ++ y ++ z) = (a :: (x ++ y)) ++ z from by simp, List.getLast?_append, h]
  rfl

theorem lot_direct_last {X c r : Str}
    (h : (lotCore X).map
      (fun p => ((p.1 ++ (lotAfterCore p.2).1 : Str), (lotAfterCore p.2).2)) = some (c, r)) :
    ∃ d, c.getLast? = some d ∧ lotEnd d = true := by
  cases hd : lotCore X with
  | none => rw [hd] at h; cases h
  | some p =>
    rw [hd] at h
    obtain ⟨co, r1⟩ := p
    simp only [Option.map_some', Option.some.injEq, Prod.mk.injEq] at h
    obtain ⟨d1, hco1, hco2⟩ := lotCore_last hd
    rcases lotAfterCore_last r1 with he | ⟨d2, ha1, ha2⟩
    · refine ⟨d1, ?_, hco2⟩
      rw [← h.1, he, List.append_nil]
      exact hco1
    · refine ⟨d2, ?_, ha2⟩
      rw [← h.1, List.getLast?_append, ha1]
      rfl

theorem lot_last {s c r : Str} (h : lot s = some (c, r)) :
    ∃ d, c.getLast? = some d ∧ lotEnd d = true := by
  unfold lot at h
  dsimp only at h
  split at h
  · rename_i ch rest
    split at h
    · cases hco : lotCore (rest.drop (rest.takeWhile isSpaceC).length) with
      | some p =>
        rw [hco] at h
        obtain ⟨co, r1⟩ := p
        simp only [Option.some.injEq, Prod.mk.injEq] at h
        obtain ⟨d1, hco1, hco2⟩ := lotCore_last hco
        rcases lotAfterCore_last r1 with he | ⟨d2, ha1, ha2⟩
        · refine ⟨d1, ?_, hco2⟩
          rw [← h.1, he, List.append_nil]
          exact getLast?_cons_append hco1
        · refine ⟨d2, ?_, ha2⟩
          rw [← h.1]
          exact getLast?_cons_append2 ha1
      | none =>
        rw [hco] at h
        exact lot_direct_last h
    · exact lot_direct_last h
  · exact lot_direct_last h

theorem lotListStep_last {s c r : Str} (h : lotListStep s = some (c, r)) :
    ∃ d, c.getLast? = some d ∧ lotEnd d = true := by
  unfold lotListStep at h
  dsimp only at h
  split at h
  · rename_i c0 r2 heq
    by_cases hch : c0 = ','
    · rw [if_pos hch] at h
      cases hco : lotCore (r2.drop (r2.takeWhile isSpaceC).length) with
      | none => rw [hco] at h; cases h
      | some p =>
        rw [hco] at h
        obtain ⟨co, r3⟩ := p
        simp only [Option.some.injEq, Prod.mk.injEq] at h
        obtain ⟨d1, hco1, hco2⟩ := lotCore_last hco
        have hinner : ∃ d, (',' :: (r2.takeWhile isSpaceC ++ co ++ (hypDigits r3).1)).getLast?
            = some d ∧ lotEnd d = true := by
          rcases hypDigits_last r3 with he | ⟨d2, ha1, ha2⟩
          · refine ⟨d1, ?_, hco2⟩
            rw [he, List.append_nil]
            exact getLast?_cons_append hco1
          · exact ⟨d2, getLast?_cons_append2 ha1, ha2⟩
        obtain ⟨d, hd1, hd2⟩ := hinner
        refine ⟨d, ?_, hd2⟩
        rw [← h.1, List.getLast?_append, hd1]
        rfl
    · rw [if_neg hch] at h
      cases h
  · cases h

theorem repRun_lotEnd {step : Str → Option (Str × Str)}
    (hstep : ∀ x c r, step x = some (c, r) → ∃ d, c.getLast? = some d ∧ lotEnd d = true) :
    ∀ (n : Nat) (s : Str), (repRun step n s).1 = [] ∨
      ∃ d, (repRun step n s).1.getLast? = some d ∧ lotEnd d = true := by
  intro n
  induction n with
  | zero => intro s; left; rfl
  | succ m ih =>
    intro s
    cases hst : step s with
    | none =>
      left
      simp [repRun, hst]
    | some p =>
      obtain ⟨c1, r1⟩ := p
      have hval : (repRun step (m + 1) s).1 = c1 ++ (repRun step m r1).1 := by
        simp [repRun, hst]
      rcases ih r1 with he | ⟨d, hd1, hd2⟩
      · obtain ⟨d, hd1, hd2⟩ := hstep s c1 r1 hst
        right
        refine ⟨d, ?_, hd2⟩
        rw [hval, he, List.append_nil]
        exact hd1
      · right
        refine ⟨d, ?_, hd2⟩
        rw [hval, List.getLast?_append, hd1]
        rfl

theorem lotList_last {s c r : Str} (h : lotList s = some (c, r)) :
    ∃ d, c.getLast? = some d ∧ lotEnd d = true := by
  unfold lotList at h
  cases hl : lot s with
  | none => rw [hl] at h; cases h
  | some p =>
    rw [hl] at h
    obtain ⟨c0, r0⟩ := p
    simp only [Option.map_some', Option.some.injEq, Prod.mk.injEq] at h
    obtain ⟨d0, h01, h02⟩ := lot_last hl
    rcases repRun_lotEnd (fun x c r => lotListStep_last) r0.length r0 with he | ⟨d, hd1, hd2⟩
    · refine ⟨d0, ?_, h02⟩
      rw [← h.1, he, List.append_nil]
      exact h01
    · refine ⟨d, ?_, hd2⟩
      rw [← h.1, List.getLast?_append, hd1]
      rfl

theorem cgg_all_ko {s c r : Str} (h : cgg s = some (c, r)) : c.all isKo = true := by
  unfold cgg at h
  dsimp only at h
  split at h
  · simp only [Option.some.injEq, Prod.mk.injEq] at h
    rw [← h.1]
    exact all_takeWhile isKo s
  · cases h

theorem townRelax_all_ko {s c r : Str} (h : townRelax s = some (c, r)) : c.all isKo = true := by
  unfold townRelax at h
  dsimp only at h
  split at h
  · simp only [Option.some.injEq, Prod.mk.injEq] at h
    rw [← h.1]
    exact all_takeWhile isKo s
  · cases h

theorem rawCity_all_ko {s c r : Str} (h : rawCity s = some (c, r)) : c.all isKo = true := by
  unfold rawCity at h
  dsimp only at h
  split at h
  · simp only [Option.some.injEq, Prod.mk.injEq] at h
    rw [← h.1]
    exact all_takeWhile isKo s
  · cases h

/-- Claim C1, counterexample: the address extracted from the scenario-3
title contains both the building name 한빛마을아파트 (which carries a
recognized building suffix) and the digit-prefixed unit token 101동 as
whitespace-delimited tokens. -/
theorem C1_counterexample :
    "101동".data ∈ tokensOf (extract_address (some t_paju)).data ∧
    isUnitNumTok "101동".data = true ∧
    "한빛마을아파트".data ∈ tokensOf (extract_address (some t_paju)).data ∧
    BUILDING_SUFFIX.any (fun w => endsWithL "한빛마을아파트".data w.data) = true := by
  refine ⟨by decide, by decide, by decide, by decide⟩

/-- Claim C1 (amended): the individual tokens of the address grammar
exclude digit-prefixed 층/호 unit tokens by construction — every token
that tolerates digits (strict town, planning district, road, lot)
necessarily ends in its closing syllable set (읍/면/동/가/리, 지구/구역,
로/길, digits/일원/번지), and every other token (province literal aside)
is matched by an all-Hangul fragment, which cannot carry a digit
prefix.  Digit-prefixed 동 tokens, however, are matched by the strict
town fragment, and building names by the relaxed town fragment, so both
can be included in an address. -/
theorem C1_unit_token_exclusion :
    (∀ s c r, cgg s = some (c, r) → c.all isKo = true) ∧
    (∀ s c r, townRelax s = some (c, r) → c.all isKo = true) ∧
    (∀ s c r, rawCity s = some (c, r) → c.all isKo = true) ∧
    (∀ s c r, townStrict s = some (c, r) →
      ∃ ch, c.getLast? = some ch ∧ isTownSuffix ch = true) ∧
    (∀ s c r, planDist s = some (c, r) →
      c.getLast? = some '구' ∨ c.getLast? = some '역') ∧
    (∀ s c r, road s = some (c, r) →
      c.getLast? = some '로' ∨ c.getLast? = some '길') ∧
    (∀ s c r, lotList s = some (c, r) →
      ∃ d, c.getLast? = some d ∧ lotEnd d = true) ∧
    (∀ ch, isTownSuffix ch = true → ch ≠ '층' ∧ ch ≠ '호') ∧
    (∀ d, lotEnd d = true → d ≠ '층' ∧ d ≠ '호') ∧
    townStrict "101동".data = some ("101동".data, []) := by
  refine ⟨fun s c r h => cgg_all_ko h,
          fun s c r h => townRelax_all_ko h,
          fun s c r h => rawCity_all_ko h,
          fun s c r h => townStrict_last h,
          fun s c r h => planDist_last h,
          fun s c r h => road_last h,
          fun s c r h => lotList_last h,
          ?_, ?_, by decide⟩
  · intro ch h
    constructor <;> (intro he; rw [he] at h; exact absurd h (by decide))
  · intro d h
    constructor <;> (intro he; rw [he] at h; simp [lotEnd, isDigitC] at h)

/-- Witness for C1 at a concrete strict-town match. -/
theorem C1_witness :
    ∃ ch, ("야당동".data : Str).getLast? = some ch ∧ isTownSuffix ch = true :=
  C1_unit_token_exclusion.2.2.2.1 "야당동 408".data "야당동".data " 408".data (by decide)

/-- Claim C4, counterexample: on a title whose surviving candidates are
가나힐스테이트 (ending in the recognized building suffix 힐스테이트 of
`_BUILDING_SUFFIX`) and the longer suffix-less 가나다라마바사아자차,
the extractor returns the longer unconfirmed token: the `score`
function's own hard-coded suffix tuple omits 힐스테이트 (as well as
캐슬플러스, 팰리움, 연립주택 and 주건축물), so suffix-confirmed names
are not always preferred. -/
theorem C4_counterexample :
    "가나힐스테이트".data ∈ survivors (some t_hills) ∧
    BUILDING_SUFFIX.any (fun w => endsWithL "가나힐스테이트".data w.data) = true ∧
    extract_building_name (some t_hills) = "가나다라마바사아자차" ∧
    BUILDING_SUFFIX.any (fun w => endsWithL "가나다라마바사아자차".data w.data) = false ∧
    "가나힐스테이트".data.length < "가나다라마바사아자차".data.length := by
  refine ⟨by decide, by decide, by decide, by decide, by decide⟩

/-- Claim C4 (amended): among the candidates that survive filtering,
`extract_building_name` returns one whose (has-suffix, length) score —
with the suffix set being the tuple hard-coded in `score`, a proper
subset of `_BUILDING_SUFFIX` — is lexicographically maximal, and it
returns a surviving candidate whenever any survives. -/
theorem C4_best_score (title : Option String) :
    ((extract_building_name title).data ∈ survivors title ∨
      extract_building_name title = "") ∧
    (∀ c ∈ survivors title, scoreGtB (score c) (score (extract_building_name title).data) = false) := by
  have hne : ∀ x ∈ survivors title, x ≠ [] := by
    intro x hx
    have := (List.mem_filter.mp hx).2
    have hlen : 2 ≤ x.length := by
      simp only [keepToken, Bool.and_eq_true, decide_eq_true_eq] at this
      exact this.1.1.1
    intro he
    rw [he] at hlen
    simp at hlen
  obtain ⟨hmem, hmax, _⟩ := bestFold_spec (survivors title) [] hne
  have hdef2 : extract_building_name title = String.mk (bestFold (survivors title) []) := rfl
  have hdef : (extract_building_name title).data = bestFold (survivors title) [] := by
    rw [hdef2]
  constructor
  · rcases hmem with h | h
    · right
      rw [hdef2, h]
    · left
      rw [hdef]
      exact h
  · intro c hc
    rw [hdef]
    exact hmax c hc

/-- Witness for C4 at the suffix-confirmed surviving candidate. -/
theorem C4_witness :
    scoreGtB (score "가나힐스테이트".data)
      (score (extract_building_name (some t_hills)).data) = false :=
  (C4_best_score (some t_hills)).2 "가나힐스테이트".data (by decide)

/-- Claim C10: the winning building-name candidate must pass the
`_FORBID_BUILDING` filter, so the extractor never returns one of the
nine sale/announcement words. -/
theorem C10_no_announcement_word (title : Option String) :
    forbidBuilding (extract_building_name title).data = false := by
  have hne : ∀ x ∈ survivors title, x ≠ [] := by
    intro x hx
    have := (List.mem_filter.mp hx).2
    have hlen : 2 ≤ x.length := by
      simp only [keepToken, Bool.and_eq_true, decide_eq_true_eq] at this
      exact this.1.1.1
    intro he
    rw [he] at hlen
    simp at hlen
  obtain ⟨hmem, _, _⟩ := bestFold_spec (survivors title) [] hne
  have hdef2 : extract_building_name title = String.mk (bestFold (survivors title) []) := rfl
  have hdef : (extract_building_name title).data = bestFold (survivors title) [] := by
    rw [hdef2]
  rw [hdef]
  rcases hmem with h | h
  · rw [h]
    decide
  · have hk := (List.mem_filter.mp h).2
    simp only [keepToken, Bool.and_eq_true, Bool.not_eq_true'] at hk
    exact hk.2

/-- Claim C7: the district-only query follows the branch shapes of the
region precedence — on the Sejong branch and the province+town-direct
branch it returns the empty string, and on the province+raw-city branch
it returns the raw city capture alone. -/
theorem C7_district_branch_shapes (x : Option String) :
    (regionCase x = RegionCase.sejong → extract_city_sgg x = "") ∧
    (regionCase x = RegionCase.provTown → extract_city_sgg x = "") ∧
    (regionCase x = RegionCase.provRawCity →
      extract_city_sgg x = String.mk (pyStrip ((rawCityCapture x).getD []))) := by
  unfold regionCase extract_city_sgg rawCityCapture
  dsimp only
  simp only [Bool.true_and]
  cases h1 : rxSgg (regionPre x) with
  | some p => simp
  | none =>
    cases h2 : rxSgj (regionPre x) with
    | some pr => simp
    | none =>
      cases h3 : (if !(extract_address (some (String.mk (regionPre x)))).data.isEmpty
          then rxSgg (extract_address (some (String.mk (regionPre x)))).data
          else none) with
      | some p => simp
      | none =>
        cases h4 : (if !(extract_address (some (String.mk (regionPre x)))).data.isEmpty
            then rxSgj (extract_address (some (String.mk (regionPre x)))).data
            else none) with
        | some pr => simp
        | none =>
          cases h5 : (match rxSggOnly (regionPre x) with
              | some m => some m
              | none =>
                if !(extract_address (some (String.mk (regionPre x)))).data.isEmpty
                then rxSggOnly (extract_address (some (String.mk (regionPre x)))).data
                else none) with
          | some p => simp
          | none =>
            cases h6 : (match rxProvRawCity (regionPre x) with
                | some m => some m
                | none =>
                  if !(extract_address (some (String.mk (regionPre x)))).data.isEmpty
                  then rxProvRawCity (extract_address (some (String.mk (regionPre x)))).data
                  else none) with
            | some p =>
              obtain ⟨pr, rc⟩ := p
              simp
            | none =>
              cases h7 : (match rxProvTown (regionPre x) with
                  | some m => some m
                  | none =>
                    if !(extract_address (some (String.mk (regionPre x)))).data.isEmpty
                    then rxProvTown (extract_address (some (String.mk (regionPre x)))).data
                    else none) with
              | some pr => simp
              | none => simp

/-- Witness for C7 at concrete Sejong, province+town and
province+raw-city titles. -/
theorem C7_witness :
    extract_city_sgg (some "세종시 반곡동 123") = "" ∧
    extract_city_sgg (some t_mansu) = "" ∧
    extract_city_sgg (some t_paju) =
      String.mk (pyStrip ((rawCityCapture (some t_paju)).getD [])) :=
  ⟨(C7_district_branch_shapes (some "세종시 반곡동 123")).1 (by decide),
   (C7_district_branch_shapes (some t_mansu)).2.1 (by decide),
   (C7_district_branch_shapes (some t_paju)).2.2 (by decide)⟩

/-- Claim C8: every query fails soft — each extractor is a total
function into strings, treats a missing title exactly like the empty
title (on which each returns the empty string), and returns the empty
string whenever no grammar branch or candidate qualifies (no address
match, no surviving building candidate, no region branch). -/
theorem C8_soft_fail :
    (extract_address none = extract_address (some "") ∧ extract_address (some "") = "") ∧
    (extract_province_sgg none = extract_province_sgg (some "") ∧
      extract_province_sgg (some "") = "") ∧
    (extract_city_sgg none = extract_city_sgg (some "") ∧ extract_city_sgg (some "") = "") ∧
    (extract_building_name none = extract_building_name (some "") ∧
      extract_building_name (some "") = "") ∧
    (extract_sale_content none = extract_sale_content (some "") ∧
      extract_sale_content (some "") = "") ∧
    (∀ t, rxAddrMatch ((t.getD "").data) = none → extract_address t = "") ∧
    (∀ t, survivors t = [] → extract_building_name t = "") ∧
    (∀ t, regionCase t = RegionCase.noMatch →
      extract_province_sgg t = "" ∧ extract_city_sgg t = "") := by
  refine ⟨⟨by decide, by decide⟩, ⟨by decide, by decide⟩, ⟨by decide, by decide⟩,
    ⟨by decide, by decide⟩, ⟨by decide, by decide⟩, ?_, ?_, ?_⟩
  · intro t h
    unfold extract_address
    rw [h]
  · intro t h
    have hdef2 : extract_building_name t = String.mk (bestFold (survivors t) []) := rfl
    rw [hdef2, h]
    decide
  · intro t
    unfold regionCase extract_province_sgg extract_city_sgg
    dsimp only
    simp only [Bool.true_and]
    cases h1 : rxSgg (regionPre t) with
    | some p => simp
    | none =>
      cases h2 : rxSgj (regionPre t) with
      | some pr => simp
      | none =>
        cases h3 : (if !(extract_address (some (String.mk (regionPre t)))).data.isEmpty
            then rxSgg (extract_address (some (String.mk (regionPre t)))).data
            else none) with
        | some p => simp
        | none =>
          cases h4 : (if !(extract_address (some (String.mk (regionPre t)))).data.isEmpty
              then rxSgj (extract_address (some (String.mk (regionPre t)))).data
              else none) with
          | some pr => simp
          | none =>
            cases h5 : (match rxSggOnly (regionPre t) with
                | some m => some m
                | none =>
                  if !(extract_address (some (String.mk (regionPre t)))).data.isEmpty
                  then rxSggOnly (extract_address (some (String.mk (regionPre t)))).data
                  else none) with
            | some p => simp
            | none =>
              cases h6 : (match rxProvRawCity (regionPre t) with
                  | some m => some m
                  | none =>
                    if !(extract_address (some (String.mk (regionPre t)))).data.isEmpty
                    then rxProvRawCity (extract_address (some (String.mk (regionPre t)))).data
                    else none) with
              | some p => simp
              | none =>
                cases h7 : (match rxProvTown (regionPre t) with
                    | some m => some m
                    | none =>
                      if !(extract_address (some (String.mk (regionPre t)))).data.isEmpty
                      then rxProvTown (extract_address (some (String.mk (regionPre t)))).data
                      else none) with
                | some pr => simp
                | none => simp

/-- Witness for C8 on a title no grammar branch matches. -/
theorem C8_witness :
    rxAddrMatch (((some "무관한 제목").getD "").data) = none ∧
    extract_address (some "무관한 제목") = "" ∧
    survivors (some "일괄매각") = [] ∧
    extract_building_name (some "일괄매각") = "" ∧
    regionCase (some "무관한 제목") = RegionCase.noMatch ∧
    extract_province_sgg (some "무관한 제목") = "" :=
  ⟨by decide,
   C8_soft_fail.2.2.2.2.2.1 (some "무관한 제목") (by decide),
   by decide,
   C8_soft_fail.2.2.2.2.2.2.1 (some "일괄매각") (by decide),
   by decide,
   (C8_soft_fail.2.2.2.2.2.2.2 (some "무관한 제목") (by decide)).1⟩

-- ─────────────────────────────────────────────────────────────
-- Idempotence of extract_address: supporting lemma layer.
-- Terminology: for a matcher m, "C" lemmas state consumed ++ rest =
-- input; "T" lemmas state that a match re-parses identically when the
-- input is cut anywhere inside the old rest; "F" lemmas state that a
-- failure survives cutting the input; "E" lemmas state that a match
-- whose rest is nonempty survives extending the input.

theorem isSpaceC_lt {c : Char} (h : isSpaceC c = true) : c.toNat < 0xAC00 := by
  simp only [isSpaceC, Bool.or_eq_true, Bool.and_eq_true, decide_eq_true_eq] at h
  omega

theorem isKo_not_space {c : Char} (h : isKo c = true) : isSpaceC c = false := by
  cases hs : isSpaceC c with
  | false => rfl
  | true =>
    simp only [isKo, Bool.and_eq_true, decide_eq_true_eq] at h
    have := isSpaceC_lt hs
    omega

theorem isKo_not_digit {c : Char} (h : isKo c = true) : isDigitC c = false := by
  cases hs : isDigitC c with
  | false => rfl
  | true =>
    simp only [isKo, Bool.and_eq_true, decide_eq_true_eq] at h
    simp only [isDigitC, Bool.and_eq_true, decide_eq_true_eq] at hs
    omega

theorem isKo_ne_bracket {c : Char} (h : isKo c = true) : c ≠ '[' := by
  intro he
  rw [he] at h
  exact absurd h (by decide)

theorem take_isPrefix_of_prefix {w r : Str} (h : w <+: r) (y : Str) : w <+: r ++ y := by
  obtain ⟨t, ht⟩ := h
  exact ⟨t ++ y, by rw [← List.append_assoc, ht]⟩

theorem takeWhile_prefix_eq {p : Char → Bool} {a b : Str}
    (hall : a.all p = true) (hstop : (b.head?.map p).getD false = false) :
    (a ++ b).takeWhile p = a ∧ (a ++ b).dropWhile p = b := by
  have h1 : (a ++ b).takeWhile p = a ++ b.takeWhile p :=
    List.takeWhile_append_of_pos (by intro x hx; exact (List.all_eq_true.mp hall) x hx)
  have h2 : (a ++ b).dropWhile p = b.dropWhile p :=
    List.dropWhile_append_of_pos (by intro x hx; exact (List.all_eq_true.mp hall) x hx)
  cases b with
  | nil =>
    rw [List.append_nil]
    refine ⟨List.takeWhile_eq_self_iff.mpr ?_, List.dropWhile_eq_nil_iff.mpr ?_⟩ <;>
      exact fun x hx => List.all_eq_true.mp hall x hx
  | cons x xs =>
    simp only [Option.map_some', Option.getD_some, List.head?_cons] at hstop
    rw [h1, h2, List.takeWhile_cons, List.dropWhile_cons, hstop]
    simp

theorem takeWhile_append_drop (p : Char → Bool) (s : Str) :
    s.takeWhile p ++ s.drop (s.takeWhile p).length = s := by
  rw [drop_takeWhile_length]
  exact List.takeWhile_append_dropWhile p s

theorem takeWhile_mono_pfx {p : Char → Bool} :
    ∀ {w r : Str}, w <+: r → w.takeWhile p <+: r.takeWhile p := by
  intro w
  induction w with
  | nil => intro r _; exact List.nil_prefix
  | cons a w' ih =>
    intro r hp
    obtain ⟨t, ht⟩ := hp
    subst ht
    rw [List.cons_append, List.takeWhile_cons, List.takeWhile_cons]
    by_cases hpa : p a = true
    · rw [if_pos hpa, if_pos hpa]
      obtain ⟨t2, ht2⟩ := ih ⟨t, rfl⟩
      exact ⟨t2, by rw [List.cons_append, ht2]⟩
    · rw [if_neg hpa, if_neg hpa]

theorem searchDesc_max {g : Nat → Option Nat} :
    ∀ c0 n, searchDesc g c0 = some n →
      ∃ c, 1 ≤ c ∧ c ≤ c0 ∧ g c = some n ∧ ∀ j, c < j → j ≤ c0 → g j = none := by
  intro c0
  induction c0 with
  | zero => intro n h; simp [searchDesc] at h
  | succ c ih =>
    intro n h
    rw [searchDesc] at h
    cases hg : g (c + 1) with
    | some m =>
      rw [hg] at h
      cases h
      exact ⟨c + 1, by omega, by omega, hg, fun j h1 h2 => by omega⟩
    | none =>
      rw [hg] at h
      obtain ⟨c', h1, h2, h3, h4⟩ := ih n h
      refine ⟨c', h1, by omega, h3, fun j hj1 hj2 => ?_⟩
      rcases Nat.lt_or_ge j (c + 1) with hlt | hge
      · exact h4 j hj1 (by omega)
      · have hj : j = c + 1 := by omega
        rw [hj]
        exact hg

theorem searchDesc_none {g : Nat → Option Nat} :
    ∀ c0, searchDesc g c0 = none → ∀ j, 1 ≤ j → j ≤ c0 → g j = none := by
  intro c0
  induction c0 with
  | zero => intro _ j h1 h2; omega
  | succ c ih =>
    intro h j h1 h2
    rw [searchDesc] at h
    cases hg : g (c + 1) with
    | some m => rw [hg] at h; cases h
    | none =>
      rcases Nat.lt_or_ge j (c + 1) with hlt | hge
      · rw [hg] at h
        exact ih h j h1 (by omega)
      · have hj : j = c + 1 := by omega
        rw [hj]
        exact hg

theorem searchDesc_eq_some {g : Nat → Option Nat} :
    ∀ c0 c n, 1 ≤ c → c ≤ c0 → g c = some n → (∀ j, c < j → j ≤ c0 → g j = none) →
      searchDesc g c0 = some n := by
  intro c0
  induction c0 with
  | zero => intro c n h1 h2 _ _; omega
  | succ c0 ih =>
    intro c n h1 h2 hg hmax
    rw [searchDesc]
    rcases Nat.lt_or_ge c (c0 + 1) with hlt | hge
    · rw [hmax (c0 + 1) (by omega) (by omega)]
      exact ih c n h1 (by omega) hg (fun j hj1 hj2 => hmax j hj1 (by omega))
    · have hc : c = c0 + 1 := by omega
      subst hc
      rw [hg]

theorem spaces1_consumed {s c r : Str} (h : spaces1 s = some (c, r)) : c ++ r = s := by
  dsimp only [spaces1] at h
  split at h
  · cases h
  · simp only [Option.some.injEq, Prod.mk.injEq] at h
    rw [← h.1, ← h.2]
    exact takeWhile_append_drop _ _

theorem sepThen_consumed {m : Str → Option (Str × Str)}
    (hm : ∀ {x c r : Str}, m x = some (c, r) → c ++ r = x) {s c r : Str}
    (h : sepThen m s = some (c, r)) : c ++ r = s := by
  dsimp only [sepThen] at h
  cases hsp : spaces1 s with
  | none => rw [hsp] at h; cases h
  | some p =>
    obtain ⟨sp, s1⟩ := p
    rw [hsp] at h
    dsimp only at h
    cases hmm : m s1 with
    | none => rw [hmm] at h; cases h
    | some q =>
      obtain ⟨c1, r1⟩ := q
      rw [hmm] at h
      simp only [Option.some.injEq, Prod.mk.injEq] at h
      rw [← h.1, ← h.2, List.append_assoc, hm hmm]
      exact spaces1_consumed hsp

theorem repRun_consumed {step : Str → Option (Str × Str)}
    (hs : ∀ {x c r : Str}, step x = some (c, r) → c ++ r = x) :
    ∀ (fuel : Nat) (s : Str), (repRun step fuel s).1 ++ (repRun step fuel s).2 = s := by
  intro fuel
  induction fuel with
  | zero => intro s; rfl
  | succ n ih =>
    intro s
    rw [repRun]
    cases hst : step s with
    | none => rfl
    | some p =>
      obtain ⟨c, r⟩ := p
      simp only
      rw [List.append_assoc, ih r]
      exact hs hst

theorem cgg_consumed {s c r : Str} (h : cgg s = some (c, r)) : c ++ r = s := by
  dsimp only [cgg] at h
  split at h
  · simp only [Option.some.injEq, Prod.mk.injEq] at h
    rw [← h.1, ← h.2]
    exact takeWhile_append_drop _ _
  · cases h

theorem townRelax_consumed {s c r : Str} (h : townRelax s = some (c, r)) : c ++ r = s := by
  dsimp only [townRelax] at h
  split at h
  · simp only [Option.some.injEq, Prod.mk.injEq] at h
    rw [← h.1, ← h.2]
    exact takeWhile_append_drop _ _
  · cases h

theorem rawCity_consumed {s c r : Str} (h : rawCity s = some (c, r)) : c ++ r = s := by
  dsimp only [rawCity] at h
  split at h
  · simp only [Option.some.injEq, Prod.mk.injEq] at h
    rw [← h.1, ← h.2]
    exact takeWhile_append_drop _ _
  · cases h

theorem townStrict_consumed {s c r : Str} (h : townStrict s = some (c, r)) : c ++ r = s := by
  dsimp only [townStrict] at h
  cases hs : searchDesc
      (fun c => if (((s.takeWhile isKoDigit).drop c).head?.map isTownSuffix).getD false
                then some (c + 1) else none)
      ((s.takeWhile isKoDigit).length - 1) with
  | none => rw [hs] at h; cases h
  | some n =>
    rw [hs] at h
    simp only [Option.some.injEq, Prod.mk.injEq] at h
    rw [← h.1, ← h.2]
    exact List.take_append_drop _ _

theorem planDist_consumed {s c r : Str} (h : planDist s = some (c, r)) : c ++ r = s := by
  dsimp only [planDist] at h
  cases hs : searchDesc
      (fun c => if ((s.takeWhile isKoDigit).drop c).take 2 = "지구".data then some (c + 2)
                else if ((s.takeWhile isKoDigit).drop c).take 2 = "구역".data then some (c + 2)
                else none)
      ((s.takeWhile isKoDigit).length - 1) with
  | none => rw [hs] at h; cases h
  | some n =>
    rw [hs] at h
    simp only [Option.some.injEq, Prod.mk.injEq] at h
    rw [← h.1, ← h.2]
    exact List.take_append_drop _ _

theorem road_consumed {s c r : Str} (h : road s = some (c, r)) : c ++ r = s := by
  dsimp only [road] at h
  cases hs : searchDesc
      (fun c => if ((s.takeWhile isKoDigit).drop c).take 1 = ['로'] then some (c + 1)
                else if ((s.takeWhile isKoDigit).drop c).take 1 = ['길'] then some (c + 1)
                else if ((s.takeWhile isKoDigit).drop c).take 2 = "대로".data then some (c + 2)
                else if ((s.takeWhile isKoDigit).drop c).take 2 = "번길".data then some (c + 2)
                else none)
      ((s.takeWhile isKoDigit).length - 1) with
  | none => rw [hs] at h; cases h
  | some n =>
    rw [hs] at h
    simp only [Option.some.injEq, Prod.mk.injEq] at h
    rw [← h.1, ← h.2]
    exact List.take_append_drop _ _

theorem town_consumed {s c r : Str} (h : town s = some (c, r)) : c ++ r = s := by
  dsimp only [town] at h
  cases hs : townStrict s with
  | some p => rw [hs] at h; cases h; exact townStrict_consumed hs
  | none => rw [hs] at h; exact townRelax_consumed h

theorem lotCore_consumed {s c r : Str} (h : lotCore s = some (c, r)) : c ++ r = s := by
  dsimp only [lotCore] at h
  cases s with
  | nil =>
    dsimp only at h
    split at h
    · cases h
    · simp only [Option.some.injEq, Prod.mk.injEq] at h
      rw [← h.1, ← h.2]
      exact takeWhile_append_drop _ _
  | cons k t =>
    cases t with
    | nil =>
      dsimp only at h
      split at h
      · cases h
      · simp only [Option.some.injEq, Prod.mk.injEq] at h
        rw [← h.1, ← h.2]
        exact takeWhile_append_drop _ _
    | cons h2 rest =>
      dsimp only at h
      by_cases hk : (isKo k && isHyp h2) = true
      · rw [if_pos hk] at h
        by_cases hd : (rest.takeWhile isDigitC).isEmpty = true
        · rw [if_pos hd] at h
          split at h
          · cases h
          · simp only [Option.some.injEq, Prod.mk.injEq] at h
            rw [← h.1, ← h.2]
            exact takeWhile_append_drop _ _
        · rw [if_neg hd] at h
          simp only [Option.some.injEq, Prod.mk.injEq] at h
          rw [← h.1, ← h.2]
          simp only [List.cons_append, List.cons.injEq, true_and]
          rw [takeWhile_append_drop]
      · rw [if_neg hk] at h
        split at h
        · cases h
        · simp only [Option.some.injEq, Prod.mk.injEq] at h
          rw [← h.1, ← h.2]
          exact takeWhile_append_drop _ _

theorem hypDigits_consumed {s c r : Str} (h : hypDigits s = (c, r)) : c ++ r = s := by
  dsimp only [hypDigits] at h
  cases s with
  | nil => cases h; rfl
  | cons h2 rest =>
    dsimp only at h
    by_cases hh : isHyp h2 = true
    · rw [if_pos hh] at h
      by_cases hd : (rest.takeWhile isDigitC).isEmpty = true
      · rw [if_pos hd] at h
        cases h
        rfl
      · rw [if_neg hd] at h
        cases h
        simp only [List.cons_append, List.cons.injEq, true_and]
        rw [takeWhile_append_drop]
    · rw [if_neg hh] at h
      cases h
      rfl

theorem hypDigits_split (s : Str) : (hypDigits s).1 ++ (hypDigits s).2 = s :=
  hypDigits_consumed rfl

theorem lotAfterCore_consumed {s c r : Str} (h : lotAfterCore s = (c, r)) : c ++ r = s := by
  have hsplit := hypDigits_split s
  have hsp : (hypDigits s).2.takeWhile isSpaceC ++
      (hypDigits s).2.drop ((hypDigits s).2.takeWhile isSpaceC).length = (hypDigits s).2 :=
    takeWhile_append_drop _ _
  dsimp only [lotAfterCore] at h
  by_cases h1 : ((hypDigits s).2.drop ((hypDigits s).2.takeWhile isSpaceC).length).take 2
      = "일원".data
  · rw [if_pos h1] at h
    cases h
    simp only [List.append_assoc]
    have h1a : ((hypDigits s).2.drop ((hypDigits s).2.takeWhile isSpaceC).length).take 2
        = ['일', '원'] := h1
    rw [← h1a, List.take_append_drop, hsp]
    exact hsplit
  · rw [if_neg h1] at h
    by_cases h2 : ((hypDigits s).2.drop ((hypDigits s).2.takeWhile isSpaceC).length).take 2
        = "번지".data
    · rw [if_pos h2] at h
      cases h
      simp only [List.append_assoc]
      have h2a : ((hypDigits s).2.drop ((hypDigits s).2.takeWhile isSpaceC).length).take 2
          = ['번', '지'] := h2
      rw [← h2a, List.take_append_drop, hsp]
      exact hsplit
    · rw [if_neg h2] at h
      cases h
      exact hsplit

theorem lotAfterCore_split (s : Str) : (lotAfterCore s).1 ++ (lotAfterCore s).2 = s :=
  lotAfterCore_consumed rfl

theorem lot_consumed {s c r : Str} (h : lot s = some (c, r)) : c ++ r = s := by
  have hdirect : ∀ {x c r : Str},
      ((lotCore x).map (fun p => ((p.1 ++ (lotAfterCore p.2).1 : Str), (lotAfterCore p.2).2))
        = some (c, r)) → c ++ r = x := by
    intro x c r hx
    cases hlc : lotCore x with
    | none => rw [hlc] at hx; cases hx
    | some p =>
      obtain ⟨co, r0⟩ := p
      rw [hlc] at hx
      simp only [Option.map_some', Option.some.injEq, Prod.mk.injEq] at hx
      rw [← hx.1, ← hx.2, List.append_assoc, lotAfterCore_split r0]
      exact lotCore_consumed hlc
  dsimp only [lot] at h
  cases s with
  | nil =>
    dsimp only at h
    exact hdirect h
  | cons c0 rest =>
    dsimp only at h
    by_cases hc0 : c0 = '산'
    · rw [if_pos hc0] at h
      cases hlc : lotCore (rest.drop (rest.takeWhile isSpaceC).length) with
      | none =>
        rw [hlc] at h
        exact hdirect h
      | some p =>
        obtain ⟨co, r2⟩ := p
        rw [hlc] at h
        dsimp only at h
        simp only [Option.some.injEq, Prod.mk.injEq] at h
        rw [← h.1, ← h.2, hc0]
        simp only [List.cons_append, List.cons.injEq, true_and, List.append_assoc]
        rw [lotAfterCore_split r2, lotCore_consumed hlc]
        exact takeWhile_append_drop _ _
    · rw [if_neg hc0] at h
      exact hdirect h

theorem lotListStep_consumed {s c r : Str} (h : lotListStep s = some (c, r)) : c ++ r = s := by
  dsimp only [lotListStep] at h
  cases hdrop : s.drop (s.takeWhile isSpaceC).length with
  | nil => rw [hdrop] at h; cases h
  | cons ch r2 =>
    rw [hdrop] at h
    dsimp only at h
    by_cases hch : ch = ','
    · rw [if_pos hch] at h
      cases hlc : lotCore (r2.drop (r2.takeWhile isSpaceC).length) with
      | none => rw [hlc] at h; cases h
      | some p =>
        obtain ⟨co, r3⟩ := p
        rw [hlc] at h
        dsimp only at h
        simp only [Option.some.injEq, Prod.mk.injEq] at h
        rw [← h.1, ← h.2]
        simp only [List.append_assoc, List.cons_append]
        rw [hypDigits_split r3, lotCore_consumed hlc]
        have hx : (',' : Char) :: (r2.takeWhile isSpaceC ++
            r2.drop (r2.takeWhile isSpaceC).length) = ',' :: r2 := by
          rw [takeWhile_append_drop]
        rw [hx, ← hch, ← hdrop]
        exact takeWhile_append_drop _ _
    · rw [if_neg hch] at h
      cases h

theorem lotList_consumed {s c r : Str} (h : lotList s = some (c, r)) : c ++ r = s := by
  dsimp only [lotList] at h
  cases hl : lot s with
  | none => rw [hl] at h; cases h
  | some p =>
    obtain ⟨c1, r1⟩ := p
    rw [hl] at h
    simp only [Option.map_some', Option.some.injEq] at h
    cases h
    simp only [List.append_assoc]
    rw [repRun_consumed (fun {x c r} hx => lotListStep_consumed hx) r1.length r1]
    exact lot_consumed hl

theorem tailOpt_consumed {s c r : Str} (h : tailOpt s = (c, r)) : c ++ r = s := by
  dsimp only [tailOpt] at h
  cases hA : sepThen planDist s with
  | some pa =>
    obtain ⟨a1, a2⟩ := pa
    rw [hA] at h
    dsimp only at h
    cases hB : sepThen road a2 with
    | some pb =>
      obtain ⟨b1, b2⟩ := pb
      rw [hB] at h
      dsimp only at h
      cases hC : lotList (b2.drop (b2.takeWhile isSpaceC).length) with
      | some pc =>
        obtain ⟨d1, d2⟩ := pc
        rw [hC] at h
        dsimp only at h
        cases h
        simp only [List.append_assoc]
        rw [lotList_consumed hC, takeWhile_append_drop,
          sepThen_consumed (fun {x c r} hx => road_consumed hx) hB,
          sepThen_consumed (fun {x c r} hx => planDist_consumed hx) hA]
      | none =>
        rw [hC] at h
        dsimp only at h
        cases h
        simp only [List.append_assoc, List.append_nil, List.nil_append]
        rw [sepThen_consumed (fun {x c r} hx => road_consumed hx) hB,
          sepThen_consumed (fun {x c r} hx => planDist_consumed hx) hA]
    | none =>
      rw [hB] at h
      dsimp only at h
      cases hC : lotList (a2.drop (a2.takeWhile isSpaceC).length) with
      | some pc =>
        obtain ⟨d1, d2⟩ := pc
        rw [hC] at h
        dsimp only at h
        cases h
        simp only [List.append_assoc, List.nil_append]
        rw [lotList_consumed hC, takeWhile_append_drop,
          sepThen_consumed (fun {x c r} hx => planDist_consumed hx) hA]
      | none =>
        rw [hC] at h
        dsimp only at h
        cases h
        simp only [List.append_assoc, List.append_nil, List.nil_append]
        exact sepThen_consumed (fun {x c r} hx => planDist_consumed hx) hA
  | none =>
    rw [hA] at h
    dsimp only at h
    cases hB : sepThen road s with
    | some pb =>
      obtain ⟨b1, b2⟩ := pb
      rw [hB] at h
      dsimp only at h
      cases hC : lotList (b2.drop (b2.takeWhile isSpaceC).length) with
      | some pc =>
        obtain ⟨d1, d2⟩ := pc
        rw [hC] at h
        dsimp only at h
        cases h
        simp only [List.append_assoc, List.nil_append]
        rw [lotList_consumed hC, takeWhile_append_drop,
          sepThen_consumed (fun {x c r} hx => road_consumed hx) hB]
      | none =>
        rw [hC] at h
        dsimp only at h
        cases h
        simp only [List.append_assoc, List.append_nil, List.nil_append]
        exact sepThen_consumed (fun {x c r} hx => road_consumed hx) hB
    | none =>
      rw [hB] at h
      dsimp only at h
      cases hC : lotList (s.drop (s.takeWhile isSpaceC).length) with
      | some pc =>
        obtain ⟨d1, d2⟩ := pc
        rw [hC] at h
        dsimp only at h
        cases h
        simp only [List.append_assoc, List.nil_append]
        rw [lotList_consumed hC, takeWhile_append_drop]
      | none =>
        rw [hC] at h
        dsimp only at h
        cases h
        rfl

theorem tailOpt_split (s : Str) : (tailOpt s).1 ++ (tailOpt s).2 = s :=
  tailOpt_consumed rfl

theorem firstSome_spec {α β : Type} {l : List α} {f : α → Option β} {b : β} :
    firstSome l f = some b → ∃ a, a ∈ l ∧ f a = some b := by
  induction l with
  | nil => intro h; cases h
  | cons x xs ih =>
    intro h
    rw [firstSome] at h
    cases hf : f x with
    | some y =>
      rw [hf] at h
      cases h
      exact ⟨x, List.mem_cons_self x xs, hf⟩
    | none =>
      rw [hf] at h
      obtain ⟨a, ha, hfa⟩ := ih h
      exact ⟨a, List.mem_cons_of_mem x ha, hfa⟩

theorem litMatches_mem {alts : List Str} {s : Str} {pr : Str × Str}
    (h : pr ∈ litMatches alts s) : pr.1 ++ pr.2 = s := by
  dsimp only [litMatches] at h
  rw [List.mem_filterMap] at h
  obtain ⟨a, _, hfa⟩ := h
  by_cases hc : s.take a.length = a
  · rw [if_pos hc] at hfa
    cases hfa
    show a ++ s.drop a.length = s
    nth_rewrite 1 [← hc]
    exact List.take_append_drop _ _
  · rw [if_neg hc] at hfa
    cases hfa

theorem repTown_split (n : Nat) (x : Str) :
    (repRun (sepThen town) n x).1 ++ (repRun (sepThen town) n x).2 = x :=
  repRun_consumed (fun {a b c} hx => sepThen_consumed (fun {d e f} hy => town_consumed hy) hx) n x

theorem repCgg_split (n : Nat) (x : Str) :
    (repRun (sepThen cgg) n x).1 ++ (repRun (sepThen cgg) n x).2 = x :=
  repRun_consumed (fun {a b c} hx => sepThen_consumed (fun {d e f} hy => cgg_consumed hy) hx) n x

theorem sejongBr_consumed {s c r : Str} (h : sejongBr s = some (c, r)) : c ++ r = s := by
  dsimp only [sejongBr] at h
  obtain ⟨pr, hmem, hf⟩ := firstSome_spec h
  simp only [Option.some.injEq, Prod.mk.injEq] at hf
  rw [← hf.1, ← hf.2]
  simp only [List.append_assoc]
  rw [tailOpt_split, repTown_split]
  exact litMatches_mem hmem

theorem provEtcBr_consumed {s c r : Str} (h : provEtcBr s = some (c, r)) : c ++ r = s := by
  dsimp only [provEtcBr] at h
  obtain ⟨pr, hmem, hf⟩ := firstSome_spec h
  cases hcg : sepThen cgg pr.2 with
  | none => rw [hcg] at hf; cases hf
  | some p =>
    obtain ⟨c1, s2⟩ := p
    rw [hcg] at hf
    dsimp only at hf
    simp only [Option.some.injEq, Prod.mk.injEq] at hf
    rw [← hf.1, ← hf.2]
    simp only [List.append_assoc]
    rw [tailOpt_split, repTown_split, repCgg_split,
      sepThen_consumed (fun {d e f} hy => cgg_consumed hy) hcg]
    exact litMatches_mem hmem

theorem sggOnlyBr_consumed {s c r : Str} (h : sggOnlyBr s = some (c, r)) : c ++ r = s := by
  dsimp only [sggOnlyBr] at h
  cases hcg : cgg s with
  | none => rw [hcg] at h; cases h
  | some p =>
    obtain ⟨c1, s2⟩ := p
    rw [hcg] at h
    dsimp only at h
    simp only [Option.some.injEq, Prod.mk.injEq] at h
    rw [← h.1, ← h.2]
    simp only [List.append_assoc]
    rw [tailOpt_split, repTown_split, repCgg_split]
    exact cgg_consumed hcg

theorem provRawBr_consumed {s c r : Str} (h : provRawBr s = some (c, r)) : c ++ r = s := by
  dsimp only [provRawBr] at h
  obtain ⟨pr, hmem, hf⟩ := firstSome_spec h
  cases hrc : sepThen rawCity pr.2 with
  | none => rw [hrc] at hf; cases hf
  | some p =>
    obtain ⟨rc, s2⟩ := p
    rw [hrc] at hf
    dsimp only at hf
    cases ht1 : sepThen town s2 with
    | none => rw [ht1] at hf; cases hf
    | some q =>
      obtain ⟨t1, s3⟩ := q
      rw [ht1] at hf
      dsimp only at hf
      simp only [Option.some.injEq, Prod.mk.injEq] at hf
      rw [← hf.1, ← hf.2]
      simp only [List.append_assoc]
      rw [tailOpt_split, repTown_split,
        sepThen_consumed (fun {d e f} hy => town_consumed hy) ht1,
        sepThen_consumed (fun {d e f} hy => rawCity_consumed hy) hrc]
      exact litMatches_mem hmem

theorem provTownBr_consumed {s c r : Str} (h : provTownBr s = some (c, r)) : c ++ r = s := by
  dsimp only [provTownBr] at h
  obtain ⟨pr, hmem, hf⟩ := firstSome_spec h
  cases ht1 : sepThen town pr.2 with
  | none => rw [ht1] at hf; cases hf
  | some q =>
    obtain ⟨t1, s2⟩ := q
    rw [ht1] at hf
    dsimp only at hf
    simp only [Option.some.injEq, Prod.mk.injEq] at hf
    rw [← hf.1, ← hf.2]
    simp only [List.append_assoc]
    rw [tailOpt_split, repTown_split,
      sepThen_consumed (fun {d e f} hy => town_consumed hy) ht1]
    exact litMatches_mem hmem

theorem addrBody_consumed {s c r : Str} (h : addrBody s = some (c, r)) : c ++ r = s := by
  dsimp only [addrBody] at h
  cases h1 : sejongBr s with
  | some p => rw [h1] at h; cases h; exact sejongBr_consumed h1
  | none =>
    rw [h1] at h
    cases h2 : provEtcBr s with
    | some p => rw [h2] at h; cases h; exact provEtcBr_consumed h2
    | none =>
      rw [h2] at h
      cases h3 : sggOnlyBr s with
      | some p => rw [h3] at h; cases h; exact sggOnlyBr_consumed h3
      | none =>
        rw [h3] at h
        cases h4 : provRawBr s with
        | some p => rw [h4] at h; cases h; exact provRawBr_consumed h4
        | none =>
          rw [h4] at h
          exact provTownBr_consumed h

theorem bracketGroups_consumed :
    ∀ (n : Nat) {s c r : Str}, bracketGroups n s = (c, r) → c ++ r = s := by
  intro n
  induction n with
  | zero => intro s c r h; cases h; rfl
  | succ n ih =>
    intro s c r h
    cases s with
    | nil => cases h; rfl
    | cons c0 t =>
      rw [bracketGroups.eq_def] at h
      dsimp only at h
      by_cases h0 : c0 = '['
      · rw [if_pos h0] at h
        split at h
        · cases h
          rfl
        · cases hdrop : t.drop (t.takeWhile (fun c => decide (c ≠ ']'))).length with
          | nil => rw [hdrop] at h; cases h; rfl
          | cons c1 r3 =>
            rw [hdrop] at h
            dsimp only at h
            by_cases h1 : c1 = ']'
            · rw [if_pos h1] at h
              cases h
              subst h1
              subst h0
              simp only [List.cons_append, List.append_assoc]
              rw [ih rfl, takeWhile_append_drop, ← hdrop, takeWhile_append_drop]
            · rw [if_neg h1] at h
              cases h
              rfl
      · rw [if_neg h0] at h
        cases h
        rfl

theorem matchPfx_consumed {s c r : Str} (h : matchPfx s = (c, r)) : c ++ r = s := by
  dsimp only [matchPfx] at h
  by_cases hds : (s.takeWhile isDigitC).isEmpty = true
  · rw [if_pos hds] at h
    dsimp only at h
    cases h
    simp only [List.nil_append]
    exact bracketGroups_consumed _ rfl
  · rw [if_neg hds] at h
    cases hdrop : s.drop (s.takeWhile isDigitC).length with
    | nil =>
      rw [hdrop] at h
      dsimp only at h
      cases h
      simp only [List.nil_append]
      exact bracketGroups_consumed _ rfl
    | cons ch rest =>
      rw [hdrop] at h
      dsimp only at h
      by_cases hch : ch = '.'
      · rw [if_pos hch] at h
        dsimp only at h
        cases h
        simp only [List.append_assoc, List.cons_append]
        rw [bracketGroups_consumed _ rfl, takeWhile_append_drop, ← hch, ← hdrop]
        exact takeWhile_append_drop _ _
      · rw [if_neg hch] at h
        dsimp only at h
        cases h
        simp only [List.nil_append]
        exact bracketGroups_consumed _ rfl

/-- Inputs on which re-parsing is attempted: empty, or starting with a
Hangul letter (every PATTERN alternative starts with one). -/
def KoHeadOrNil (x : Str) : Prop := x = [] ∨ ∃ ch t, x = ch :: t ∧ isKo ch = true

theorem bracketGroups_nil (m : Nat) : bracketGroups m ([] : Str) = ([], []) := by
  cases m with
  | zero => rfl
  | succ n => rfl

theorem bracketGroups_not_bracket {ch : Char} {x : Str} (h : ¬ ch = '[') (m : Nat) :
    bracketGroups m (ch :: x) = ([], ch :: x) := by
  cases m with
  | zero => rfl
  | succ n =>
    rw [bracketGroups.eq_def]
    dsimp only
    rw [if_neg h]

theorem bracketGroups_koHead {x : Str} (hx : KoHeadOrNil x) (m : Nat) :
    bracketGroups m x = ([], x) := by
  rcases hx with rfl | ⟨ch, t, rfl, hko⟩
  · exact bracketGroups_nil m
  · exact bracketGroups_not_bracket (isKo_ne_bracket hko) m

theorem bracketGroups_head {n : Nat} {s c r : Str} (h : bracketGroups n s = (c, r)) :
    c = [] ∨ ∃ t, c = '[' :: t := by
  cases n with
  | zero => cases h; exact Or.inl rfl
  | succ n =>
    cases s with
    | nil => cases h; exact Or.inl rfl
    | cons c0 t =>
      rw [bracketGroups.eq_def] at h
      dsimp only at h
      by_cases h0 : c0 = '['
      · rw [if_pos h0] at h
        split at h
        · cases h; exact Or.inl rfl
        · cases hdrop : t.drop (t.takeWhile (fun c => decide (c ≠ ']'))).length with
          | nil => rw [hdrop] at h; cases h; exact Or.inl rfl
          | cons c1 r3 =>
            rw [hdrop] at h
            dsimp only at h
            by_cases h1 : c1 = ']'
            · rw [if_pos h1] at h
              cases h
              exact Or.inr ⟨_, rfl⟩
            · rw [if_neg h1] at h
              cases h
              exact Or.inl rfl
      · rw [if_neg h0] at h
        cases h
        exact Or.inl rfl

theorem head_getD_false_of_shapes {q1 x : Str} (p : Char → Bool)
    (hq : q1 = [] ∨ ∃ t, q1 = '[' :: t) (hp : p '[' = false)
    (hx : KoHeadOrNil x) (hxko : ∀ ch, isKo ch = true → p ch = false) :
    (((q1 ++ x).head?.map p).getD false) = false := by
  rcases hq with rfl | ⟨t, rfl⟩
  · rcases hx with rfl | ⟨ch, t, rfl, hko⟩
    · rfl
    · simp only [List.nil_append, List.head?_cons, Option.map_some', Option.getD_some]
      exact hxko ch hko
  · simp only [List.cons_append, List.head?_cons, Option.map_some', Option.getD_some]
    exact hp

theorem bracketGroups_reparse :
    ∀ (n : Nat) {s c r : Str}, bracketGroups n s = (c, r) →
      ∀ {x : Str}, KoHeadOrNil x → ∀ m, c.length ≤ m → bracketGroups m (c ++ x) = (c, x) := by
  intro n
  induction n with
  | zero =>
    intro s c r h x hx m _
    cases h
    exact bracketGroups_koHead hx m
  | succ n ih =>
    intro s c r h x hx m hm
    cases s with
    | nil =>
      cases h
      exact bracketGroups_koHead hx m
    | cons c0 t =>
      rw [bracketGroups.eq_def] at h
      dsimp only at h
      by_cases h0 : c0 = '['
      · rw [if_pos h0] at h
        split at h
        · cases h
          exact bracketGroups_koHead hx m
        · rename_i hne
          cases hdrop : t.drop (t.takeWhile (fun c => decide (c ≠ ']'))).length with
          | nil =>
            rw [hdrop] at h
            cases h
            exact bracketGroups_koHead hx m
          | cons c1 r3 =>
            rw [hdrop] at h
            dsimp only at h
            by_cases h1 : c1 = ']'
            · rw [if_pos h1] at h
              cases h
              subst h1
              cases m with
              | zero => exact absurd hm (by simp)
              | succ m2 =>
                have hT : (('[' :: (t.takeWhile (fun c => decide (c ≠ ']')) ++
                    ']' :: r3.takeWhile isSpaceC ++
                    (bracketGroups n (r3.drop (r3.takeWhile isSpaceC).length)).1)) ++ x)
                    = '[' :: (t.takeWhile (fun c => decide (c ≠ ']')) ++
                      (']' :: (r3.takeWhile isSpaceC ++
                       ((bracketGroups n (r3.drop (r3.takeWhile isSpaceC).length)).1 ++ x)))) := by
                  simp [List.append_assoc]
                rw [hT, bracketGroups.eq_def]
                dsimp only
                rw [if_pos rfl]
                have htw : (t.takeWhile (fun c => decide (c ≠ ']')) ++
                    (']' :: (r3.takeWhile isSpaceC ++
                     ((bracketGroups n (r3.drop (r3.takeWhile isSpaceC).length)).1 ++ x)))).takeWhile
                      (fun c => decide (c ≠ ']'))
                    = t.takeWhile (fun c => decide (c ≠ ']')) :=
                  (takeWhile_prefix_eq (all_takeWhile _ t) (by simp)).1
                rw [htw, if_neg hne, List.drop_left]
                dsimp only
                rw [if_pos rfl]
                have hq := bracketGroups_head
                  (rfl : bracketGroups n (r3.drop (r3.takeWhile isSpaceC).length)
                    = ((bracketGroups n (r3.drop (r3.takeWhile isSpaceC).length)).1,
                       (bracketGroups n (r3.drop (r3.takeWhile isSpaceC).length)).2))
                have hsp : (r3.takeWhile isSpaceC ++
                    ((bracketGroups n (r3.drop (r3.takeWhile isSpaceC).length)).1 ++ x)).takeWhile
                      isSpaceC = r3.takeWhile isSpaceC :=
                  (takeWhile_prefix_eq (all_takeWhile _ r3)
                    (head_getD_false_of_shapes isSpaceC hq (by decide) hx
                      (fun ch hko => isKo_not_space hko))).1
                rw [hsp, List.drop_left]
                have hlen : (bracketGroups n
                    (r3.drop (r3.takeWhile isSpaceC).length)).1.length ≤ m2 := by
                  simp only [List.length_cons, List.length_append] at hm
                  omega
                rw [ih rfl hx m2 hlen]
            · rw [if_neg h1] at h
              cases h
              exact bracketGroups_koHead hx m
      · rw [if_neg h0] at h
        cases h
        exact bracketGroups_koHead hx m

theorem matchPfx_ko_head {ch : Char} {x : Str} (hko : isKo ch = true) :
    matchPfx (ch :: x) = ([], ch :: x) := by
  have hd : isDigitC ch = false := isKo_not_digit hko
  have hds : (ch :: x).takeWhile isDigitC = ([] : Str) := by
    rw [List.takeWhile_cons, hd]
    rfl
  dsimp only [matchPfx]
  rw [hds]
  simp only [List.isEmpty_nil, if_true]
  rw [bracketGroups_not_bracket (isKo_ne_bracket hko)]
  simp

theorem matchPfx_reparse_bg {s p r : Str} (hq : bracketGroups s.length s = (p, r))
    {x : Str} (hx : KoHeadOrNil x) : matchPfx (p ++ x) = (p, x) := by
  rcases bracketGroups_head hq with rfl | ⟨t, hpt⟩
  · rw [List.nil_append]
    rcases hx with rfl | ⟨ch, t, rfl, hko⟩
    · rfl
    · exact matchPfx_ko_head hko
  · subst hpt
    dsimp only [matchPfx]
    have hds2 : (('[' :: t) ++ x).takeWhile isDigitC = ([] : Str) := by
      rw [List.cons_append, List.takeWhile_cons, (show isDigitC '[' = false from by decide)]
      rfl
    rw [hds2]
    simp only [List.isEmpty_nil, if_true]
    simp only [List.nil_append]
    rw [bracketGroups_reparse _ hq hx _ (by simp only [List.length_append]; omega)]

theorem matchPfx_reparse {s p r : Str} (h : matchPfx s = (p, r)) {x : Str}
    (hx : KoHeadOrNil x) : matchPfx (p ++ x) = (p, x) := by
  dsimp only [matchPfx] at h
  by_cases hds : (s.takeWhile isDigitC).isEmpty = true
  · rw [if_pos hds] at h
    dsimp only at h
    simp only [List.nil_append] at h
    exact matchPfx_reparse_bg (by rw [← h]) hx
  · rw [if_neg hds] at h
    cases hdrop : s.drop (s.takeWhile isDigitC).length with
    | nil =>
      rw [hdrop] at h
      dsimp only at h
      simp only [List.nil_append] at h
      exact matchPfx_reparse_bg (by rw [← h]) hx
    | cons ch rest =>
      rw [hdrop] at h
      dsimp only at h
      by_cases hch : ch = '.'
      · rw [if_pos hch] at h
        dsimp only at h
        subst hch
        cases hq : bracketGroups (rest.drop (rest.takeWhile isSpaceC).length).length
            (rest.drop (rest.takeWhile isSpaceC).length) with
        | mk q1 q2 =>
          rw [hq] at h
          dsimp only at h
          simp only [Prod.mk.injEq] at h
          obtain ⟨hp, hr⟩ := h
          rw [← hp]
          have hT : ((s.takeWhile isDigitC ++ '.' :: rest.takeWhile isSpaceC) ++ q1) ++ x
              = s.takeWhile isDigitC ++
                ('.' :: (rest.takeWhile isSpaceC ++ (q1 ++ x))) := by
            simp [List.append_assoc]
          rw [hT]
          dsimp only [matchPfx]
          have htw : (s.takeWhile isDigitC ++
              ('.' :: (rest.takeWhile isSpaceC ++ (q1 ++ x)))).takeWhile isDigitC
              = s.takeWhile isDigitC :=
            (takeWhile_prefix_eq (all_takeWhile _ s) (by simp [(show isDigitC '.' = false from by decide)])).1
          rw [htw, if_neg hds, List.drop_left]
          dsimp only
          rw [if_pos rfl]
          have hsp : (rest.takeWhile isSpaceC ++ (q1 ++ x)).takeWhile isSpaceC
              = rest.takeWhile isSpaceC :=
            (takeWhile_prefix_eq (all_takeWhile _ rest)
              (head_getD_false_of_shapes isSpaceC (bracketGroups_head hq) (by decide) hx
                (fun c2 hko => isKo_not_space hko))).1
          rw [hsp, List.drop_left]
          rw [bracketGroups_reparse _ hq hx _ (by simp only [List.length_append]; omega)]
      · rw [if_neg hch] at h
        dsimp only at h
        simp only [List.nil_append] at h
        exact matchPfx_reparse_bg (by rw [← h]) hx

/-- The last character (if any) of a fragment is not whitespace; holds
vacuously for the empty fragment. -/
def LastNS (c : Str) : Prop := ((c.getLast?.map isSpaceC).getD false) = false

theorem lastNS_nil : LastNS [] := rfl

theorem lastNS_of_some {b : Str} {d : Char} (h1 : b.getLast? = some d)
    (h2 : isSpaceC d = false) : LastNS b := by
  dsimp only [LastNS]
  rw [h1]
  simp only [Option.map_some', Option.getD_some]
  exact h2

theorem lastNS_append {a b : Str} (ha : LastNS a) (hb : LastNS b) : LastNS (a ++ b) := by
  dsimp only [LastNS] at *
  rw [List.getLast?_append]
  cases hbl : b.getLast? with
  | none => rw [Option.none_or]; exact ha
  | some d => rw [Option.or_some]; rw [hbl] at hb; exact hb

theorem lastNS_append_right {a b : Str} {d : Char} (h1 : b.getLast? = some d)
    (h2 : isSpaceC d = false) : LastNS (a ++ b) := by
  dsimp only [LastNS]
  rw [List.getLast?_append, h1, Option.or_some]
  simp only [Option.map_some', Option.getD_some]
  exact h2

theorem siGunGu_not_space {d : Char} (h : isSiGunGu d = true) : isSpaceC d = false := by
  simp only [isSiGunGu, Bool.or_eq_true, decide_eq_true_eq] at h
  rcases h with (h | h) | h <;> subst h <;> decide

theorem townSuffix_not_space {d : Char} (h : isTownSuffix d = true) : isSpaceC d = false := by
  simp only [isTownSuffix, Bool.or_eq_true, decide_eq_true_eq] at h
  rcases h with (((h | h) | h) | h) | h <;> subst h <;> decide

theorem digit_not_space {d : Char} (h : isDigitC d = true) : isSpaceC d = false := by
  cases hs : isSpaceC d with
  | false => rfl
  | true =>
    simp only [isDigitC, Bool.and_eq_true, decide_eq_true_eq] at h
    simp only [isSpaceC, Bool.or_eq_true, Bool.and_eq_true, decide_eq_true_eq] at hs
    omega

theorem lotEnd_not_space {d : Char} (h : lotEnd d = true) : isSpaceC d = false := by
  simp only [lotEnd, Bool.or_eq_true, decide_eq_true_eq] at h
  rcases h with (h | h) | h
  · exact digit_not_space h
  · subst h; decide
  · subst h; decide

theorem cgg_last {s c r : Str} (h : cgg s = some (c, r)) :
    ∃ d, c.getLast? = some d ∧ isSiGunGu d = true := by
  dsimp only [cgg] at h
  split at h
  · rename_i hcond
    simp only [Bool.and_eq_true] at hcond
    obtain ⟨⟨h2, hmid⟩, hbound⟩ := hcond
    simp only [Option.some.injEq, Prod.mk.injEq] at h
    cases hl : (s.takeWhile isKo).getLast? with
    | none => rw [hl] at hmid; simp at hmid
    | some d =>
      rw [hl] at hmid
      simp only [Option.map_some', Option.getD_some] at hmid
      exact ⟨d, by rw [← h.1]; exact hl, hmid⟩
  · cases h

theorem townRelax_last {s c r : Str} (h : townRelax s = some (c, r)) :
    ∃ d, c.getLast? = some d ∧ isKo d = true := by
  dsimp only [townRelax] at h
  split at h
  · rename_i h2
    simp only [Option.some.injEq, Prod.mk.injEq] at h
    have hne : s.takeWhile isKo ≠ [] := by
      intro he
      rw [he] at h2
      simp at h2
    cases hl : (s.takeWhile isKo).getLast? with
    | none => exact absurd (List.getLast?_eq_none_iff.mp hl) hne
    | some d =>
      refine ⟨d, by rw [← h.1]; exact hl, ?_⟩
      exact getLast?_of_all (all_takeWhile _ _) hl
  · cases h

theorem rawCity_last {s c r : Str} (h : rawCity s = some (c, r)) :
    ∃ d, c.getLast? = some d ∧ isKo d = true := by
  dsimp only [rawCity] at h
  split at h
  · rename_i h2
    simp only [Option.some.injEq, Prod.mk.injEq] at h
    have hne : s.takeWhile isKo ≠ [] := by
      intro he
      rw [he] at h2
      simp at h2
    cases hl : (s.takeWhile isKo).getLast? with
    | none => exact absurd (List.getLast?_eq_none_iff.mp hl) hne
    | some d =>
      refine ⟨d, by rw [← h.1]; exact hl, ?_⟩
      exact getLast?_of_all (all_takeWhile _ _) hl
  · cases h

theorem town_lastNS {s c r : Str} (h : town s = some (c, r)) : LastNS c := by
  dsimp only [town] at h
  cases hs : townStrict s with
  | some p =>
    rw [hs] at h
    cases h
    obtain ⟨d, h1, h2⟩ := townStrict_last hs
    exact lastNS_of_some h1 (townSuffix_not_space h2)
  | none =>
    rw [hs] at h
    obtain ⟨d, h1, h2⟩ := townRelax_last h
    exact lastNS_of_some h1 (isKo_not_space h2)

theorem sepThen_lastNS {m : Str → Option (Str × Str)}
    (hm : ∀ {x c r : Str}, m x = some (c, r) → LastNS c ∧ c ≠ []) {s c r : Str}
    (h : sepThen m s = some (c, r)) : LastNS c ∧ c ≠ [] := by
  dsimp only [sepThen] at h
  cases hsp : spaces1 s with
  | none => rw [hsp] at h; cases h
  | some p =>
    obtain ⟨sp, s1⟩ := p
    rw [hsp] at h
    dsimp only at h
    cases hmm : m s1 with
    | none => rw [hmm] at h; cases h
    | some q =>
      obtain ⟨c1, r1⟩ := q
      rw [hmm] at h
      simp only [Option.some.injEq, Prod.mk.injEq] at h
      obtain ⟨h1, hne⟩ := hm hmm
      cases hl : c1.getLast? with
      | none => exact absurd (List.getLast?_eq_none_iff.mp hl) hne
      | some d =>
        have hd : isSpaceC d = false := by
          dsimp only [LastNS] at h1
          rw [hl] at h1
          simpa using h1
        constructor
        · rw [← h.1]
          exact lastNS_append_right hl hd
        · rw [← h.1]
          intro hc
          exact hne (List.append_eq_nil.mp hc).2

theorem ne_nil_of_getLast? {c : Str} {d : Char} (h : c.getLast? = some d) : c ≠ [] := by
  intro he
  rw [he] at h
  cases h

theorem planDist_lastNS {s c r : Str} (h : planDist s = some (c, r)) : LastNS c ∧ c ≠ [] := by
  rcases planDist_last h with h1 | h1
  · exact ⟨lastNS_of_some h1 (by decide), ne_nil_of_getLast? h1⟩
  · exact ⟨lastNS_of_some h1 (by decide), ne_nil_of_getLast? h1⟩

theorem road_lastNS {s c r : Str} (h : road s = some (c, r)) : LastNS c ∧ c ≠ [] := by
  rcases road_last h with h1 | h1
  · exact ⟨lastNS_of_some h1 (by decide), ne_nil_of_getLast? h1⟩
  · exact ⟨lastNS_of_some h1 (by decide), ne_nil_of_getLast? h1⟩

theorem town_lastNS_ne {s c r : Str} (h : town s = some (c, r)) : LastNS c ∧ c ≠ [] := by
  refine ⟨town_lastNS h, ?_⟩
  dsimp only [town] at h
  cases hs : townStrict s with
  | some p =>
    rw [hs] at h
    cases h
    obtain ⟨d, h1, _⟩ := townStrict_last hs
    exact ne_nil_of_getLast? h1
  | none =>
    rw [hs] at h
    obtain ⟨d, h1, _⟩ := townRelax_last h
    exact ne_nil_of_getLast? h1

theorem cgg_lastNS_ne {s c r : Str} (h : cgg s = some (c, r)) : LastNS c ∧ c ≠ [] := by
  obtain ⟨d, h1, h2⟩ := cgg_last h
  exact ⟨lastNS_of_some h1 (siGunGu_not_space h2), ne_nil_of_getLast? h1⟩

theorem rawCity_lastNS_ne {s c r : Str} (h : rawCity s = some (c, r)) : LastNS c ∧ c ≠ [] := by
  obtain ⟨d, h1, h2⟩ := rawCity_last h
  exact ⟨lastNS_of_some h1 (isKo_not_space h2), ne_nil_of_getLast? h1⟩

theorem lotList_lastNS {s c r : Str} (h : lotList s = some (c, r)) : LastNS c ∧ c ≠ [] := by
  obtain ⟨d, h1, h2⟩ := lotList_last h
  exact ⟨lastNS_of_some h1 (lotEnd_not_space h2), ne_nil_of_getLast? h1⟩

theorem repRun_lastNS {step : Str → Option (Str × Str)}
    (hstep : ∀ {x c r : Str}, step x = some (c, r) → LastNS c ∧ c ≠ []) :
    ∀ (n : Nat) (s : Str), LastNS (repRun step n s).1 := by
  intro n
  induction n with
  | zero => intro s; exact lastNS_nil
  | succ m ih =>
    intro s
    rw [repRun]
    cases hst : step s with
    | none => exact lastNS_nil
    | some p =>
      obtain ⟨c1, r1⟩ := p
      dsimp only
      exact lastNS_append (hstep hst).1 (ih r1)

theorem tailOpt_lastNS {s c r : Str} (h : tailOpt s = (c, r)) : LastNS c := by
  dsimp only [tailOpt] at h
  have hstep : ∀ {x c2 r2 : Str}, sepThen planDist x = some (c2, r2) → LastNS c2 := by
    intro x c2 r2 hx
    exact (sepThen_lastNS (fun hy => planDist_lastNS hy) hx).1
  have hstepR : ∀ {x c2 r2 : Str}, sepThen road x = some (c2, r2) → LastNS c2 := by
    intro x c2 r2 hx
    exact (sepThen_lastNS (fun hy => road_lastNS hy) hx).1
  have hstepL : ∀ {x sp2 c2 r2 : Str}, lotList x = some (c2, r2) → LastNS (sp2 ++ c2) := by
    intro x sp2 c2 r2 hx
    obtain ⟨d, h1, h2⟩ := lotList_last hx
    exact lastNS_append_right h1 (lotEnd_not_space h2)
  cases hA : sepThen planDist s with
  | some pa =>
    obtain ⟨a1, a2⟩ := pa
    rw [hA] at h
    dsimp only at h
    cases hB : sepThen road a2 with
    | some pb =>
      obtain ⟨b1, b2⟩ := pb
      rw [hB] at h
      dsimp only at h
      cases hC : lotList (b2.drop (b2.takeWhile isSpaceC).length) with
      | some pc =>
        obtain ⟨d1, d2⟩ := pc
        rw [hC] at h
        dsimp only at h
        cases h
        exact lastNS_append (lastNS_append (hstep hA) (hstepR hB)) (hstepL hC)
      | none =>
        rw [hC] at h
        dsimp only at h
        cases h
        exact lastNS_append (lastNS_append (hstep hA) (hstepR hB)) lastNS_nil
    | none =>
      rw [hB] at h
      dsimp only at h
      cases hC : lotList (a2.drop (a2.takeWhile isSpaceC).length) with
      | some pc =>
        obtain ⟨d1, d2⟩ := pc
        rw [hC] at h
        dsimp only at h
        cases h
        exact lastNS_append (lastNS_append (hstep hA) lastNS_nil) (hstepL hC)
      | none =>
        rw [hC] at h
        dsimp only at h
        cases h
        exact lastNS_append (lastNS_append (hstep hA) lastNS_nil) lastNS_nil
  | none =>
    rw [hA] at h
    dsimp only at h
    cases hB : sepThen road s with
    | some pb =>
      obtain ⟨b1, b2⟩ := pb
      rw [hB] at h
      dsimp only at h
      cases hC : lotList (b2.drop (b2.takeWhile isSpaceC).length) with
      | some pc =>
        obtain ⟨d1, d2⟩ := pc
        rw [hC] at h
        dsimp only at h
        cases h
        exact lastNS_append (lastNS_append lastNS_nil (hstepR hB)) (hstepL hC)
      | none =>
        rw [hC] at h
        dsimp only at h
        cases h
        exact lastNS_append (lastNS_append lastNS_nil (hstepR hB)) lastNS_nil
    | none =>
      rw [hB] at h
      dsimp only at h
      cases hC : lotList (s.drop (s.takeWhile isSpaceC).length) with
      | some pc =>
        obtain ⟨d1, d2⟩ := pc
        rw [hC] at h
        dsimp only at h
        cases h
        exact lastNS_append (lastNS_append lastNS_nil lastNS_nil) (hstepL hC)
      | none =>
        rw [hC] at h
        dsimp only at h
        cases h
        exact lastNS_nil

theorem litMatches_alt {alts : List Str} {s : Str} {pr : Str × Str}
    (h : pr ∈ litMatches alts s) : pr.1 ∈ alts := by
  dsimp only [litMatches] at h
  rw [List.mem_filterMap] at h
  obtain ⟨a, hmem, hfa⟩ := h
  by_cases hc : s.take a.length = a
  · rw [if_pos hc] at hfa
    cases hfa
    exact hmem
  · rw [if_neg hc] at hfa
    cases hfa

theorem alt_last_ko {alts : List Str} {a : Str}
    (hall : alts.all (fun a => ((a.getLast?.map isKo).getD false)) = true) (hm : a ∈ alts) :
    ∃ d, a.getLast? = some d ∧ isKo d = true := by
  have hx := List.all_eq_true.mp hall a hm
  cases hl : a.getLast? with
  | none => rw [hl] at hx; simp at hx
  | some d =>
    rw [hl] at hx
    simp only [Option.map_some', Option.getD_some] at hx
    exact ⟨d, rfl, hx⟩

theorem alt_head_ko {alts : List Str} {a : Str}
    (hall : alts.all (fun a => ((a.head?.map isKo).getD false)) = true) (hm : a ∈ alts) :
    ∃ ch t, a = ch :: t ∧ isKo ch = true := by
  have hx := List.all_eq_true.mp hall a hm
  cases a with
  | nil => simp at hx
  | cons ch t =>
    simp only [List.head?_cons, Option.map_some', Option.getD_some] at hx
    exact ⟨ch, t, rfl, hx⟩

theorem regAlts_last_ko : regAlts.all (fun a => ((a.getLast?.map isKo).getD false)) = true := by
  decide

theorem sejongAlts_last_ko :
    sejongAlts.all (fun a => ((a.getLast?.map isKo).getD false)) = true := by
  decide

theorem regAlts_head_ko : regAlts.all (fun a => ((a.head?.map isKo).getD false)) = true := by
  decide

theorem sejongAlts_head_ko :
    sejongAlts.all (fun a => ((a.head?.map isKo).getD false)) = true := by
  decide

theorem cgg_head {s c r : Str} (h : cgg s = some (c, r)) :
    ∃ ch t, c = ch :: t ∧ isKo ch = true := by
  dsimp only [cgg] at h
  split at h
  · rename_i hcond
    simp only [Bool.and_eq_true] at hcond
    simp only [Option.some.injEq, Prod.mk.injEq] at h
    cases htw : s.takeWhile isKo with
    | nil =>
      rw [htw] at hcond
      simp at hcond
    | cons ch t =>
      refine ⟨ch, t, by rw [← h.1]; exact htw, ?_⟩
      have hall := all_takeWhile isKo s
      rw [htw] at hall
      simp only [List.all_cons, Bool.and_eq_true] at hall
      exact hall.1
  · cases h

theorem repTown_lastNS (n : Nat) (x : Str) : LastNS (repRun (sepThen town) n x).1 :=
  repRun_lastNS (fun {a b c} hx => sepThen_lastNS (fun {d e f} hy => town_lastNS_ne hy) hx) n x

theorem repCgg_lastNS (n : Nat) (x : Str) : LastNS (repRun (sepThen cgg) n x).1 :=
  repRun_lastNS (fun {a b c} hx => sepThen_lastNS (fun {d e f} hy => cgg_lastNS_ne hy) hx) n x

theorem tailOpt_lastNS1 (x : Str) : LastNS (tailOpt x).1 := tailOpt_lastNS rfl

theorem sejongBr_shape {s c r : Str} (h : sejongBr s = some (c, r)) :
    (∃ ch t, c = ch :: t ∧ isKo ch = true) ∧ LastNS c := by
  dsimp only [sejongBr] at h
  obtain ⟨pr, hmem, hf⟩ := firstSome_spec h
  simp only [Option.some.injEq, Prod.mk.injEq] at hf
  obtain ⟨d, h1, h2⟩ := alt_last_ko sejongAlts_last_ko (litMatches_alt hmem)
  obtain ⟨ch, t2, hpr, hko⟩ := alt_head_ko sejongAlts_head_ko (litMatches_alt hmem)
  constructor
  · rw [← hf.1, hpr]
    simp only [List.cons_append]
    exact ⟨ch, _, rfl, hko⟩
  · rw [← hf.1]
    exact lastNS_append (lastNS_append (lastNS_of_some h1 (isKo_not_space h2))
      (repTown_lastNS 3 pr.2)) (tailOpt_lastNS1 _)

theorem provEtcBr_shape {s c r : Str} (h : provEtcBr s = some (c, r)) :
    (∃ ch t, c = ch :: t ∧ isKo ch = true) ∧ LastNS c := by
  dsimp only [provEtcBr] at h
  obtain ⟨pr, hmem, hf⟩ := firstSome_spec h
  cases hcg : sepThen cgg pr.2 with
  | none => rw [hcg] at hf; cases hf
  | some p =>
    obtain ⟨c1, s2⟩ := p
    rw [hcg] at hf
    dsimp only at hf
    simp only [Option.some.injEq, Prod.mk.injEq] at hf
    obtain ⟨d, h1, h2⟩ := alt_last_ko regAlts_last_ko (litMatches_alt hmem)
    obtain ⟨ch, t2, hpr, hko⟩ := alt_head_ko regAlts_head_ko (litMatches_alt hmem)
    constructor
    · rw [← hf.1, hpr]
      simp only [List.cons_append]
      exact ⟨ch, _, rfl, hko⟩
    · rw [← hf.1]
      exact lastNS_append (lastNS_append (lastNS_append (lastNS_append
        (lastNS_of_some h1 (isKo_not_space h2))
        (sepThen_lastNS (fun {d e f} hy => cgg_lastNS_ne hy) hcg).1)
        (repCgg_lastNS s2.length s2)) (repTown_lastNS 3 _)) (tailOpt_lastNS1 _)

theorem sggOnlyBr_shape {s c r : Str} (h : sggOnlyBr s = some (c, r)) :
    (∃ ch t, c = ch :: t ∧ isKo ch = true) ∧ LastNS c := by
  dsimp only [sggOnlyBr] at h
  cases hcg : cgg s with
  | none => rw [hcg] at h; cases h
  | some p =>
    obtain ⟨c1, s2⟩ := p
    rw [hcg] at h
    dsimp only at h
    simp only [Option.some.injEq, Prod.mk.injEq] at h
    obtain ⟨ch, t2, hc1, hko⟩ := cgg_head hcg
    constructor
    · rw [← h.1, hc1]
      simp only [List.cons_append]
      exact ⟨ch, _, rfl, hko⟩
    · rw [← h.1]
      exact lastNS_append (lastNS_append (lastNS_append
        (cgg_lastNS_ne hcg).1
        (repCgg_lastNS s2.length s2)) (repTown_lastNS 3 _)) (tailOpt_lastNS1 _)

theorem provRawBr_shape {s c r : Str} (h : provRawBr s = some (c, r)) :
    (∃ ch t, c = ch :: t ∧ isKo ch = true) ∧ LastNS c := by
  dsimp only [provRawBr] at h
  obtain ⟨pr, hmem, hf⟩ := firstSome_spec h
  cases hrc : sepThen rawCity pr.2 with
  | none => rw [hrc] at hf; cases hf
  | some p =>
    obtain ⟨rc, s2⟩ := p
    rw [hrc] at hf
    dsimp only at hf
    cases ht1 : sepThen town s2 with
    | none => rw [ht1] at hf; cases hf
    | some q =>
      obtain ⟨t1, s3⟩ := q
      rw [ht1] at hf
      dsimp only at hf
      simp only [Option.some.injEq, Prod.mk.injEq] at hf
      obtain ⟨d, h1, h2⟩ := alt_last_ko regAlts_last_ko (litMatches_alt hmem)
      obtain ⟨ch, t2, hpr, hko⟩ := alt_head_ko regAlts_head_ko (litMatches_alt hmem)
      constructor
      · rw [← hf.1, hpr]
        simp only [List.cons_append]
        exact ⟨ch, _, rfl, hko⟩
      · rw [← hf.1]
        exact lastNS_append (lastNS_append (lastNS_append (lastNS_append
          (lastNS_of_some h1 (isKo_not_space h2))
          (sepThen_lastNS (fun {d e f} hy => rawCity_lastNS_ne hy) hrc).1)
          (sepThen_lastNS (fun {d e f} hy => town_lastNS_ne hy) ht1).1)
          (repTown_lastNS 2 _)) (tailOpt_lastNS1 _)

theorem provTownBr_shape {s c r : Str} (h : provTownBr s = some (c, r)) :
    (∃ ch t, c = ch :: t ∧ isKo ch = true) ∧ LastNS c := by
  dsimp only [provTownBr] at h
  obtain ⟨pr, hmem, hf⟩ := firstSome_spec h
  cases ht1 : sepThen town pr.2 with
  | none => rw [ht1] at hf; cases hf
  | some q =>
    obtain ⟨t1, s2⟩ := q
    rw [ht1] at hf
    dsimp only at hf
    simp only [Option.some.injEq, Prod.mk.injEq] at hf
    obtain ⟨d, h1, h2⟩ := alt_last_ko regAlts_last_ko (litMatches_alt hmem)
    obtain ⟨ch, t2, hpr, hko⟩ := alt_head_ko regAlts_head_ko (litMatches_alt hmem)
    constructor
    · rw [← hf.1, hpr]
      simp only [List.cons_append]
      exact ⟨ch, _, rfl, hko⟩
    · rw [← hf.1]
      exact lastNS_append (lastNS_append (lastNS_append
        (lastNS_of_some h1 (isKo_not_space h2))
        (sepThen_lastNS (fun {d e f} hy => town_lastNS_ne hy) ht1).1)
        (repTown_lastNS 2 _)) (tailOpt_lastNS1 _)

theorem addrBody_shape {s c r : Str} (h : addrBody s = some (c, r)) :
    (∃ ch t, c = ch :: t ∧ isKo ch = true) ∧ LastNS c := by
  dsimp only [addrBody] at h
  cases h1 : sejongBr s with
  | some p => rw [h1] at h; cases h; exact sejongBr_shape h1
  | none =>
    rw [h1] at h
    cases h2 : provEtcBr s with
    | some p => rw [h2] at h; cases h; exact provEtcBr_shape h2
    | none =>
      rw [h2] at h
      cases h3 : sggOnlyBr s with
      | some p => rw [h3] at h; cases h; exact sggOnlyBr_shape h3
      | none =>
        rw [h3] at h
        cases h4 : provRawBr s with
        | some p => rw [h4] at h; cases h; exact provRawBr_shape h4
        | none =>
          rw [h4] at h
          exact provTownBr_shape h

theorem prefix_drop_mono {w r : Str} (h : w <+: r) (j : Nat) : w.drop j <+: r.drop j := by
  obtain ⟨t, rfl⟩ := h
  rcases Nat.le_total j w.length with hj | hj
  · rw [List.drop_append_of_le_length hj]
    exact ⟨t, rfl⟩
  · rw [List.drop_eq_nil_of_le hj]
    exact List.nil_prefix

theorem getElem?_eq_of_prefix {w r : Str} (h : w <+: r) {j : Nat} (hj : j < w.length) :
    w[j]? = r[j]? := by
  obtain ⟨t, rfl⟩ := h
  rw [List.getElem?_append_left hj]

theorem head_drop_eq_of_prefix {w r : Str} (h : w <+: r) {j : Nat} (hj : j < w.length) :
    (w.drop j).head? = (r.drop j).head? := by
  rw [head?_drop, head?_drop]
  exact getElem?_eq_of_prefix h hj

theorem take_seg_of_pfx {w r lit : Str} (h : w <+: r) {j k : Nat}
    (hseg : (w.drop j).take k = lit) (hlen : lit.length = k) : (r.drop j).take k = lit := by
  have h1 : lit <+: w.drop j := by
    rw [← hseg]
    exact List.take_prefix _ _
  have h2 : lit <+: r.drop j := h1.trans (prefix_drop_mono h j)
  have := List.prefix_iff_eq_take.mp h2
  rw [hlen] at this
  exact this.symm

theorem searchDesc_eq_none {g : Nat → Option Nat} :
    ∀ c0, (∀ j, 1 ≤ j → j ≤ c0 → g j = none) → searchDesc g c0 = none := by
  intro c0
  induction c0 with
  | zero => intro _; rfl
  | succ c ih =>
    intro hall
    rw [searchDesc, hall (c + 1) (by omega) (by omega)]
    exact ih (fun j h1 h2 => hall j h1 (by omega))

theorem townStrictF {x w : Str} (h : townStrict x = none) (hw : w <+: x) :
    townStrict w = none := by
  dsimp only [townStrict] at h ⊢
  cases hs : searchDesc
      (fun c => if (((w.takeWhile isKoDigit).drop c).head?.map isTownSuffix).getD false
                then some (c + 1) else none)
      ((w.takeWhile isKoDigit).length - 1) with
  | none => rfl
  | some n =>
    exfalso
    obtain ⟨j, hj1, hj2, hgj, _⟩ := searchDesc_max _ n hs
    have hmono := takeWhile_mono_pfx (p := isKoDigit) hw
    have hjlt : j < (w.takeWhile isKoDigit).length := by omega
    have hhead : ((w.takeWhile isKoDigit).drop j).head?
        = ((x.takeWhile isKoDigit).drop j).head? := head_drop_eq_of_prefix hmono hjlt
    have hglt : j ≤ (x.takeWhile isKoDigit).length - 1 := by
      have := hmono.length_le
      omega
    have hnone := searchDesc_none _ (by
      cases ht : searchDesc
          (fun c => if (((x.takeWhile isKoDigit).drop c).head?.map isTownSuffix).getD false
                    then some (c + 1) else none)
          ((x.takeWhile isKoDigit).length - 1) with
      | none => rfl
      | some m => rw [ht] at h; cases h) j hj1 hglt
    rw [hhead] at hgj
    rw [hgj] at hnone
    cases hnone

theorem searchDescF {g1 g2 : Nat → Option Nat} {c1 c2 : Nat} (hc : c2 ≤ c1)
    (htrans : ∀ j n, 1 ≤ j → j ≤ c2 → g2 j = some n → g1 j = some n)
    (h : searchDesc g1 c1 = none) : searchDesc g2 c2 = none := by
  cases hs : searchDesc g2 c2 with
  | none => rfl
  | some n =>
    exfalso
    obtain ⟨j, hj1, hj2, hgj, _⟩ := searchDesc_max _ n hs
    have hn := searchDesc_none _ h j hj1 (by omega)
    rw [htrans j n hj1 hj2 hgj] at hn
    cases hn

theorem planDistF {x w : Str} (h : planDist x = none) (hw : w <+: x) : planDist w = none := by
  dsimp only [planDist] at h ⊢
  have hmono := takeWhile_mono_pfx (p := isKoDigit) hw
  have hx : searchDesc
      (fun c => if ((x.takeWhile isKoDigit).drop c).take 2 = "지구".data then some (c + 2)
                else if ((x.takeWhile isKoDigit).drop c).take 2 = "구역".data then some (c + 2)
                else none)
      ((x.takeWhile isKoDigit).length - 1) = none := by
    cases ht : searchDesc
        (fun c => if ((x.takeWhile isKoDigit).drop c).take 2 = "지구".data then some (c + 2)
                  else if ((x.takeWhile isKoDigit).drop c).take 2 = "구역".data then some (c + 2)
                  else none)
        ((x.takeWhile isKoDigit).length - 1) with
    | none => rfl
    | some m => rw [ht] at h; cases h
  rw [searchDescF (by have := hmono.length_le; omega) ?_ hx]
  intro j n _ _ hg
  by_cases h1 : ((w.takeWhile isKoDigit).drop j).take 2 = "지구".data
  · rw [if_pos h1] at hg
    rw [if_pos (take_seg_of_pfx hmono h1 rfl)]
    exact hg
  · rw [if_neg h1] at hg
    by_cases h2 : ((w.takeWhile isKoDigit).drop j).take 2 = "구역".data
    · rw [if_pos h2] at hg
      have h2x := take_seg_of_pfx hmono h2 rfl
      rw [if_neg (by rw [h2x]; decide), if_pos h2x]
      exact hg
    · rw [if_neg h2] at hg
      cases hg

theorem roadF {x w : Str} (h : road x = none) (hw : w <+: x) : road w = none := by
  dsimp only [road] at h ⊢
  have hmono := takeWhile_mono_pfx (p := isKoDigit) hw
  have hx : searchDesc
      (fun c => if ((x.takeWhile isKoDigit).drop c).take 1 = ['로'] then some (c + 1)
                else if ((x.takeWhile isKoDigit).drop c).take 1 = ['길'] then some (c + 1)
                else if ((x.takeWhile isKoDigit).drop c).take 2 = "대로".data then some (c + 2)
                else if ((x.takeWhile isKoDigit).drop c).take 2 = "번길".data then some (c + 2)
                else none)
      ((x.takeWhile isKoDigit).length - 1) = none := by
    cases ht : searchDesc
        (fun c => if ((x.takeWhile isKoDigit).drop c).take 1 = ['로'] then some (c + 1)
                  else if ((x.takeWhile isKoDigit).drop c).take 1 = ['길'] then some (c + 1)
                  else if ((x.takeWhile isKoDigit).drop c).take 2 = "대로".data then some (c + 2)
                  else if ((x.takeWhile isKoDigit).drop c).take 2 = "번길".data then some (c + 2)
                  else none)
        ((x.takeWhile isKoDigit).length - 1) with
    | none => rfl
    | some m => rw [ht] at h; cases h
  rw [searchDescF (by have := hmono.length_le; omega) ?_ hx]
  intro j n _ _ hg
  by_cases h1 : ((w.takeWhile isKoDigit).drop j).take 1 = ['로']
  · rw [if_pos h1] at hg
    rw [if_pos (take_seg_of_pfx hmono h1 rfl)]
    exact hg
  · rw [if_neg h1] at hg
    by_cases h2 : ((w.takeWhile isKoDigit).drop j).take 1 = ['길']
    · rw [if_pos h2] at hg
      have h2x := take_seg_of_pfx hmono h2 rfl
      rw [if_neg (by rw [h2x]; decide), if_pos h2x]
      exact hg
    · rw [if_neg h2] at hg
      by_cases h3 : ((w.takeWhile isKoDigit).drop j).take 2 = "대로".data
      · rw [if_pos h3] at hg
        have h3x := take_seg_of_pfx hmono h3 rfl
        have hne1 : ¬ ((x.takeWhile isKoDigit).drop j).take 1 = ['로'] := by
          intro hone
          have : (((x.takeWhile isKoDigit).drop j).take 2).take 1 = ['로'] := by
            rw [List.take_take]
            exact hone
          rw [h3x] at this
          exact absurd this (by decide)
        have hne2 : ¬ ((x.takeWhile isKoDigit).drop j).take 1 = ['길'] := by
          intro hone
          have : (((x.takeWhile isKoDigit).drop j).take 2).take 1 = ['길'] := by
            rw [List.take_take]
            exact hone
          rw [h3x] at this
          exact absurd this (by decide)
        rw [if_neg hne1, if_neg hne2, if_pos h3x]
        exact hg
      · rw [if_neg h3] at hg
        by_cases h4 : ((w.takeWhile isKoDigit).drop j).take 2 = "번길".data
        · rw [if_pos h4] at hg
          have h4x := take_seg_of_pfx hmono h4 rfl
          have hne1 : ¬ ((x.takeWhile isKoDigit).drop j).take 1 = ['로'] := by
            intro hone
            have : (((x.takeWhile isKoDigit).drop j).take 2).take 1 = ['로'] := by
              rw [List.take_take]
              exact hone
            rw [h4x] at this
            exact absurd this (by decide)
          have hne2 : ¬ ((x.takeWhile isKoDigit).drop j).take 1 = ['길'] := by
            intro hone
            have : (((x.takeWhile isKoDigit).drop j).take 2).take 1 = ['길'] := by
              rw [List.take_take]
              exact hone
            rw [h4x] at this
            exact absurd this (by decide)
          have hne3 : ¬ ((x.takeWhile isKoDigit).drop j).take 2 = "대로".data := by
            rw [h4x]
            decide
          rw [if_neg hne1, if_neg hne2, if_neg hne3, if_pos h4x]
          exact hg
        · rw [if_neg h4] at hg
          cases hg

theorem townRelaxF {x w : Str} (h : townRelax x = none) (hw : w <+: x) :
    townRelax w = none := by
  dsimp only [townRelax] at h ⊢
  by_cases h2 : 2 ≤ (x.takeWhile isKo).length
  · rw [if_pos h2] at h
    cases h
  · have hmono := (takeWhile_mono_pfx (p := isKo) hw).length_le
    rw [if_neg (by omega)]

theorem rawCityF {x w : Str} (h : rawCity x = none) (hw : w <+: x) : rawCity w = none := by
  dsimp only [rawCity] at h ⊢
  by_cases h2 : 2 ≤ (x.takeWhile isKo).length
  · rw [if_pos h2] at h
    cases h
  · have hmono := (takeWhile_mono_pfx (p := isKo) hw).length_le
    rw [if_neg (by omega)]

theorem townF {x w : Str} (h : town x = none) (hw : w <+: x) : town w = none := by
  dsimp only [town] at h ⊢
  cases hs : townStrict x with
  | some p => rw [hs] at h; cases h
  | none =>
    rw [hs] at h
    rw [townStrictF hs hw]
    exact townRelaxF h hw

theorem spaces1F {x w : Str} (h : spaces1 x = none) (hw : w <+: x) : spaces1 w = none := by
  dsimp only [spaces1] at h ⊢
  by_cases he : (x.takeWhile isSpaceC).isEmpty = true
  · have hmono := takeWhile_mono_pfx (p := isSpaceC) hw
    rw [List.isEmpty_iff] at he
    rw [he] at hmono
    have : w.takeWhile isSpaceC = [] := List.prefix_nil.mp hmono
    rw [if_pos (by rw [this]; rfl)]
  · rw [if_neg he] at h
    cases h

theorem prefix_split_at {w a b : Str} (h : w <+: a ++ b) :
    w <+: a ∨ ∃ z, w = a ++ z ∧ z <+: b := by
  rcases Nat.le_total w.length a.length with hl | hl
  · left
    have h1 := List.prefix_iff_eq_take.mp h
    rw [List.take_append_of_le_length hl] at h1
    rw [h1]
    exact List.take_prefix _ _
  · right
    obtain ⟨t, ht⟩ := h
    have h1 : w.take a.length = a := by
      have h2 : (w ++ t).take a.length = a := by
        rw [ht, List.take_append_of_le_length (Nat.le_refl _), List.take_length]
      rw [List.take_append_of_le_length hl] at h2
      exact h2
    refine ⟨w.drop a.length, ?_, t, ?_⟩
    · conv_lhs => rw [← List.take_append_drop a.length w]
      rw [h1]
    · have h2 : (w ++ t).drop a.length = b := by
        rw [ht]
        exact List.drop_left a b
      rw [List.drop_append_of_le_length hl] at h2
      exact h2

theorem head_getD_mono {p : Char → Bool} {z' z : Str} (hz : z' <+: z)
    (h : ((z.head?.map p).getD false) = false) : ((z'.head?.map p).getD false) = false := by
  cases z' with
  | nil => rfl
  | cons a t =>
    obtain ⟨t3, ht3⟩ := hz
    rw [← ht3] at h
    simpa using h

theorem dropWhile_head_false (p : Char → Bool) :
    ∀ s : Str, (((s.dropWhile p).head?.map p).getD false) = false := by
  intro s
  induction s with
  | nil => rfl
  | cons a t ih =>
    rw [List.dropWhile_cons]
    by_cases hpa : p a = true
    · rw [if_pos hpa]
      exact ih
    · rw [if_neg hpa]
      simp only [List.head?_cons, Option.map_some', Option.getD_some]
      cases hb : p a with
      | false => rfl
      | true => exact absurd hb hpa

theorem spaces1_some {x sp z : Str} (h : spaces1 x = some (sp, z)) :
    sp.all isSpaceC = true ∧ sp ≠ [] ∧ ((z.head?.map isSpaceC).getD false) = false := by
  dsimp only [spaces1] at h
  by_cases he : (x.takeWhile isSpaceC).isEmpty = true
  · rw [if_pos he] at h
    cases h
  · rw [if_neg he] at h
    simp only [Option.some.injEq, Prod.mk.injEq] at h
    obtain ⟨h1, h2⟩ := h
    refine ⟨by rw [← h1]; exact all_takeWhile _ _, ?_, ?_⟩
    · rw [← h1]
      intro hn
      rw [hn] at he
      exact he rfl
    · rw [← h2, drop_takeWhile_length]
      exact dropWhile_head_false _ _

theorem spaces1_build {sp z : Str} (hall : sp.all isSpaceC = true) (hne : sp ≠ [])
    (hstop : ((z.head?.map isSpaceC).getD false) = false) :
    spaces1 (sp ++ z) = some (sp, z) := by
  dsimp only [spaces1]
  rw [(takeWhile_prefix_eq hall hstop).1]
  rw [if_neg (by rw [List.isEmpty_iff]; exact hne)]
  rw [List.drop_left]

theorem dropWhile_mono_pfx {p : Char → Bool} :
    ∀ {w r : Str}, w <+: r → w.dropWhile p <+: r.dropWhile p := by
  intro w
  induction w with
  | nil => intro r _; exact List.nil_prefix
  | cons a w' ih =>
    intro r hp
    obtain ⟨t, ht⟩ := hp
    subst ht
    rw [List.cons_append, List.dropWhile_cons, List.dropWhile_cons]
    by_cases hpa : p a = true
    · rw [if_pos hpa, if_pos hpa]
      exact ih ⟨t, rfl⟩
    · rw [if_neg hpa, if_neg hpa]
      exact ⟨t, rfl⟩

theorem sepThenF {m : Str → Option (Str × Str)}
    (hmF : ∀ {x w : Str}, m x = none → w <+: x → m w = none)
    (hmNil : m [] = none) {x w : Str} (h : sepThen m x = none) (hw : w <+: x) :
    sepThen m w = none := by
  dsimp only [sepThen] at h ⊢
  cases hsp : spaces1 x with
  | none => rw [spaces1F hsp hw]
  | some p =>
    obtain ⟨sp, z⟩ := p
    rw [hsp] at h
    dsimp only at h
    cases hm : m z with
    | some q =>
      obtain ⟨c1, r1⟩ := q
      rw [hm] at h
      dsimp only at h
      cases h
    | none =>
      obtain ⟨hall, hne, hstop⟩ := spaces1_some hsp
      have hx := spaces1_consumed hsp
      rw [← hx] at hw
      rcases prefix_split_at hw with hws | ⟨z', rfl, hz'⟩
      · have hallw : w.all isSpaceC = true := by
          obtain ⟨t, ht⟩ := hws
          rw [← ht, List.all_append, Bool.and_eq_true] at hall
          exact hall.1
        cases w with
        | nil => rfl
        | cons a t2 =>
          have hb : spaces1 ((a :: t2) ++ ([] : Str)) = some (a :: t2, []) :=
            spaces1_build hallw (by simp) rfl
          rw [List.append_nil] at hb
          rw [hb]
          dsimp only
          rw [hmNil]
      · rw [spaces1_build hall hne (head_getD_mono hz' hstop)]
        dsimp only
        rw [hmF hm hz']

theorem lotCore_none_head {x : Str} (h : lotCore x = none) {k : Char} {t : Str}
    (hx : x = k :: t) : isDigitC k = false := by
  subst hx
  cases hk : isDigitC k with
  | false => rfl
  | true =>
    exfalso
    have hdig : (k :: t).takeWhile isDigitC = k :: t.takeWhile isDigitC := by
      rw [List.takeWhile_cons, hk]
      rfl
    dsimp only [lotCore] at h
    cases t with
    | nil =>
      dsimp only at h
      rw [hdig] at h
      simp at h
    | cons h2 rest =>
      dsimp only at h
      by_cases hkh : (isKo k && isHyp h2) = true
      · rw [if_pos hkh] at h
        by_cases hd : (rest.takeWhile isDigitC).isEmpty = true
        · rw [if_pos hd, hdig] at h
          simp at h
        · rw [if_neg hd] at h
          cases h
      · rw [if_neg hkh] at h
        rw [hdig] at h
        simp at h

theorem lotCoreF {x w : Str} (h : lotCore x = none) (hw : w <+: x) : lotCore w = none := by
  obtain ⟨t3, rfl⟩ := hw
  cases w with
  | nil => rfl
  | cons k t =>
    have hk : isDigitC k = false := lotCore_none_head h (by rw [List.cons_append])
    have hdw : ∀ z : Str, (k :: z).takeWhile isDigitC = [] := by
      intro z
      rw [List.takeWhile_cons, hk]
      rfl
    cases t with
    | nil =>
      dsimp only [lotCore]
      rw [hdw]
      rfl
    | cons h2 rest =>
      rw [show ((k :: h2 :: rest) ++ t3) = k :: h2 :: (rest ++ t3) from by simp] at h
      dsimp only [lotCore] at h ⊢
      by_cases hkh : (isKo k && isHyp h2) = true
      · rw [if_pos hkh] at h ⊢
        by_cases hdx : ((rest ++ t3).takeWhile isDigitC).isEmpty = true
        · have hdr : rest.takeWhile isDigitC = [] := by
            have hm := takeWhile_mono_pfx (p := isDigitC) (⟨t3, rfl⟩ : rest <+: rest ++ t3)
            rw [List.isEmpty_iff.mp hdx] at hm
            exact List.prefix_nil.mp hm
          rw [if_pos (by rw [hdr]; rfl)]
          rw [hdw]
          rfl
        · rw [if_neg hdx] at h
          cases h
      · rw [if_neg hkh] at h ⊢
        rw [hdw]
        rfl

theorem lotF {x w : Str} (h : lot x = none) (hw : w <+: x) : lot w = none := by
  have hlc : lotCore x = none := by
    dsimp only [lot] at h
    cases hc : lotCore x with
    | none => rfl
    | some p =>
      exfalso
      obtain ⟨co, r0⟩ := p
      rw [hc] at h
      cases x with
      | nil => dsimp only at h; cases h
      | cons c0 rest =>
        dsimp only at h
        by_cases hch : c0 = '산'
        · rw [if_pos hch] at h
          cases hin : lotCore (rest.drop (rest.takeWhile isSpaceC).length) with
          | none => rw [hin] at h; dsimp only at h; cases h
          | some q => obtain ⟨a, b⟩ := q; rw [hin] at h; dsimp only at h; cases h
        · rw [if_neg hch] at h
          cases h
  have hlcw : lotCore w = none := lotCoreF hlc hw
  dsimp only [lot]
  cases w with
  | nil => rw [show lotCore ([] : Str) = none from rfl]; rfl
  | cons c0 t =>
    dsimp only
    by_cases hch : c0 = '산'
    · rw [if_pos hch]
      obtain ⟨t3, ht3⟩ := hw
      have hinner : lotCore (t.drop (t.takeWhile isSpaceC).length) = none := by
        have hxin : lotCore ((t ++ t3).drop ((t ++ t3).takeWhile isSpaceC).length) = none := by
          dsimp only [lot] at h
          rw [← ht3] at h
          rw [List.cons_append] at h
          dsimp only at h
          rw [if_pos hch] at h
          cases hin : lotCore ((t ++ t3).drop ((t ++ t3).takeWhile isSpaceC).length) with
          | none => rfl
          | some q =>
            obtain ⟨a, b⟩ := q
            rw [hin] at h
            dsimp only at h
            cases h
        refine lotCoreF hxin ?_
        rw [drop_takeWhile_length, drop_takeWhile_length]
        exact dropWhile_mono_pfx ⟨t3, rfl⟩
      rw [hinner]
      rw [hlcw]
      rfl
    · rw [if_neg hch]
      rw [hlcw]
      rfl

theorem lotListStepF {x w : Str} (h : lotListStep x = none) (hw : w <+: x) :
    lotListStep w = none := by
  dsimp only [lotListStep] at h ⊢
  have hdm : w.drop (w.takeWhile isSpaceC).length <+: x.drop (x.takeWhile isSpaceC).length := by
    rw [drop_takeWhile_length, drop_takeWhile_length]
    exact dropWhile_mono_pfx hw
  cases hdw : w.drop (w.takeWhile isSpaceC).length with
  | nil => rfl
  | cons c0 r2w =>
    rw [hdw] at hdm
    obtain ⟨t3, ht3⟩ := hdm
    rw [← ht3, List.cons_append] at h
    dsimp only at h ⊢
    by_cases hch : c0 = ','
    · rw [if_pos hch] at h ⊢
      have hinner : lotCore ((r2w ++ t3).drop ((r2w ++ t3).takeWhile isSpaceC).length)
          = none := by
        cases hin : lotCore ((r2w ++ t3).drop ((r2w ++ t3).takeWhile isSpaceC).length) with
        | none => rfl
        | some q =>
          obtain ⟨a, b⟩ := q
          rw [hin] at h
          dsimp only at h
          cases h
      rw [lotCoreF hinner (by
        rw [drop_takeWhile_length, drop_takeWhile_length]
        exact dropWhile_mono_pfx ⟨t3, rfl⟩)]
    · rw [if_neg hch]

theorem lotListF {x w : Str} (h : lotList x = none) (hw : w <+: x) : lotList w = none := by
  dsimp only [lotList] at h ⊢
  cases hl : lot x with
  | some p => rw [hl] at h; cases h
  | none =>
    rw [lotF hl hw]
    rfl

theorem cggF {x w : Str} (h : cgg x = none) (hw : w <+: x) :
    cgg w = none ∨ cgg w = some (w, []) := by
  cases hc : cgg w with
  | none => exact Or.inl rfl
  | some p =>
    obtain ⟨c1, r1⟩ := p
    obtain ⟨t3, rfl⟩ := hw
    dsimp only [cgg] at hc h
    by_cases hcond : (2 ≤ (w.takeWhile isKo).length &&
        (((w.takeWhile isKo).getLast?.map isSiGunGu).getD false) &&
        ((w.drop (w.takeWhile isKo).length).isEmpty ||
         (((w.drop (w.takeWhile isKo).length).head?.map isSpaceC).getD false))) = true
    · rw [if_pos hcond] at hc
      simp only [Bool.and_eq_true, Bool.or_eq_true] at hcond
      obtain ⟨⟨h2, hmid⟩, hbound⟩ := hcond
      cases hdw : w.drop (w.takeWhile isKo).length with
      | nil =>
        right
        simp only [Option.some.injEq, Prod.mk.injEq] at hc
        rw [← hc.1, ← hc.2, hdw]
        have hweq : w.takeWhile isKo = w := by
          conv_rhs => rw [← takeWhile_append_drop isKo w]
          rw [hdw, List.append_nil]
        rw [hweq]
      | cons d rest =>
        exfalso
        have hbh : isSpaceC d = true := by
          rcases hbound with hbe | hbh2
          · rw [hdw] at hbe
            simp at hbe
          · rw [hdw] at hbh2
            simpa using hbh2
        have hkd : isKo d = false := by
          cases hkd2 : isKo d with
          | false => rfl
          | true => rw [isKo_not_space hkd2] at hbh; cases hbh
        have hwsplit : w.takeWhile isKo ++ (d :: rest) = w := by
          conv_rhs => rw [← takeWhile_append_drop isKo w]
          rw [hdw]
        have hxform : w ++ t3 = w.takeWhile isKo ++ (d :: (rest ++ t3)) := by
          conv_lhs => rw [← hwsplit]
          simp
        have hpr := takeWhile_prefix_eq (p := isKo) (all_takeWhile isKo w)
          (b := d :: (rest ++ t3))
          (by simp only [List.head?_cons, Option.map_some', Option.getD_some]; exact hkd)
        rw [hxform, hpr.1, List.drop_left] at h
        rw [if_pos ?_] at h
        · cases h
        · simp only [Bool.and_eq_true, Bool.or_eq_true]
          refine ⟨⟨h2, hmid⟩, Or.inr ?_⟩
          simp only [List.head?_cons, Option.map_some', Option.getD_some]
          exact hbh
    · rw [if_neg hcond] at hc
      cases hc

theorem prefix_append_left {v u : Str} (c : Str) (h : v <+: u) : c ++ v <+: c ++ u := by
  obtain ⟨t, ht⟩ := h
  exact ⟨t, by rw [List.append_assoc, ht]⟩

theorem spaces1T {x sp z w : Str} (h : spaces1 x = some (sp, z)) (hw : w <+: z) :
    spaces1 (sp ++ w) = some (sp, w) := by
  obtain ⟨hall, hne, hstop⟩ := spaces1_some h
  exact spaces1_build hall hne (head_getD_mono hw hstop)

theorem cggT {x c r w : Str} (h : cgg x = some (c, r)) (hw : w <+: r) :
    cgg (c ++ w) = some (c, w) := by
  dsimp only [cgg] at h ⊢
  by_cases hcond : (2 ≤ (x.takeWhile isKo).length &&
      (((x.takeWhile isKo).getLast?.map isSiGunGu).getD false) &&
      ((x.drop (x.takeWhile isKo).length).isEmpty ||
       (((x.drop (x.takeWhile isKo).length).head?.map isSpaceC).getD false))) = true
  · rw [if_pos hcond] at h
    simp only [Option.some.injEq, Prod.mk.injEq] at h
    obtain ⟨hc, hr⟩ := h
    subst hc
    subst hr
    simp only [Bool.and_eq_true, Bool.or_eq_true] at hcond
    obtain ⟨⟨h2, hmid⟩, hbound⟩ := hcond
    have hrko : (((x.drop (x.takeWhile isKo).length).head?.map isKo).getD false) = false := by
      rcases hbound with hbe | hbh
      · rw [List.isEmpty_iff.mp hbe]
        rfl
      · cases hhd : (x.drop (x.takeWhile isKo).length).head? with
        | none => rfl
        | some d =>
          rw [hhd] at hbh
          simp only [Option.map_some', Option.getD_some] at hbh ⊢
          cases hkd : isKo d with
          | false => rfl
          | true => rw [isKo_not_space hkd] at hbh; cases hbh
    have hwko := head_getD_mono hw hrko
    have hpr := takeWhile_prefix_eq (p := isKo) (all_takeWhile isKo x) hwko
    rw [hpr.1]
    rw [if_pos ?_]
    · rw [List.drop_left]
    · simp only [Bool.and_eq_true, Bool.or_eq_true]
      refine ⟨⟨h2, hmid⟩, ?_⟩
      rw [List.drop_left]
      cases hwc : w with
      | nil => exact Or.inl rfl
      | cons d rest =>
        right
        rw [hwc] at hw
        obtain ⟨t4, ht4⟩ := hw
        rcases hbound with hbe | hbh
        · rw [← ht4] at hbe
          simp at hbe
        · rw [← ht4] at hbh
          simpa using hbh
  · rw [if_neg hcond] at h
    cases h

theorem searchDescT (g1 : Nat → Option Nat) (c1 : Nat) {g2 : Nat → Option Nat} {c2 n j : Nat}
    (hj1 : 1 ≤ j) (hjc2 : j ≤ c2) (hc21 : c2 ≤ c1)
    (hg2j : g2 j = some n)
    (hmax1 : ∀ i, j < i → i ≤ c1 → g1 i = none)
    (htrans : ∀ i m, j < i → i ≤ c2 → g2 i = some m → g1 i = some m) :
    searchDesc g2 c2 = some n := by
  apply searchDesc_eq_some _ j n hj1 hjc2 hg2j
  intro i hi1 hi2
  cases hg : g2 i with
  | none => rfl
  | some m =>
    exfalso
    have hx := htrans i m hi1 hi2 hg
    rw [hmax1 i hi1 (by omega)] at hx
    cases hx

theorem townStrictT {x c r w : Str} (h : townStrict x = some (c, r)) (hw : w <+: r) :
    townStrict (c ++ w) = some (c, w) := by
  dsimp only [townStrict] at h ⊢
  cases hs : searchDesc
      (fun c => if (((x.takeWhile isKoDigit).drop c).head?.map isTownSuffix).getD false
                then some (c + 1) else none)
      ((x.takeWhile isKoDigit).length - 1) with
  | none => rw [hs] at h; cases h
  | some n =>
    rw [hs] at h
    simp only [Option.some.injEq, Prod.mk.injEq] at h
    obtain ⟨hc, hr⟩ := h
    obtain ⟨j, hj1, hjc0, hgj, hmax⟩ := searchDesc_max _ n hs
    by_cases ht : (((x.takeWhile isKoDigit).drop j).head?.map isTownSuffix).getD false = true
    case neg => rw [if_neg ht] at hgj; cases hgj
    rw [if_pos ht] at hgj
    simp only [Option.some.injEq] at hgj
    have hkdlen : (x.takeWhile isKoDigit).length ≤ x.length :=
      (List.takeWhile_prefix _).length_le
    have hnlen : n ≤ (x.takeWhile isKoDigit).length := by omega
    have hclen : c.length = n := by
      rw [← hc, List.length_take]
      omega
    have hx : c ++ r = x := by
      rw [← hc, ← hr]
      exact List.take_append_drop _ _
    have hckd : c <+: x.takeWhile isKoDigit := by
      rw [← hc]
      have h1 := List.prefix_iff_eq_take.mp (List.takeWhile_prefix (p := isKoDigit) (l := x))
      have h2 : (x.takeWhile isKoDigit).take n = x.take n := by
        conv_lhs => rw [h1]
        rw [List.take_take, Nat.min_eq_left hnlen]
      rw [← h2]
      exact List.take_prefix _ _
    have hcall : ∀ a ∈ c, isKoDigit a = true := by
      obtain ⟨t5, ht5⟩ := hckd
      have hall := all_takeWhile isKoDigit x
      rw [← ht5, List.all_append, Bool.and_eq_true] at hall
      exact fun a ha => List.all_eq_true.mp hall.1 a ha
    have hKD : x.takeWhile isKoDigit = c ++ r.takeWhile isKoDigit := by
      conv_lhs => rw [← hx]
      exact List.takeWhile_append_of_pos hcall
    have hkdw : (c ++ w).takeWhile isKoDigit = c ++ w.takeWhile isKoDigit :=
      List.takeWhile_append_of_pos hcall
    have hvu : w.takeWhile isKoDigit <+: r.takeWhile isKoDigit := takeWhile_mono_pfx hw
    have hprvu : c ++ w.takeWhile isKoDigit <+: c ++ r.takeWhile isKoDigit :=
      prefix_append_left c hvu
    have hlen2 : (c ++ w.takeWhile isKoDigit).length ≤ (x.takeWhile isKoDigit).length := by
      rw [hKD, List.length_append, List.length_append]
      have := hvu.length_le
      omega
    rw [hkdw]
    rw [searchDescT (fun c => if
          (((x.takeWhile isKoDigit).drop c).head?.map isTownSuffix).getD false
          then some (c + 1) else none)
        ((x.takeWhile isKoDigit).length - 1) (n := n) (j := j) hj1
        (by rw [List.length_append]; omega)
        (by omega)
        ?_ hmax ?_]
    · dsimp only
      rw [List.take_left' hclen, List.drop_left' hclen]
    · dsimp only
      have hjlt : j < (c ++ w.takeWhile isKoDigit).length := by
        rw [List.length_append]
        omega
      have hhd : ((c ++ w.takeWhile isKoDigit).drop j).head?
          = ((x.takeWhile isKoDigit).drop j).head? := by
        rw [hKD]
        exact head_drop_eq_of_prefix hprvu hjlt
      rw [if_pos (by rw [hhd]; exact ht), hgj]
    · intro i m hi1 hi2
      dsimp only
      by_cases hti : (((c ++ w.takeWhile isKoDigit).drop i).head?.map isTownSuffix).getD false
          = true
      · intro hg2
        rw [if_pos hti] at hg2
        have hilt : i < (c ++ w.takeWhile isKoDigit).length := by omega
        have hhd : ((c ++ w.takeWhile isKoDigit).drop i).head?
            = ((x.takeWhile isKoDigit).drop i).head? := by
          rw [hKD]
          exact head_drop_eq_of_prefix hprvu hilt
        rw [if_pos (by rw [← hhd]; exact hti)]
        exact hg2
      · intro hg2
        rw [if_neg hti] at hg2
        cases hg2

theorem take_seg_eq_within {c v u : Str} {j k : Nat} (hjk : j + k ≤ c.length) :
    ((c ++ v).drop j).take k = ((c ++ u).drop j).take k := by
  rw [List.drop_append_of_le_length (by omega), List.drop_append_of_le_length (by omega)]
  rw [List.take_append_of_le_length (by rw [List.length_drop]; omega),
    List.take_append_of_le_length (by rw [List.length_drop]; omega)]

theorem planDistT {x c r w : Str} (h : planDist x = some (c, r)) (hw : w <+: r) :
    planDist (c ++ w) = some (c, w) := by
  dsimp only [planDist] at h ⊢
  cases hs : searchDesc
      (fun c => if ((x.takeWhile isKoDigit).drop c).take 2 = "지구".data then some (c + 2)
                else if ((x.takeWhile isKoDigit).drop c).take 2 = "구역".data then some (c + 2)
                else none)
      ((x.takeWhile isKoDigit).length - 1) with
  | none => rw [hs] at h; cases h
  | some n =>
    rw [hs] at h
    simp only [Option.some.injEq, Prod.mk.injEq] at h
    obtain ⟨hc, hr⟩ := h
    obtain ⟨j, hj1, hjc0, hgj, hmax⟩ := searchDesc_max _ n hs
    have hkdlen : (x.takeWhile isKoDigit).length ≤ x.length :=
      (List.takeWhile_prefix _).length_le
    have hdecode : n = j + 2 ∧
        (((x.takeWhile isKoDigit).drop j).take 2 = "지구".data ∨
         (((x.takeWhile isKoDigit).drop j).take 2 ≠ "지구".data ∧
          ((x.takeWhile isKoDigit).drop j).take 2 = "구역".data)) := by
      by_cases h1 : ((x.takeWhile isKoDigit).drop j).take 2 = "지구".data
      · rw [if_pos h1] at hgj
        simp only [Option.some.injEq] at hgj
        exact ⟨hgj.symm, Or.inl h1⟩
      · rw [if_neg h1] at hgj
        by_cases h2 : ((x.takeWhile isKoDigit).drop j).take 2 = "구역".data
        · rw [if_pos h2] at hgj
          simp only [Option.some.injEq] at hgj
          exact ⟨hgj.symm, Or.inr ⟨h1, h2⟩⟩
        · rw [if_neg h2] at hgj
          cases hgj
    obtain ⟨hn, hlit⟩ := hdecode
    have hnlen : n ≤ (x.takeWhile isKoDigit).length := by
      have hseglen : (((x.takeWhile isKoDigit).drop j).take 2).length = 2 := by
        rcases hlit with h1 | ⟨_, h2⟩
        · rw [h1]; rfl
        · rw [h2]; rfl
      rw [List.length_take, List.length_drop] at hseglen
      omega
    have hclen : c.length = n := by
      rw [← hc, List.length_take]
      omega
    have hx : c ++ r = x := by
      rw [← hc, ← hr]
      exact List.take_append_drop _ _
    have hckd : c <+: x.takeWhile isKoDigit := by
      rw [← hc]
      have h1 := List.prefix_iff_eq_take.mp (List.takeWhile_prefix (p := isKoDigit) (l := x))
      have h2 : (x.takeWhile isKoDigit).take n = x.take n := by
        conv_lhs => rw [h1]
        rw [List.take_take, Nat.min_eq_left hnlen]
      rw [← h2]
      exact List.take_prefix _ _
    have hcall : ∀ a ∈ c, isKoDigit a = true := by
      obtain ⟨t5, ht5⟩ := hckd
      have hall := all_takeWhile isKoDigit x
      rw [← ht5, List.all_append, Bool.and_eq_true] at hall
      exact fun a ha => List.all_eq_true.mp hall.1 a ha
    have hKD : x.takeWhile isKoDigit = c ++ r.takeWhile isKoDigit := by
      conv_lhs => rw [← hx]
      exact List.takeWhile_append_of_pos hcall
    have hkdw : (c ++ w).takeWhile isKoDigit = c ++ w.takeWhile isKoDigit :=
      List.takeWhile_append_of_pos hcall
    have hvu : w.takeWhile isKoDigit <+: r.takeWhile isKoDigit := takeWhile_mono_pfx hw
    have hprvu : c ++ w.takeWhile isKoDigit <+: c ++ r.takeWhile isKoDigit :=
      prefix_append_left c hvu
    have hseg : ∀ k, j + k ≤ c.length →
        ((c ++ w.takeWhile isKoDigit).drop j).take k
          = ((x.takeWhile isKoDigit).drop j).take k := by
      intro k hk
      rw [hKD]
      exact take_seg_eq_within hk
    rw [hkdw]
    rw [searchDescT (fun c => if ((x.takeWhile isKoDigit).drop c).take 2 = "지구".data
          then some (c + 2)
          else if ((x.takeWhile isKoDigit).drop c).take 2 = "구역".data then some (c + 2)
          else none)
        ((x.takeWhile isKoDigit).length - 1) (n := n) (j := j) hj1
        (by rw [List.length_append]; omega)
        (by rw [hKD, List.length_append, List.length_append]; have := hvu.length_le; omega)
        ?_ hmax ?_]
    · dsimp only
      rw [List.take_left' hclen, List.drop_left' hclen]
    · dsimp only
      have hs2 := hseg 2 (by omega)
      rcases hlit with h1 | ⟨h1, h2⟩
      · rw [if_pos (by rw [hs2]; exact h1), hn]
      · rw [if_neg (by rw [hs2]; exact h1), if_pos (by rw [hs2]; exact h2), hn]
    · intro i m hi1 hi2
      dsimp only
      intro hg2
      by_cases h1 : ((c ++ w.takeWhile isKoDigit).drop i).take 2 = "지구".data
      · rw [if_pos h1] at hg2
        have h1x : ((x.takeWhile isKoDigit).drop i).take 2 = "지구".data := by
          rw [hKD]
          exact take_seg_of_pfx hprvu h1 rfl
        rw [if_pos h1x]
        exact hg2
      · rw [if_neg h1] at hg2
        by_cases h2 : ((c ++ w.takeWhile isKoDigit).drop i).take 2 = "구역".data
        · rw [if_pos h2] at hg2
          have h2x : ((x.takeWhile isKoDigit).drop i).take 2 = "구역".data := by
            rw [hKD]
            exact take_seg_of_pfx hprvu h2 rfl
          rw [if_neg (by rw [h2x]; decide), if_pos h2x]
          exact hg2
        · rw [if_neg h2] at hg2
          cases hg2

theorem roadT {x c r w : Str} (h : road x = some (c, r)) (hw : w <+: r) :
    road (c ++ w) = some (c, w) := by
  dsimp only [road] at h ⊢
  cases hs : searchDesc
      (fun c => if ((x.takeWhile isKoDigit).drop c).take 1 = ['로'] then some (c + 1)
                else if ((x.takeWhile isKoDigit).drop c).take 1 = ['길'] then some (c + 1)
                else if ((x.takeWhile isKoDigit).drop c).take 2 = "대로".data then some (c + 2)
                else if ((x.takeWhile isKoDigit).drop c).take 2 = "번길".data then some (c + 2)
                else none)
      ((x.takeWhile isKoDigit).length - 1) with
  | none => rw [hs] at h; cases h
  | some n =>
    rw [hs] at h
    simp only [Option.some.injEq, Prod.mk.injEq] at h
    obtain ⟨hc, hr⟩ := h
    obtain ⟨j, hj1, hjc0, hgj, hmax⟩ := searchDesc_max _ n hs
    have hkdlen : (x.takeWhile isKoDigit).length ≤ x.length :=
      (List.takeWhile_prefix _).length_le
    have hdecode : (n = j + 1 ∧ ((x.takeWhile isKoDigit).drop j).take 1 = ['로']) ∨
        (n = j + 1 ∧ ((x.takeWhile isKoDigit).drop j).take 1 ≠ ['로'] ∧
          ((x.takeWhile isKoDigit).drop j).take 1 = ['길']) ∨
        (n = j + 2 ∧ ((x.takeWhile isKoDigit).drop j).take 1 ≠ ['로'] ∧
          ((x.takeWhile isKoDigit).drop j).take 1 ≠ ['길'] ∧
          ((x.takeWhile isKoDigit).drop j).take 2 = "대로".data) ∨
        (n = j + 2 ∧ ((x.takeWhile isKoDigit).drop j).take 1 ≠ ['로'] ∧
          ((x.takeWhile isKoDigit).drop j).take 1 ≠ ['길'] ∧
          ((x.takeWhile isKoDigit).drop j).take 2 ≠ "대로".data ∧
          ((x.takeWhile isKoDigit).drop j).take 2 = "번길".data) := by
      by_cases h1 : ((x.takeWhile isKoDigit).drop j).take 1 = ['로']
      · rw [if_pos h1] at hgj
        simp only [Option.some.injEq] at hgj
        exact Or.inl ⟨hgj.symm, h1⟩
      · rw [if_neg h1] at hgj
        by_cases h2 : ((x.takeWhile isKoDigit).drop j).take 1 = ['길']
        · rw [if_pos h2] at hgj
          simp only [Option.some.injEq] at hgj
          exact Or.inr (Or.inl ⟨hgj.symm, h1, h2⟩)
        · rw [if_neg h2] at hgj
          by_cases h3 : ((x.takeWhile isKoDigit).drop j).take 2 = "대로".data
          · rw [if_pos h3] at hgj
            simp only [Option.some.injEq] at hgj
            exact Or.inr (Or.inr (Or.inl ⟨hgj.symm, h1, h2, h3⟩))
          · rw [if_neg h3] at hgj
            by_cases h4 : ((x.takeWhile isKoDigit).drop j).take 2 = "번길".data
            · rw [if_pos h4] at hgj
              simp only [Option.some.injEq] at hgj
              exact Or.inr (Or.inr (Or.inr ⟨hgj.symm, h1, h2, h3, h4⟩))
            · rw [if_neg h4] at hgj
              cases hgj
    have hnlen : n ≤ (x.takeWhile isKoDigit).length := by
      rcases hdecode with ⟨hn, _⟩ | ⟨hn, _⟩ | ⟨hn, _, _, hseg⟩ | ⟨hn, _, _, _, hseg⟩
      · omega
      · omega
      · have hseglen : (((x.takeWhile isKoDigit).drop j).take 2).length = 2 := by
          rw [hseg]; rfl
        rw [List.length_take, List.length_drop] at hseglen
        omega
      · have hseglen : (((x.takeWhile isKoDigit).drop j).take 2).length = 2 := by
          rw [hseg]; rfl
        rw [List.length_take, List.length_drop] at hseglen
        omega
    have hclen : c.length = n := by
      rw [← hc, List.length_take]
      omega
    have hx : c ++ r = x := by
      rw [← hc, ← hr]
      exact List.take_append_drop _ _
    have hckd : c <+: x.takeWhile isKoDigit := by
      rw [← hc]
      have h1 := List.prefix_iff_eq_take.mp (List.takeWhile_prefix (p := isKoDigit) (l := x))
      have h2 : (x.takeWhile isKoDigit).take n = x.take n := by
        conv_lhs => rw [h1]
        rw [List.take_take, Nat.min_eq_left hnlen]
      rw [← h2]
      exact List.take_prefix _ _
    have hcall : ∀ a ∈ c, isKoDigit a = true := by
      obtain ⟨t5, ht5⟩ := hckd
      have hall := all_takeWhile isKoDigit x
      rw [← ht5, List.all_append, Bool.and_eq_true] at hall
      exact fun a ha => List.all_eq_true.mp hall.1 a ha
    have hKD : x.takeWhile isKoDigit = c ++ r.takeWhile isKoDigit := by
      conv_lhs => rw [← hx]
      exact List.takeWhile_append_of_pos hcall
    have hkdw : (c ++ w).takeWhile isKoDigit = c ++ w.takeWhile isKoDigit :=
      List.takeWhile_append_of_pos hcall
    have hvu : w.takeWhile isKoDigit <+: r.takeWhile isKoDigit := takeWhile_mono_pfx hw
    have hprvu : c ++ w.takeWhile isKoDigit <+: c ++ r.takeWhile isKoDigit :=
      prefix_append_left c hvu
    have hseg : ∀ k, j + k ≤ c.length →
        ((c ++ w.takeWhile isKoDigit).drop j).take k
          = ((x.takeWhile isKoDigit).drop j).take k := by
      intro k hk
      rw [hKD]
      exact take_seg_eq_within hk
    rw [hkdw]
    rw [searchDescT (fun c =>
          if ((x.takeWhile isKoDigit).drop c).take 1 = ['로'] then some (c + 1)
          else if ((x.takeWhile isKoDigit).drop c).take 1 = ['길'] then some (c + 1)
          else if ((x.takeWhile isKoDigit).drop c).take 2 = "대로".data then some (c + 2)
          else if ((x.takeWhile isKoDigit).drop c).take 2 = "번길".data then some (c + 2)
          else none)
        ((x.takeWhile isKoDigit).length - 1) (n := n) (j := j) hj1
        (by rw [List.length_append]; omega)
        (by rw [hKD, List.length_append, List.length_append]; have := hvu.length_le; omega)
        ?_ hmax ?_]
    · dsimp only
      rw [List.take_left' hclen, List.drop_left' hclen]
    · dsimp only
      rcases hdecode with ⟨hn, hp⟩ | ⟨hn, hn1, hp⟩ | ⟨hn, hn1, hn2, hp⟩ | ⟨hn, hn1, hn2, hn3, hp⟩
      · rw [if_pos (by rw [hseg 1 (by omega)]; exact hp), hn]
      · rw [if_neg (by rw [hseg 1 (by omega)]; exact hn1),
          if_pos (by rw [hseg 1 (by omega)]; exact hp), hn]
      · rw [if_neg (by rw [hseg 1 (by omega)]; exact hn1),
          if_neg (by rw [hseg 1 (by omega)]; exact hn2),
          if_pos (by rw [hseg 2 (by omega)]; exact hp), hn]
      · rw [if_neg (by rw [hseg 1 (by omega)]; exact hn1),
          if_neg (by rw [hseg 1 (by omega)]; exact hn2),
          if_neg (by rw [hseg 2 (by omega)]; exact hn3),
          if_pos (by rw [hseg 2 (by omega)]; exact hp), hn]
    · intro i m hi1 hi2
      dsimp only
      intro hg2
      by_cases h1 : ((c ++ w.takeWhile isKoDigit).drop i).take 1 = ['로']
      · rw [if_pos h1] at hg2
        have h1x : ((x.takeWhile isKoDigit).drop i).take 1 = ['로'] := by
          rw [hKD]
          exact take_seg_of_pfx hprvu h1 rfl
        rw [if_pos h1x]
        exact hg2
      · rw [if_neg h1] at hg2
        by_cases h2 : ((c ++ w.takeWhile isKoDigit).drop i).take 1 = ['길']
        · rw [if_pos h2] at hg2
          have h2x : ((x.takeWhile isKoDigit).drop i).take 1 = ['길'] := by
            rw [hKD]
            exact take_seg_of_pfx hprvu h2 rfl
          rw [if_neg (by rw [h2x]; decide), if_pos h2x]
          exact hg2
        · rw [if_neg h2] at hg2
          by_cases h3 : ((c ++ w.takeWhile isKoDigit).drop i).take 2 = "대로".data
          · rw [if_pos h3] at hg2
            have h3x : ((x.takeWhile isKoDigit).drop i).take 2 = "대로".data := by
              rw [hKD]
              exact take_seg_of_pfx hprvu h3 rfl
            have ht1 : ¬ ((x.takeWhile isKoDigit).drop i).take 1 = ['로'] := by
              intro hone
              have hcut : (((x.takeWhile isKoDigit).drop i).take 2).take 1 = ['로'] := by
                rw [List.take_take]
                exact hone
              rw [h3x] at hcut
              exact absurd hcut (by decide)
            have ht2 : ¬ ((x.takeWhile isKoDigit).drop i).take 1 = ['길'] := by
              intro hone
              have hcut : (((x.takeWhile isKoDigit).drop i).take 2).take 1 = ['길'] := by
                rw [List.take_take]
                exact hone
              rw [h3x] at hcut
              exact absurd hcut (by decide)
            rw [if_neg ht1, if_neg ht2, if_pos h3x]
            exact hg2
          · rw [if_neg h3] at hg2
            by_cases h4 : ((c ++ w.takeWhile isKoDigit).drop i).take 2 = "번길".data
            · rw [if_pos h4] at hg2
              have h4x : ((x.takeWhile isKoDigit).drop i).take 2 = "번길".data := by
                rw [hKD]
                exact take_seg_of_pfx hprvu h4 rfl
              have ht1 : ¬ ((x.takeWhile isKoDigit).drop i).take 1 = ['로'] := by
                intro hone
                have hcut : (((x.takeWhile isKoDigit).drop i).take 2).take 1 = ['로'] := by
                  rw [List.take_take]
                  exact hone
                rw [h4x] at hcut
                exact absurd hcut (by decide)
              have ht2 : ¬ ((x.takeWhile isKoDigit).drop i).take 1 = ['길'] := by
                intro hone
                have hcut : (((x.takeWhile isKoDigit).drop i).take 2).take 1 = ['길'] := by
                  rw [List.take_take]
                  exact hone
                rw [h4x] at hcut
                exact absurd hcut (by decide)
              have ht3 : ¬ ((x.takeWhile isKoDigit).drop i).take 2 = "대로".data := by
                rw [h4x]
                decide
              rw [if_neg ht1, if_neg ht2, if_neg ht3, if_pos h4x]
              exact hg2
            · rw [if_neg h4] at hg2
              cases hg2

theorem townRelaxT {x c r w : Str} (h : townRelax x = some (c, r)) (hw : w <+: r) :
    townRelax (c ++ w) = some (c, w) := by
  dsimp only [townRelax] at h ⊢
  by_cases h2 : 2 ≤ (x.takeWhile isKo).length
  · rw [if_pos h2] at h
    simp only [Option.some.injEq, Prod.mk.injEq] at h
    obtain ⟨hc, hr⟩ := h
    subst hc
    subst hr
    have hrko : (((x.drop (x.takeWhile isKo).length).head?.map isKo).getD false) = false := by
      rw [drop_takeWhile_length]
      exact dropWhile_head_false _ _
    have hpr := takeWhile_prefix_eq (p := isKo) (all_takeWhile isKo x) (head_getD_mono hw hrko)
    rw [hpr.1, if_pos h2, List.drop_left]
  · rw [if_neg h2] at h
    cases h

theorem rawCityT {x c r w : Str} (h : rawCity x = some (c, r)) (hw : w <+: r) :
    rawCity (c ++ w) = some (c, w) := by
  dsimp only [rawCity] at h ⊢
  by_cases h2 : 2 ≤ (x.takeWhile isKo).length
  · rw [if_pos h2] at h
    simp only [Option.some.injEq, Prod.mk.injEq] at h
    obtain ⟨hc, hr⟩ := h
    subst hc
    subst hr
    have hrko : (((x.drop (x.takeWhile isKo).length).head?.map isKo).getD false) = false := by
      rw [drop_takeWhile_length]
      exact dropWhile_head_false _ _
    have hpr := takeWhile_prefix_eq (p := isKo) (all_takeWhile isKo x) (head_getD_mono hw hrko)
    rw [hpr.1, if_pos h2, List.drop_left]
  · rw [if_neg h2] at h
    cases h

theorem townT {x c r w : Str} (h : town x = some (c, r)) (hw : w <+: r) :
    town (c ++ w) = some (c, w) := by
  dsimp only [town] at h ⊢
  cases hs : townStrict x with
  | some p =>
    rw [hs] at h
    cases h
    rw [townStrictT hs hw]
  | none =>
    rw [hs] at h
    have hx : c ++ r = x := townRelax_consumed h
    rw [townStrictF hs (by rw [← hx]; exact prefix_append_left c (hw.trans (List.prefix_refl r)))]
    exact townRelaxT h hw

theorem digit_not_ko {d : Char} (h : isDigitC d = true) : isKo d = false := by
  cases hk : isKo d with
  | false => rfl
  | true =>
    simp only [isDigitC, Bool.and_eq_true, decide_eq_true_eq] at h
    simp only [isKo, Bool.and_eq_true, decide_eq_true_eq] at hk
    omega

theorem hyp_facts {d : Char} (h : isHyp d = true) :
    isSpaceC d = false ∧ isDigitC d = false ∧ isKo d = false := by
  simp only [isHyp, Bool.or_eq_true, decide_eq_true_eq] at h
  rcases h with ((((h | h) | h) | h) | h) | h <;> subst h <;> exact ⟨by decide, by decide, by decide⟩

theorem lotCore_digits_reparse {c w : Str} (hcall : c.all isDigitC = true) (hcne : c ≠ [])
    (hwh : ((w.head?.map isDigitC).getD false) = false) :
    lotCore (c ++ w) = some (c, w) := by
  have hpr := takeWhile_prefix_eq (p := isDigitC) hcall hwh
  have hdig : ∀ z : Str, c ++ w = z →
      (if (z.takeWhile isDigitC).isEmpty = true then none
       else some (z.takeWhile isDigitC, z.drop (z.takeWhile isDigitC).length))
        = some (c, w) := by
    intro z hz
    subst hz
    rw [hpr.1, if_neg (by rw [List.isEmpty_iff]; exact hcne), List.drop_left]
  cases c with
  | nil => exact absurd rfl hcne
  | cons d c' =>
    have hd : isDigitC d = true := by
      rw [List.all_cons, Bool.and_eq_true] at hcall
      exact hcall.1
    have hdko : isKo d = false := digit_not_ko hd
    cases c' with
    | nil =>
      cases w with
      | nil => exact hdig _ rfl
      | cons e w' =>
        dsimp only [lotCore]
        rw [List.cons_append, List.nil_append]
        dsimp only
        rw [if_neg (by rw [hdko]; simp)]
        exact hdig _ (by simp)
    | cons e c'' =>
      dsimp only [lotCore]
      rw [show ((d :: e :: c'') ++ w) = d :: e :: (c'' ++ w) from by simp]
      dsimp only
      rw [if_neg (by rw [hdko]; simp)]
      exact hdig _ (by simp)

theorem lotCoreT {x c r w : Str} (h : lotCore x = some (c, r)) (hw : w <+: r) :
    lotCore (c ++ w) = some (c, w) := by
  dsimp only [lotCore] at h
  cases x with
  | nil =>
    dsimp only at h
    split at h
    · cases h
    · rename_i hne
      exact absurd rfl hne
  | cons k t =>
    cases t with
    | nil =>
      dsimp only at h
      split at h
      · cases h
      · rename_i hne
        simp only [Option.some.injEq, Prod.mk.injEq] at h
        obtain ⟨hc, hr⟩ := h
        subst hc
        subst hr
        refine lotCore_digits_reparse (all_takeWhile _ _) ?_ ?_
        · intro hnil
          exact hne (by rw [hnil]; rfl)
        · refine head_getD_mono hw ?_
          rw [drop_takeWhile_length]
          exact dropWhile_head_false _ _
    | cons h2 rest =>
      dsimp only at h
      by_cases hkh : (isKo k && isHyp h2) = true
      · rw [if_pos hkh] at h
        by_cases hd : (rest.takeWhile isDigitC).isEmpty = true
        · rw [if_pos hd] at h
          split at h
          · cases h
          · rename_i hne
            simp only [Option.some.injEq, Prod.mk.injEq] at h
            obtain ⟨hc, hr⟩ := h
            subst hc
            subst hr
            refine lotCore_digits_reparse (all_takeWhile _ _) ?_ ?_
            · intro hnil
              exact hne (by rw [hnil]; rfl)
            · refine head_getD_mono hw ?_
              rw [drop_takeWhile_length]
              exact dropWhile_head_false _ _
        · rw [if_neg hd] at h
          simp only [Option.some.injEq, Prod.mk.injEq] at h
          obtain ⟨hc, hr⟩ := h
          subst hc
          subst hr
          dsimp only [lotCore]
          rw [show ((k :: h2 :: rest.takeWhile isDigitC) ++ w)
              = k :: h2 :: (rest.takeWhile isDigitC ++ w) from by simp]
          dsimp only
          rw [if_pos hkh]
          have hwh : ((w.head?.map isDigitC).getD false) = false := by
            refine head_getD_mono hw ?_
            rw [drop_takeWhile_length]
            exact dropWhile_head_false _ _
          have hpr := takeWhile_prefix_eq (p := isDigitC) (all_takeWhile isDigitC rest) hwh
          rw [hpr.1, if_neg hd, List.drop_left]
      · rw [if_neg hkh] at h
        split at h
        · cases h
        · rename_i hne
          simp only [Option.some.injEq, Prod.mk.injEq] at h
          obtain ⟨hc, hr⟩ := h
          subst hc
          subst hr
          refine lotCore_digits_reparse (all_takeWhile _ _) ?_ ?_
          · intro hnil
            exact hne (by rw [hnil]; rfl)
          · refine head_getD_mono hw ?_
            rw [drop_takeWhile_length]
            exact dropWhile_head_false _ _

theorem hypDigitsT {x a b w : Str} (h : hypDigits x = (a, b)) (hw : w <+: b) :
    hypDigits (a ++ w) = (a, w) := by
  dsimp only [hypDigits] at h
  cases x with
  | nil =>
    cases h
    have hwn : w = [] := List.prefix_nil.mp hw
    subst hwn
    rfl
  | cons h2 rest =>
    dsimp only at h
    by_cases hh : isHyp h2 = true
    · rw [if_pos hh] at h
      by_cases hd : (rest.takeWhile isDigitC).isEmpty = true
      · rw [if_pos hd] at h
        cases h
        rw [List.nil_append]
        cases hwc : w with
        | nil => rfl
        | cons e w2 =>
          rw [hwc] at hw
          obtain ⟨t3, ht3⟩ := hw
          simp only [List.cons_append, List.cons.injEq] at ht3
          dsimp only [hypDigits]
          rw [if_pos (by rw [ht3.1]; exact hh)]
          have hdw : w2.takeWhile isDigitC = [] := by
            have hm := takeWhile_mono_pfx (p := isDigitC) (⟨t3, ht3.2⟩ : w2 <+: rest)
            rw [List.isEmpty_iff.mp hd] at hm
            exact List.prefix_nil.mp hm
          rw [if_pos (by rw [hdw]; rfl)]
      · rw [if_neg hd] at h
        cases h
        rw [List.cons_append]
        dsimp only [hypDigits]
        rw [if_pos hh]
        have hwh : ((w.head?.map isDigitC).getD false) = false := by
          refine head_getD_mono hw ?_
          rw [drop_takeWhile_length]
          exact dropWhile_head_false _ _
        have hpr := takeWhile_prefix_eq (p := isDigitC) (all_takeWhile isDigitC rest) hwh
        rw [hpr.1, if_neg hd, List.drop_left]
    · rw [if_neg hh] at h
      cases h
      rw [List.nil_append]
      cases hwc : w with
      | nil => rfl
      | cons e w2 =>
        rw [hwc] at hw
        obtain ⟨t3, ht3⟩ := hw
        simp only [List.cons_append, List.cons.injEq] at ht3
        dsimp only [hypDigits]
        rw [if_neg (by rw [ht3.1]; exact hh)]

theorem take_eq_of_pfx {A B lit : Str} (h : A <+: B) {k : Nat}
    (hseg : A.take k = lit) (hlen : lit.length = k) : B.take k = lit := by
  have h1 : lit <+: A := by
    rw [← hseg]
    exact List.take_prefix _ _
  have h2 := List.prefix_iff_eq_take.mp (h1.trans h)
  rw [hlen] at h2
  exact h2.symm

theorem lotAfterCoreT {x t1 t2 w : Str} (h : lotAfterCore x = (t1, t2)) (hw : w <+: t2) :
    lotAfterCore (t1 ++ w) = (t1, w) := by
  cases hq : hypDigits x with
  | mk A B =>
    dsimp only [lotAfterCore] at h
    rw [hq] at h
    dsimp only at h
    by_cases h1 : List.take 2 (List.drop (List.takeWhile isSpaceC B).length B) = ['일', '원']
    · rw [if_pos h1] at h
      cases h
      have hRR : B.drop (B.takeWhile isSpaceC).length
          = ['일', '원'] ++ (B.drop (B.takeWhile isSpaceC).length).drop 2 := by
        conv_lhs => rw [← List.take_append_drop 2 (B.drop (B.takeWhile isSpaceC).length)]
        rw [h1]
      have hB : B.takeWhile isSpaceC ++ (['일', '원'] ++ w) <+: B := by
        conv_rhs => rw [← takeWhile_append_drop isSpaceC B]
        refine prefix_append_left _ ?_
        rw [hRR]
        exact prefix_append_left _ hw
      have hkey : (A ++ B.takeWhile isSpaceC ++ ['일', '원']) ++ w
          = A ++ (B.takeWhile isSpaceC ++ (['일', '원'] ++ w)) := by simp
      rw [hkey]
      dsimp only [lotAfterCore]
      rw [hypDigitsT hq hB]
      dsimp only
      have hsp := takeWhile_prefix_eq (p := isSpaceC)
        (all_takeWhile isSpaceC B) (b := ['일', '원'] ++ w)
        (by
          rw [show ((['일', '원'] : Str) ++ w) = '일' :: '원' :: w from rfl]
          simp only [List.head?_cons, Option.map_some', Option.getD_some]
          decide)
      rw [hsp.1, List.drop_left,
        show ((['일', '원'] : Str) ++ w) = '일' :: '원' :: w from rfl]
      have hc : List.take 2 ('일' :: '원' :: w) = (['일', '원'] : Str) := by rfl
      rw [if_pos hc]
      rfl
    · rw [if_neg h1] at h
      by_cases h2 : List.take 2 (List.drop (List.takeWhile isSpaceC B).length B) = ['번', '지']
      · rw [if_pos h2] at h
        cases h
        have hRR : B.drop (B.takeWhile isSpaceC).length
            = ['번', '지'] ++ (B.drop (B.takeWhile isSpaceC).length).drop 2 := by
          conv_lhs => rw [← List.take_append_drop 2 (B.drop (B.takeWhile isSpaceC).length)]
          rw [h2]
        have hB : B.takeWhile isSpaceC ++ (['번', '지'] ++ w) <+: B := by
          conv_rhs => rw [← takeWhile_append_drop isSpaceC B]
          refine prefix_append_left _ ?_
          rw [hRR]
          exact prefix_append_left _ hw
        have hkey : (A ++ B.takeWhile isSpaceC ++ ['번', '지']) ++ w
            = A ++ (B.takeWhile isSpaceC ++ (['번', '지'] ++ w)) := by simp
        rw [hkey]
        dsimp only [lotAfterCore]
        rw [hypDigitsT hq hB]
        dsimp only
        have hsp := takeWhile_prefix_eq (p := isSpaceC)
          (all_takeWhile isSpaceC B) (b := ['번', '지'] ++ w)
          (by
            rw [show ((['번', '지'] : Str) ++ w) = '번' :: '지' :: w from rfl]
            simp only [List.head?_cons, Option.map_some', Option.getD_some]
            decide)
        rw [hsp.1, List.drop_left,
          show ((['번', '지'] : Str) ++ w) = '번' :: '지' :: w from rfl]
        have hc2 : List.take 2 ('번' :: '지' :: w) = (['번', '지'] : Str) := by rfl
        have hc1 : ¬ List.take 2 ('번' :: '지' :: w) = (['일', '원'] : Str) := by
          rw [hc2]
          decide
        rw [if_neg hc1, if_pos hc2]
        rfl
      · rw [if_neg h2] at h
        injection h with ha hb
        subst ha
        subst hb
        dsimp only [lotAfterCore]
        rw [hypDigitsT hq hw]
        dsimp only
        have hpr : w.drop (w.takeWhile isSpaceC).length <+:
            B.drop (B.takeWhile isSpaceC).length := by
          rw [drop_takeWhile_length, drop_takeWhile_length]
          exact dropWhile_mono_pfx hw
        rw [if_neg (fun hcon => h1 (take_eq_of_pfx hpr hcon rfl)),
          if_neg (fun hcon => h2 (take_eq_of_pfx hpr hcon rfl))]

theorem lotCore_some_shape {s co r : Str} (h : lotCore s = some (co, r)) :
    (∃ d t, co = d :: t ∧ isDigitC d = true) ∨
    (∃ k h2 ds, co = k :: h2 :: ds ∧ isKo k = true ∧ isHyp h2 = true) := by
  have hdig : ∀ z : Str, (if (z.takeWhile isDigitC).isEmpty = true then none
      else some (z.takeWhile isDigitC, z.drop (z.takeWhile isDigitC).length)) = some (co, r) →
      ∃ d t, co = d :: t ∧ isDigitC d = true := by
    intro z hz
    split at hz
    · cases hz
    · rename_i hne
      simp only [Option.some.injEq, Prod.mk.injEq] at hz
      obtain ⟨hc, _⟩ := hz
      cases hzz : z.takeWhile isDigitC with
      | nil =>
        rw [hzz] at hne
        exact absurd rfl hne
      | cons d t =>
        refine ⟨d, t, by rw [← hc, hzz], ?_⟩
        have hall := all_takeWhile isDigitC z
        rw [hzz, List.all_cons, Bool.and_eq_true] at hall
        exact hall.1
  dsimp only [lotCore] at h
  cases s with
  | nil => exact Or.inl (hdig _ h)
  | cons k t =>
    cases t with
    | nil => exact Or.inl (hdig _ h)
    | cons h2 rest =>
      dsimp only at h
      by_cases hkh : (isKo k && isHyp h2) = true
      · rw [if_pos hkh] at h
        by_cases hd : (rest.takeWhile isDigitC).isEmpty = true
        · rw [if_pos hd] at h
          exact Or.inl (hdig _ h)
        · rw [if_neg hd] at h
          simp only [Option.some.injEq, Prod.mk.injEq] at h
          obtain ⟨hc, _⟩ := h
          rw [Bool.and_eq_true] at hkh
          exact Or.inr ⟨k, h2, rest.takeWhile isDigitC, hc.symm, hkh.1, hkh.2⟩
      · rw [if_neg hkh] at h
        exact Or.inl (hdig _ h)

theorem lotCore_none_of_head {d : Char} {z : Str} (h1 : isDigitC d = false)
    (h2 : isKo d = false) : lotCore (d :: z) = none := by
  have htw : (d :: z).takeWhile isDigitC = [] := by
    rw [List.takeWhile_cons, h1]
    rfl
  dsimp only [lotCore]
  cases z with
  | nil =>
    dsimp only
    rw [htw]
    rfl
  | cons e rest =>
    dsimp only
    rw [if_neg (by rw [h2]; simp), htw]
    rfl

theorem lot_direct_reparse {x c r w : Str}
    (h : Option.map (fun p : Str × Str =>
      (p.1 ++ (lotAfterCore p.2).1, (lotAfterCore p.2).2)) (lotCore x) = some (c, r))
    (hw : w <+: r) :
    lot (c ++ w) = some (c, w) := by
  cases hlc : lotCore x with
  | none =>
    rw [hlc] at h
    simp only [Option.map_none'] at h
    exact Option.noConfusion h
  | some p =>
    cases p with
    | mk co r0 =>
      rw [hlc] at h
      simp only [Option.map_some'] at h
      cases hafter : lotAfterCore r0 with
      | mk t1 t2 =>
        rw [hafter] at h
        dsimp only at h
        simp only [Option.some.injEq, Prod.mk.injEq] at h
        obtain ⟨hc, hr⟩ := h
        subst hc
        subst hr
        have hpr1 : t1 ++ w <+: r0 := by
          rw [← lotAfterCore_consumed hafter]
          exact prefix_append_left _ hw
        have hlcT := lotCoreT hlc hpr1
        have hacT := lotAfterCoreT hafter hw
        rcases lotCore_some_shape hlc with ⟨d, t0, hco, hd⟩ | ⟨k, h2, ds, hco, hk, hhy⟩
        · subst hco
          have hdne : ¬ d = '산' := by
            intro he
            rw [he] at hd
            exact absurd hd (by decide)
          rw [show ((d :: t0) ++ t1) ++ w = d :: ((t0 ++ t1) ++ w) from by simp]
          dsimp only [lot]
          rw [if_neg hdne,
            show (d : Char) :: ((t0 ++ t1) ++ w) = (d :: t0) ++ (t1 ++ w) from by simp,
            hlcT]
          dsimp only [Option.map]
          rw [hacT]
        · subst hco
          by_cases hks : k = '산'
          · subst hks
            rw [show (('산' :: h2 :: ds) ++ t1) ++ w
                = '산' :: (h2 :: ((ds ++ t1) ++ w)) from by simp]
            dsimp only [lot]
            rw [if_pos rfl]
            have hsp0 : (h2 :: ((ds ++ t1) ++ w)).takeWhile isSpaceC = [] := by
              rw [List.takeWhile_cons, (hyp_facts hhy).1]
              rfl
            rw [hsp0, List.length_nil, List.drop_zero,
              lotCore_none_of_head (hyp_facts hhy).2.1 (hyp_facts hhy).2.2]
            dsimp only
            rw [show ('산' : Char) :: (h2 :: ((ds ++ t1) ++ w))
                = ('산' :: h2 :: ds) ++ (t1 ++ w) from by simp,
              hlcT]
            dsimp only [Option.map]
            rw [hacT]
          · rw [show ((k :: h2 :: ds) ++ t1) ++ w
                = k :: ((h2 :: (ds ++ t1)) ++ w) from by simp]
            dsimp only [lot]
            rw [if_neg hks,
              show (k : Char) :: ((h2 :: (ds ++ t1)) ++ w)
                = (k :: h2 :: ds) ++ (t1 ++ w) from by simp,
              hlcT]
            dsimp only [Option.map]
            rw [hacT]

theorem lotT {x c r w : Str} (h : lot x = some (c, r)) (hw : w <+: r) :
    lot (c ++ w) = some (c, w) := by
  dsimp only [lot] at h
  cases x with
  | nil =>
    dsimp only at h
    exact lot_direct_reparse h hw
  | cons k t =>
    dsimp only at h
    by_cases hsan : k = '산'
    · subst hsan
      rw [if_pos rfl] at h
      cases hinner : lotCore (t.drop (t.takeWhile isSpaceC).length) with
      | none =>
        rw [hinner] at h
        dsimp only at h
        exact lot_direct_reparse h hw
      | some p =>
        cases p with
        | mk co r1 =>
          rw [hinner] at h
          dsimp only at h
          cases hafter : lotAfterCore r1 with
          | mk t1 t2 =>
            rw [hafter] at h
            dsimp only at h
            simp only [Option.some.injEq, Prod.mk.injEq] at h
            obtain ⟨hc, hr⟩ := h
            subst hc
            subst hr
            have hpr1 : t1 ++ w <+: r1 := by
              rw [← lotAfterCore_consumed hafter]
              exact prefix_append_left _ hw
            have hlcT := lotCoreT hinner hpr1
            have hacT := lotAfterCoreT hafter hw
            have hshape : ∃ d t0, co = d :: t0 ∧ isSpaceC d = false := by
              rcases lotCore_some_shape hinner with ⟨d, t0, hco, hd⟩ | ⟨k2, h2, ds, hco, hk, _⟩
              · exact ⟨d, t0, hco, digit_not_space hd⟩
              · exact ⟨k2, h2 :: ds, hco, isKo_not_space hk⟩
            obtain ⟨d, t0, hco, hns⟩ := hshape
            subst hco
            rw [List.cons_append,
              show (t.takeWhile isSpaceC ++ (d :: t0) ++ t1) ++ w
                = t.takeWhile isSpaceC ++ ((d :: t0) ++ (t1 ++ w)) from by simp]
            dsimp only [lot]
            rw [if_pos rfl]
            have hsp := takeWhile_prefix_eq (p := isSpaceC) (all_takeWhile isSpaceC t)
              (b := (d :: t0) ++ (t1 ++ w))
              (by
                rw [show ((d :: t0) ++ (t1 ++ w)) = d :: (t0 ++ (t1 ++ w)) from rfl]
                simp only [List.head?_cons, Option.map_some', Option.getD_some]
                exact hns)
            rw [hsp.1, List.drop_left, hlcT]
            dsimp only
            rw [hacT]
    · rw [if_neg hsan] at h
      exact lot_direct_reparse h hw

theorem lotCore_some_head_ns {s co r : Str} (h : lotCore s = some (co, r)) :
    ∃ d t0, co = d :: t0 ∧ isSpaceC d = false := by
  rcases lotCore_some_shape h with ⟨d, t0, hco, hd⟩ | ⟨k2, h2, ds, hco, hk, _⟩
  · exact ⟨d, t0, hco, digit_not_space hd⟩
  · exact ⟨k2, h2 :: ds, hco, isKo_not_space hk⟩

theorem lotListStepT {x c r w : Str} (h : lotListStep x = some (c, r)) (hw : w <+: r) :
    lotListStep (c ++ w) = some (c, w) := by
  dsimp only [lotListStep] at h
  cases hdr : x.drop (x.takeWhile isSpaceC).length with
  | nil =>
    rw [hdr] at h
    dsimp only at h
    exact Option.noConfusion h
  | cons c0 r2 =>
    rw [hdr] at h
    dsimp only at h
    by_cases hc0 : c0 = ','
    · subst hc0
      rw [if_pos rfl] at h
      cases hinner : lotCore (r2.drop (r2.takeWhile isSpaceC).length) with
      | none =>
        rw [hinner] at h
        dsimp only at h
        exact Option.noConfusion h
      | some p =>
        cases p with
        | mk co r3 =>
          rw [hinner] at h
          dsimp only at h
          cases hhd : hypDigits r3 with
          | mk a b =>
            rw [hhd] at h
            dsimp only at h
            simp only [Option.some.injEq, Prod.mk.injEq] at h
            obtain ⟨hc, hr⟩ := h
            subst hc
            subst hr
            obtain ⟨d, t0, hco, hns⟩ := lotCore_some_head_ns hinner
            subst hco
            have hab : a ++ b = r3 := by
              have hq := hypDigits_split r3
              rw [hhd] at hq
              dsimp only at hq
              exact hq
            have hpra : a ++ w <+: r3 := by
              rw [← hab]
              exact prefix_append_left _ hw
            rw [show (x.takeWhile isSpaceC
                  ++ ',' :: ((r2.takeWhile isSpaceC ++ (d :: t0)) ++ a)) ++ w
                = x.takeWhile isSpaceC
                  ++ ',' :: (r2.takeWhile isSpaceC ++ ((d :: t0) ++ (a ++ w))) from by simp]
            dsimp only [lotListStep]
            have hsp1 := takeWhile_prefix_eq (p := isSpaceC) (all_takeWhile isSpaceC x)
              (b := ',' :: (r2.takeWhile isSpaceC ++ ((d :: t0) ++ (a ++ w))))
              (by
                simp only [List.head?_cons, Option.map_some', Option.getD_some]
                decide)
            rw [hsp1.1, List.drop_left]
            dsimp only
            rw [if_pos rfl]
            have hsp2 := takeWhile_prefix_eq (p := isSpaceC) (all_takeWhile isSpaceC r2)
              (b := (d :: t0) ++ (a ++ w))
              (by
                rw [show ((d :: t0) ++ (a ++ w)) = d :: (t0 ++ (a ++ w)) from rfl]
                simp only [List.head?_cons, Option.map_some', Option.getD_some]
                exact hns)
            rw [hsp2.1, List.drop_left, lotCoreT hinner hpra]
            dsimp only
            rw [hypDigitsT hhd hw]
    · rw [if_neg hc0] at h
      exact Option.noConfusion h

theorem repRun_nil {step : Str → Option (Str × Str)} (hnil : step [] = none) :
    ∀ n, repRun step n [] = ([], []) := by
  intro n
  cases n with
  | zero => rfl
  | succ n => rw [repRun, hnil]

theorem sepThen_nil (m : Str → Option (Str × Str)) : sepThen m [] = none := rfl

theorem sepThenT {m : Str → Option (Str × Str)}
    (hmC : ∀ {y c r : Str}, m y = some (c, r) → c ++ r = y)
    (hmT : ∀ {y c r w : Str}, m y = some (c, r) → w <+: r → m (c ++ w) = some (c, w))
    (hmNe : ∀ {y c r : Str}, m y = some (c, r) → c ≠ [])
    {x c r w : Str} (h : sepThen m x = some (c, r)) (hw : w <+: r) :
    sepThen m (c ++ w) = some (c, w) := by
  dsimp only [sepThen] at h
  cases hsp : spaces1 x with
  | none =>
    rw [hsp] at h
    exact Option.noConfusion h
  | some p =>
    cases p with
    | mk sp z =>
      rw [hsp] at h
      dsimp only at h
      cases hm : m z with
      | none =>
        rw [hm] at h
        exact Option.noConfusion h
      | some q =>
        cases q with
        | mk mc mr =>
          rw [hm] at h
          dsimp only at h
          simp only [Option.some.injEq, Prod.mk.injEq] at h
          obtain ⟨hc, hr⟩ := h
          subst hc
          subst hr
          obtain ⟨hall, hne, hstop⟩ := spaces1_some hsp
          cases mc with
          | nil => exact absurd rfl (hmNe hm)
          | cons d t0 =>
            have hdns : isSpaceC d = false := by
              have hzc := hmC hm
              rw [← hzc] at hstop
              simpa using hstop
            dsimp only [sepThen]
            rw [show (sp ++ (d :: t0)) ++ w = sp ++ ((d :: t0) ++ w) from by simp,
              spaces1_build hall hne (by simpa using hdns)]
            dsimp only
            rw [hmT hm hw]

theorem repRunT_plain {step : Str → Option (Str × Str)}
    (hC : ∀ {y cc rr : Str}, step y = some (cc, rr) → cc ++ rr = y)
    (hT : ∀ {y cc rr w : Str}, step y = some (cc, rr) → w <+: rr →
      step (cc ++ w) = some (cc, w))
    (hF : ∀ {y w : Str}, step y = none → w <+: y → step w = none) :
    ∀ {n : Nat} {x C R w : Str}, repRun step n x = (C, R) → w <+: R →
      repRun step n (C ++ w) = (C, w) := by
  intro n
  induction n with
  | zero =>
    intro x C R w h hw
    have h' : (([] : Str), x) = (C, R) := h
    injection h' with h1 h2
    subst h1
    subst h2
    show repRun step 0 ([] ++ w) = ([], w)
    rw [List.nil_append]
    rfl
  | succ n ih =>
    intro x C R w h hw
    rw [repRun] at h
    cases hst : step x with
    | none =>
      rw [hst] at h
      dsimp only at h
      injection h with h1 h2
      subst h1
      subst h2
      rw [List.nil_append, repRun, hF hst hw]
    | some p =>
      cases p with
      | mk cc rr =>
        rw [hst] at h
        dsimp only at h
        cases hrec : repRun step n rr with
        | mk cp rp =>
          rw [hrec] at h
          dsimp only at h
          injection h with h1 h2
          subst h2
          subst h1
          have hcons := repRun_consumed (fun {a b c} hx => hC hx) n rr
          rw [hrec] at hcons
          dsimp only at hcons
          have hpr : cp ++ w <+: rr := by
            rw [← hcons]
            exact prefix_append_left _ hw
          rw [show (cc ++ cp) ++ w = cc ++ (cp ++ w) from by simp, repRun, hT hst hpr]
          dsimp only
          rw [ih hrec hw]

theorem repRunT_len_plain {step : Str → Option (Str × Str)}
    (hC : ∀ {y cc rr : Str}, step y = some (cc, rr) → cc ++ rr = y)
    (hne : ∀ {y cc rr : Str}, step y = some (cc, rr) → cc ≠ [])
    (hT : ∀ {y cc rr w : Str}, step y = some (cc, rr) → w <+: rr →
      step (cc ++ w) = some (cc, w))
    (hF : ∀ {y w : Str}, step y = none → w <+: y → step w = none)
    (hnil : step [] = none) :
    ∀ {n : Nat} {x C R w : Str} {m : Nat}, repRun step n x = (C, R) → x.length ≤ n →
      w <+: R → C.length + w.length ≤ m → repRun step m (C ++ w) = (C, w) := by
  intro n
  induction n with
  | zero =>
    intro x C R w m h hlen hw hm
    have hx : x = [] := List.length_eq_zero.mp (Nat.le_zero.mp hlen)
    subst hx
    have h' : (([] : Str), ([] : Str)) = (C, R) := h
    injection h' with h1 h2
    subst h1
    subst h2
    have hwn : w = [] := List.prefix_nil.mp hw
    subst hwn
    rw [List.nil_append]
    exact repRun_nil hnil m
  | succ n ih =>
    intro x C R w m h hlen hw hm
    rw [repRun] at h
    cases hst : step x with
    | none =>
      rw [hst] at h
      dsimp only at h
      injection h with h1 h2
      subst h1
      subst h2
      rw [List.nil_append]
      cases m with
      | zero =>
        have hwn : w = [] := by simpa using hm
        subst hwn
        rfl
      | succ mp =>
        rw [repRun, hF hst hw]
    | some p =>
      cases p with
      | mk cc rr =>
        rw [hst] at h
        dsimp only at h
        cases hrec : repRun step n rr with
        | mk cp rp =>
          rw [hrec] at h
          dsimp only at h
          injection h with h1 h2
          subst h2
          subst h1
          have hcons := repRun_consumed (fun {a b c} hx => hC hx) n rr
          rw [hrec] at hcons
          dsimp only at hcons
          have hpr : cp ++ w <+: rr := by
            rw [← hcons]
            exact prefix_append_left _ hw
          have hccx := hC hst
          have hcp1 : 1 ≤ cc.length := by
            cases cc with
            | nil => exact absurd rfl (hne hst)
            | cons a b => simp
          have hlrr : rr.length ≤ n := by
            have hlx := congrArg List.length hccx
            rw [List.length_append] at hlx
            omega
          rw [List.length_append] at hm
          cases m with
          | zero => omega
          | succ mp =>
            rw [show (cc ++ cp) ++ w = cc ++ (cp ++ w) from by simp, repRun, hT hst hpr]
            dsimp only
            rw [ih hrec hlrr hw (by omega)]

theorem repRunT_len_resc {step : Str → Option (Str × Str)}
    (hC : ∀ {y cc rr : Str}, step y = some (cc, rr) → cc ++ rr = y)
    (hne : ∀ {y cc rr : Str}, step y = some (cc, rr) → cc ≠ [])
    (hT : ∀ {y cc rr w : Str}, step y = some (cc, rr) → w <+: rr →
      step (cc ++ w) = some (cc, w))
    (hResc : ∀ {y w : Str}, step y = none → w <+: y →
      step w = none ∨ step w = some (w, []))
    (hnil : step [] = none) :
    ∀ {n : Nat} {x C R w : Str} {m : Nat}, repRun step n x = (C, R) → x.length ≤ n →
      w <+: R → C.length + w.length ≤ m →
      repRun step m (C ++ w) = (C, w) ∨ repRun step m (C ++ w) = (C ++ w, []) := by
  intro n
  induction n with
  | zero =>
    intro x C R w m h hlen hw hm
    have hx : x = [] := List.length_eq_zero.mp (Nat.le_zero.mp hlen)
    subst hx
    have h' : (([] : Str), ([] : Str)) = (C, R) := h
    injection h' with h1 h2
    subst h1
    subst h2
    have hwn : w = [] := List.prefix_nil.mp hw
    subst hwn
    left
    rw [List.nil_append]
    exact repRun_nil hnil m
  | succ n ih =>
    intro x C R w m h hlen hw hm
    rw [repRun] at h
    cases hst : step x with
    | none =>
      rw [hst] at h
      dsimp only at h
      injection h with h1 h2
      subst h1
      subst h2
      cases m with
      | zero =>
        have hwn : w = [] := by simpa using hm
        subst hwn
        left
        rfl
      | succ mp =>
        rcases hResc hst hw with hn | hr
        · left
          rw [List.nil_append, repRun, hn]
        · right
          rw [List.nil_append, repRun, hr]
          dsimp only
          rw [repRun_nil hnil mp]
          simp
    | some p =>
      cases p with
      | mk cc rr =>
        rw [hst] at h
        dsimp only at h
        cases hrec : repRun step n rr with
        | mk cp rp =>
          rw [hrec] at h
          dsimp only at h
          injection h with h1 h2
          subst h2
          subst h1
          have hcons := repRun_consumed (fun {a b c} hx => hC hx) n rr
          rw [hrec] at hcons
          dsimp only at hcons
          have hpr : cp ++ w <+: rr := by
            rw [← hcons]
            exact prefix_append_left _ hw
          have hccx := hC hst
          have hcp1 : 1 ≤ cc.length := by
            cases cc with
            | nil => exact absurd rfl (hne hst)
            | cons a b => simp
          have hlrr : rr.length ≤ n := by
            have hlx := congrArg List.length hccx
            rw [List.length_append] at hlx
            omega
          rw [List.length_append] at hm
          cases m with
          | zero => omega
          | succ mp =>
            rcases ih hrec hlrr hw (by omega : cp.length + w.length ≤ mp) with h1 | h1
            · left
              rw [show (cc ++ cp) ++ w = cc ++ (cp ++ w) from by simp, repRun,
                hT hst hpr]
              dsimp only
              rw [h1]
            · right
              rw [show (cc ++ cp) ++ w = cc ++ (cp ++ w) from by simp, repRun,
                hT hst hpr]
              dsimp only
              rw [h1]

theorem sepThenResc {m : Str → Option (Str × Str)}
    (hmResc : ∀ {x w : Str}, m x = none → w <+: x → m w = none ∨ m w = some (w, []))
    (hmNil : m [] = none) {x w : Str} (h : sepThen m x = none) (hw : w <+: x) :
    sepThen m w = none ∨ sepThen m w = some (w, []) := by
  dsimp only [sepThen] at h ⊢
  cases hsp : spaces1 x with
  | none =>
    left
    rw [spaces1F hsp hw]
  | some p =>
    obtain ⟨sp, z⟩ := p
    rw [hsp] at h
    dsimp only at h
    cases hm : m z with
    | some q =>
      obtain ⟨c1, r1⟩ := q
      rw [hm] at h
      dsimp only at h
      cases h
    | none =>
      obtain ⟨hall, hne, hstop⟩ := spaces1_some hsp
      have hx := spaces1_consumed hsp
      rw [← hx] at hw
      rcases prefix_split_at hw with hws | ⟨z', rfl, hz'⟩
      · left
        have hallw : w.all isSpaceC = true := by
          obtain ⟨t, ht⟩ := hws
          rw [← ht, List.all_append, Bool.and_eq_true] at hall
          exact hall.1
        cases w with
        | nil => rfl
        | cons a t2 =>
          have hb : spaces1 ((a :: t2) ++ ([] : Str)) = some (a :: t2, []) :=
            spaces1_build hallw (by simp) rfl
          rw [List.append_nil] at hb
          rw [hb]
          dsimp only
          rw [hmNil]
      · rw [spaces1_build hall hne (head_getD_mono hz' hstop)]
        dsimp only
        rcases hmResc hm hz' with hn | hr
        · left
          rw [hn]
        · right
          rw [hr]

theorem town_ne {s c r : Str} (h : town s = some (c, r)) : c ≠ [] := (town_lastNS_ne h).2

theorem cgg_ne {s c r : Str} (h : cgg s = some (c, r)) : c ≠ [] := (cgg_lastNS_ne h).2

theorem planDist_ne {s c r : Str} (h : planDist s = some (c, r)) : c ≠ [] :=
  (planDist_lastNS h).2

theorem road_ne {s c r : Str} (h : road s = some (c, r)) : c ≠ [] := (road_lastNS h).2

theorem sepTownT {x c r w : Str} (h : sepThen town x = some (c, r)) (hw : w <+: r) :
    sepThen town (c ++ w) = some (c, w) :=
  sepThenT (fun hy => town_consumed hy) (fun hy hz => townT hy hz)
    (fun hy => town_ne hy) h hw

theorem sepTownF {x w : Str} (h : sepThen town x = none) (hw : w <+: x) :
    sepThen town w = none :=
  sepThenF (fun hy hz => townF hy hz) rfl h hw

theorem sepCggT {x c r w : Str} (h : sepThen cgg x = some (c, r)) (hw : w <+: r) :
    sepThen cgg (c ++ w) = some (c, w) :=
  sepThenT (fun hy => cgg_consumed hy) (fun hy hz => cggT hy hz)
    (fun hy => cgg_ne hy) h hw

theorem sepCggResc {x w : Str} (h : sepThen cgg x = none) (hw : w <+: x) :
    sepThen cgg w = none ∨ sepThen cgg w = some (w, []) :=
  sepThenResc (fun hy hz => cggF hy hz) rfl h hw

theorem sepPlanT {x c r w : Str} (h : sepThen planDist x = some (c, r)) (hw : w <+: r) :
    sepThen planDist (c ++ w) = some (c, w) :=
  sepThenT (fun hy => planDist_consumed hy) (fun hy hz => planDistT hy hz)
    (fun hy => planDist_ne hy) h hw

theorem sepPlanF {x w : Str} (h : sepThen planDist x = none) (hw : w <+: x) :
    sepThen planDist w = none :=
  sepThenF (fun hy hz => planDistF hy hz) rfl h hw

theorem sepRoadT {x c r w : Str} (h : sepThen road x = some (c, r)) (hw : w <+: r) :
    sepThen road (c ++ w) = some (c, w) :=
  sepThenT (fun hy => road_consumed hy) (fun hy hz => roadT hy hz)
    (fun hy => road_ne hy) h hw

theorem sepRoadF {x w : Str} (h : sepThen road x = none) (hw : w <+: x) :
    sepThen road w = none :=
  sepThenF (fun hy hz => roadF hy hz) rfl h hw

theorem lotListStep_ne {s c r : Str} (h : lotListStep s = some (c, r)) : c ≠ [] := by
  dsimp only [lotListStep] at h
  cases hdrop : s.drop (s.takeWhile isSpaceC).length with
  | nil =>
    rw [hdrop] at h
    exact Option.noConfusion h
  | cons ch r2 =>
    rw [hdrop] at h
    dsimp only at h
    by_cases hc0 : ch = ','
    · subst hc0
      rw [if_pos rfl] at h
      cases hinner : lotCore (r2.drop (r2.takeWhile isSpaceC).length) with
      | none =>
        rw [hinner] at h
        exact Option.noConfusion h
      | some p =>
        cases p with
        | mk co r3 =>
          rw [hinner] at h
          dsimp only at h
          simp only [Option.some.injEq, Prod.mk.injEq] at h
          intro hnil
          rw [← h.1] at hnil
          exact absurd (List.append_eq_nil.mp hnil).2 (by simp)
    · rw [if_neg hc0] at h
      exact Option.noConfusion h

theorem lotListT {x c r w : Str} (h : lotList x = some (c, r)) (hw : w <+: r) :
    lotList (c ++ w) = some (c, w) := by
  dsimp only [lotList] at h
  cases hlot : lot x with
  | none =>
    rw [hlot] at h
    exact Option.noConfusion h
  | some p =>
    cases p with
    | mk lc lr =>
      rw [hlot] at h
      simp only [Option.map_some'] at h
      cases hq : repRun lotListStep lr.length lr with
      | mk Q R =>
        rw [hq] at h
        dsimp only at h
        simp only [Option.some.injEq, Prod.mk.injEq] at h
        obtain ⟨hc, hr⟩ := h
        subst hc
        subst hr
        have hQR : Q ++ R = lr := by
          have hcons := repRun_consumed (fun {a b c} hy => lotListStep_consumed hy)
            lr.length lr
          rw [hq] at hcons
          exact hcons
        have hlT := lotT hlot (show Q ++ w <+: lr by
          rw [← hQR]
          exact prefix_append_left _ hw)
        dsimp only [lotList]
        rw [show (lc ++ Q) ++ w = lc ++ (Q ++ w) from by simp, hlT]
        simp only [Option.map_some']
        rw [repRunT_len_plain (fun {a b c} hy => lotListStep_consumed hy)
          (fun {a b c} hy => lotListStep_ne hy)
          (fun {a b c d} hy hz => lotListStepT hy hz)
          (fun {a b} hy hz => lotListStepF hy hz)
          rfl hq (Nat.le_refl _) hw
          (by rw [List.length_append])]

theorem lot_some_head_ns {s lc lr : Str} (h : lot s = some (lc, lr)) :
    ∃ d t0, lc = d :: t0 ∧ isSpaceC d = false := by
  have hdir : ∀ z : Str, Option.map (fun p : Str × Str =>
      (p.1 ++ (lotAfterCore p.2).1, (lotAfterCore p.2).2)) (lotCore z) = some (lc, lr) →
      ∃ d t0, lc = d :: t0 ∧ isSpaceC d = false := by
    intro z hz
    cases hlc : lotCore z with
    | none =>
      rw [hlc] at hz
      exact Option.noConfusion hz
    | some p =>
      cases p with
      | mk co r0 =>
        rw [hlc] at hz
        simp only [Option.map_some'] at hz
        simp only [Option.some.injEq, Prod.mk.injEq] at hz
        obtain ⟨hcv, _⟩ := hz
        obtain ⟨d, t0, hco, hns⟩ := lotCore_some_head_ns hlc
        refine ⟨d, t0 ++ (lotAfterCore r0).1, ?_, hns⟩
        rw [← hcv, hco]
        rfl
  dsimp only [lot] at h
  cases s with
  | nil =>
    dsimp only at h
    exact hdir _ h
  | cons k t =>
    dsimp only at h
    by_cases hsan : k = '산'
    · subst hsan
      rw [if_pos rfl] at h
      cases hinner : lotCore (t.drop (t.takeWhile isSpaceC).length) with
      | none =>
        rw [hinner] at h
        dsimp only at h
        exact hdir _ h
      | some p =>
        cases p with
        | mk co r1 =>
          rw [hinner] at h
          dsimp only at h
          simp only [Option.some.injEq, Prod.mk.injEq] at h
          exact ⟨'산', _, h.1.symm, by decide⟩
    · rw [if_neg hsan] at h
      exact hdir _ h

theorem lotList_head_ns {s L1 L2 : Str} (h : lotList s = some (L1, L2)) :
    ∃ d t0, L1 = d :: t0 ∧ isSpaceC d = false := by
  dsimp only [lotList] at h
  cases hlot : lot s with
  | none =>
    rw [hlot] at h
    exact Option.noConfusion h
  | some p =>
    cases p with
    | mk lc lr =>
      rw [hlot] at h
      simp only [Option.map_some'] at h
      simp only [Option.some.injEq, Prod.mk.injEq] at h
      obtain ⟨hcv, _⟩ := h
      obtain ⟨d, t0, hco, hns⟩ := lot_some_head_ns hlot
      refine ⟨d, t0 ++ (repRun lotListStep lr.length lr).1, ?_, hns⟩
      rw [← hcv, hco]
      rfl

theorem tailOptT {x c r w : Str} (h : tailOpt x = (c, r)) (hw : w <+: r) :
    tailOpt (c ++ w) = (c, w) := by
  have hcr := tailOpt_consumed h
  dsimp only [tailOpt] at h
  cases hA : sepThen planDist x with
  | some pa =>
    obtain ⟨a1, a2⟩ := pa
    rw [hA] at h
    dsimp only at h
    cases hB : sepThen road a2 with
    | some pb =>
      obtain ⟨b1, b2⟩ := pb
      rw [hB] at h
      dsimp only at h
      cases hC : lotList (b2.drop (b2.takeWhile isSpaceC).length) with
      | some pc =>
        obtain ⟨d1, d2⟩ := pc
        rw [hC] at h
        dsimp only at h
        injection h with h1 h2
        subst c
        subst r
        have hb2 := lotList_consumed hC
        have hb2' : b2.takeWhile isSpaceC ++ (d1 ++ d2) = b2 := by
          have hq := takeWhile_append_drop isSpaceC b2
          rw [← hb2] at hq
          exact hq
        have hpr3 : b2.takeWhile isSpaceC ++ (d1 ++ w) <+: b2 := by
          conv_rhs => rw [← hb2']
          exact prefix_append_left _ (prefix_append_left _ hw)
        have hba : b1 ++ b2 = a2 := sepThen_consumed (fun {u v z} hy => road_consumed hy) hB
        have hpr2 : b1 ++ (b2.takeWhile isSpaceC ++ (d1 ++ w)) <+: a2 := by
          conv_rhs => rw [← hba]
          exact prefix_append_left _ hpr3
        obtain ⟨d, t0, hd1, hns⟩ := lotList_head_ns hC
        dsimp only [tailOpt]
        rw [show (a1 ++ b1 ++ (b2.takeWhile isSpaceC ++ d1)) ++ w
            = a1 ++ (b1 ++ (b2.takeWhile isSpaceC ++ (d1 ++ w))) from by simp,
          sepPlanT hA hpr2]
        dsimp only
        rw [sepRoadT hB hpr3]
        dsimp only
        have hsw := takeWhile_prefix_eq (p := isSpaceC) (all_takeWhile isSpaceC b2)
          (b := d1 ++ w)
          (by
            rw [hd1]
            simp only [List.cons_append, List.head?_cons, Option.map_some', Option.getD_some]
            exact hns)
        rw [hsw.1, List.drop_left, lotListT hC hw]
      | none =>
        rw [hC] at h
        dsimp only at h
        injection h with h1 h2
        subst c
        subst r
        have hba : b1 ++ b2 = a2 := sepThen_consumed (fun {u v z} hy => road_consumed hy) hB
        have hpr2 : b1 ++ w <+: a2 := by
          conv_rhs => rw [← hba]
          exact prefix_append_left _ hw
        have hC' : lotList (b2.dropWhile isSpaceC) = none := by
          rw [← drop_takeWhile_length]
          exact hC
        have hLn : lotList (w.dropWhile isSpaceC) = none :=
          lotListF hC' (dropWhile_mono_pfx hw)
        dsimp only [tailOpt]
        rw [show (a1 ++ b1 ++ []) ++ w = a1 ++ (b1 ++ w) from by simp,
          sepPlanT hA hpr2]
        dsimp only
        rw [sepRoadT hB hw]
        dsimp only
        rw [drop_takeWhile_length, hLn]
    | none =>
      rw [hB] at h
      dsimp only at h
      cases hC : lotList (a2.drop (a2.takeWhile isSpaceC).length) with
      | some pc =>
        obtain ⟨d1, d2⟩ := pc
        rw [hC] at h
        dsimp only at h
        injection h with h1 h2
        subst c
        subst r
        have ha2 := lotList_consumed hC
        have ha2' : a2.takeWhile isSpaceC ++ (d1 ++ d2) = a2 := by
          have hq := takeWhile_append_drop isSpaceC a2
          rw [← ha2] at hq
          exact hq
        have hpr3 : a2.takeWhile isSpaceC ++ (d1 ++ w) <+: a2 := by
          conv_rhs => rw [← ha2']
          exact prefix_append_left _ (prefix_append_left _ hw)
        obtain ⟨d, t0, hd1, hns⟩ := lotList_head_ns hC
        dsimp only [tailOpt]
        rw [show (a1 ++ [] ++ (a2.takeWhile isSpaceC ++ d1)) ++ w
            = a1 ++ (a2.takeWhile isSpaceC ++ (d1 ++ w)) from by simp,
          sepPlanT hA hpr3]
        dsimp only
        rw [sepRoadF hB hpr3]
        dsimp only
        have hsw := takeWhile_prefix_eq (p := isSpaceC) (all_takeWhile isSpaceC a2)
          (b := d1 ++ w)
          (by
            rw [hd1]
            simp only [List.cons_append, List.head?_cons, Option.map_some', Option.getD_some]
            exact hns)
        rw [hsw.1, List.drop_left, lotListT hC hw]
      | none =>
        rw [hC] at h
        dsimp only at h
        injection h with h1 h2
        subst c
        subst r
        have hC' : lotList (a2.dropWhile isSpaceC) = none := by
          rw [← drop_takeWhile_length]
          exact hC
        have hLn : lotList (w.dropWhile isSpaceC) = none :=
          lotListF hC' (dropWhile_mono_pfx hw)
        dsimp only [tailOpt]
        rw [show (a1 ++ [] ++ []) ++ w = a1 ++ w from by simp,
          sepPlanT hA hw]
        dsimp only
        rw [sepRoadF hB hw]
        dsimp only
        rw [drop_takeWhile_length, hLn]
  | none =>
    rw [hA] at h
    dsimp only at h
    cases hB : sepThen road x with
    | some pb =>
      obtain ⟨b1, b2⟩ := pb
      rw [hB] at h
      dsimp only at h
      cases hC : lotList (b2.drop (b2.takeWhile isSpaceC).length) with
      | some pc =>
        obtain ⟨d1, d2⟩ := pc
        rw [hC] at h
        dsimp only at h
        injection h with h1 h2
        subst c
        subst r
        have hXw : ([] ++ b1 ++ (b2.takeWhile isSpaceC ++ d1)) ++ w <+: x := by
          conv_rhs => rw [← hcr]
          exact prefix_append_left _ hw
        have hb2 := lotList_consumed hC
        have hb2' : b2.takeWhile isSpaceC ++ (d1 ++ d2) = b2 := by
          have hq := takeWhile_append_drop isSpaceC b2
          rw [← hb2] at hq
          exact hq
        have hpr3 : b2.takeWhile isSpaceC ++ (d1 ++ w) <+: b2 := by
          conv_rhs => rw [← hb2']
          exact prefix_append_left _ (prefix_append_left _ hw)
        obtain ⟨d, t0, hd1, hns⟩ := lotList_head_ns hC
        dsimp only [tailOpt]
        rw [sepPlanF hA hXw]
        dsimp only
        rw [show ([] ++ b1 ++ (b2.takeWhile isSpaceC ++ d1)) ++ w
            = b1 ++ (b2.takeWhile isSpaceC ++ (d1 ++ w)) from by simp,
          sepRoadT hB hpr3]
        dsimp only
        have hsw := takeWhile_prefix_eq (p := isSpaceC) (all_takeWhile isSpaceC b2)
          (b := d1 ++ w)
          (by
            rw [hd1]
            simp only [List.cons_append, List.head?_cons, Option.map_some', Option.getD_some]
            exact hns)
        rw [hsw.1, List.drop_left, lotListT hC hw]
      | none =>
        rw [hC] at h
        dsimp only at h
        injection h with h1 h2
        subst c
        subst r
        have hXw : ([] ++ b1 ++ []) ++ w <+: x := by
          conv_rhs => rw [← hcr]
          exact prefix_append_left _ hw
        have hC' : lotList (b2.dropWhile isSpaceC) = none := by
          rw [← drop_takeWhile_length]
          exact hC
        have hLn : lotList (w.dropWhile isSpaceC) = none :=
          lotListF hC' (dropWhile_mono_pfx hw)
        dsimp only [tailOpt]
        rw [sepPlanF hA hXw]
        dsimp only
        rw [show ([] ++ b1 ++ []) ++ w = b1 ++ w from by simp,
          sepRoadT hB hw]
        dsimp only
        rw [drop_takeWhile_length, hLn]
    | none =>
      rw [hB] at h
      dsimp only at h
      cases hC : lotList (x.drop (x.takeWhile isSpaceC).length) with
      | some pc =>
        obtain ⟨d1, d2⟩ := pc
        rw [hC] at h
        dsimp only at h
        injection h with h1 h2
        subst c
        subst r
        have hXw : ([] ++ [] ++ (x.takeWhile isSpaceC ++ d1)) ++ w <+: x := by
          conv_rhs => rw [← hcr]
          exact prefix_append_left _ hw
        have hx2 := lotList_consumed hC
        have hx2' : x.takeWhile isSpaceC ++ (d1 ++ d2) = x := by
          have hq := takeWhile_append_drop isSpaceC x
          rw [← hx2] at hq
          exact hq
        have hpr3 : x.takeWhile isSpaceC ++ (d1 ++ w) <+: x := by
          conv_rhs => rw [← hx2']
          exact prefix_append_left _ (prefix_append_left _ hw)
        obtain ⟨d, t0, hd1, hns⟩ := lotList_head_ns hC
        dsimp only [tailOpt]
        rw [sepPlanF hA hXw]
        dsimp only
        rw [sepRoadF hB hXw]
        dsimp only
        rw [show ([] ++ [] ++ (x.takeWhile isSpaceC ++ d1)) ++ w
            = x.takeWhile isSpaceC ++ (d1 ++ w) from by simp]
        have hsw := takeWhile_prefix_eq (p := isSpaceC) (all_takeWhile isSpaceC x)
          (b := d1 ++ w)
          (by
            rw [hd1]
            simp only [List.cons_append, List.head?_cons, Option.map_some', Option.getD_some]
            exact hns)
        rw [hsw.1, List.drop_left, lotListT hC hw]
      | none =>
        rw [hC] at h
        dsimp only at h
        injection h with h1 h2
        subst c
        subst r
        have hXw : ([] ++ [] ++ []) ++ w <+: x := by
          conv_rhs => rw [← hcr]
          exact prefix_append_left _ hw
        have hC' : lotList (x.dropWhile isSpaceC) = none := by
          rw [← drop_takeWhile_length]
          exact hC
        have hwx : w <+: x := by
          rw [show ((([] : Str) ++ [] ++ []) ++ w) = w from by simp] at hXw
          exact hXw
        have hLn : lotList (w.dropWhile isSpaceC) = none :=
          lotListF hC' (dropWhile_mono_pfx hwx)
        dsimp only [tailOpt]
        rw [show ((([] : Str) ++ [] ++ []) ++ w) = w from by simp,
          sepPlanF hA hwx]
        dsimp only
        rw [sepRoadF hB hwx]
        dsimp only
        rw [drop_takeWhile_length, hLn]

theorem firstSome_litM_split {β : Type} {alts : List Str} {s : Str}
    {f : Str × Str → Option β} {b : β}
    (h : firstSome (litMatches alts s) f = some b) :
    ∃ A1 lit A2, alts = A1 ++ lit :: A2 ∧
      (∀ lit2, lit2 ∈ A1 → s.take lit2.length = lit2 →
        f (lit2, s.drop lit2.length) = none) ∧
      s.take lit.length = lit ∧ f (lit, s.drop lit.length) = some b := by
  induction alts with
  | nil => exact Option.noConfusion h
  | cons a as ih =>
    dsimp only [litMatches, List.filterMap_cons] at h
    by_cases hpa : s.take a.length = a
    · rw [if_pos hpa] at h
      dsimp only at h
      rw [firstSome] at h
      cases hfa : f (a, s.drop a.length) with
      | some b2 =>
        rw [hfa] at h
        dsimp only at h
        injection h with hb
        subst hb
        exact ⟨[], a, as, rfl, by intro l2 hm; exact absurd hm (List.not_mem_nil l2), hpa, hfa⟩
      | none =>
        rw [hfa] at h
        dsimp only at h
        obtain ⟨A1, lit, A2, hsplit, hA1, hlit, hf⟩ := ih h
        refine ⟨a :: A1, lit, A2, by rw [hsplit]; rfl, ?_, hlit, hf⟩
        intro l2 hm htake
        rcases List.mem_cons.mp hm with rfl | hm2
        · exact hfa
        · exact hA1 l2 hm2 htake
    · rw [if_neg hpa] at h
      dsimp only at h
      obtain ⟨A1, lit, A2, hsplit, hA1, hlit, hf⟩ := ih h
      refine ⟨a :: A1, lit, A2, by rw [hsplit]; rfl, ?_, hlit, hf⟩
      intro l2 hm htake
      rcases List.mem_cons.mp hm with rfl | hm2
      · exact absurd htake hpa
      · exact hA1 l2 hm2 htake

theorem firstSome_litM_build {β : Type} {A1 : List Str} {lit : Str} {A2 : List Str}
    {w : Str} {f : Str × Str → Option β} {v : β}
    (hA1 : ∀ lit2, lit2 ∈ A1 → w.take lit2.length = lit2 →
      f (lit2, w.drop lit2.length) = none ∨ f (lit2, w.drop lit2.length) = some v)
    (hlit : w.take lit.length = lit)
    (hf : f (lit, w.drop lit.length) = some v) :
    firstSome (litMatches (A1 ++ lit :: A2) w) f = some v := by
  induction A1 with
  | nil =>
    rw [List.nil_append]
    dsimp only [litMatches, List.filterMap_cons]
    rw [if_pos hlit]
    dsimp only
    rw [firstSome, hf]
  | cons a A1' ih =>
    rw [List.cons_append]
    dsimp only [litMatches, List.filterMap_cons]
    by_cases hpa : w.take a.length = a
    · rw [if_pos hpa]
      dsimp only
      rw [firstSome]
      rcases hA1 a (List.mem_cons_self a A1') hpa with hn | hs
      · rw [hn]
        dsimp only
        exact ih (fun l2 hm ht => hA1 l2 (List.mem_cons_of_mem a hm) ht)
      · rw [hs]
    · rw [if_neg hpa]
      dsimp only
      exact ih (fun l2 hm ht => hA1 l2 (List.mem_cons_of_mem a hm) ht)

theorem firstSome_litM_none {β : Type} {alts : List Str} {s : Str}
    {f : Str × Str → Option β}
    (h : firstSome (litMatches alts s) f = none) :
    ∀ lit, lit ∈ alts → s.take lit.length = lit → f (lit, s.drop lit.length) = none := by
  induction alts with
  | nil =>
    intro lit hm
    exact absurd hm (List.not_mem_nil lit)
  | cons a as ih =>
    dsimp only [litMatches, List.filterMap_cons] at h
    intro lit hm htake
    by_cases hpa : s.take a.length = a
    · rw [if_pos hpa] at h
      dsimp only at h
      rw [firstSome] at h
      cases hfa : f (a, s.drop a.length) with
      | some b2 =>
        rw [hfa] at h
        dsimp only at h
        exact Option.noConfusion h
      | none =>
        rw [hfa] at h
        dsimp only at h
        rcases List.mem_cons.mp hm with rfl | hm2
        · exact hfa
        · exact ih h lit hm2 htake
    · rw [if_neg hpa] at h
      dsimp only at h
      rcases List.mem_cons.mp hm with rfl | hm2
      · exact absurd htake hpa
      · exact ih h lit hm2 htake

theorem firstSome_litM_none_build {β : Type} {alts : List Str} {w : Str}
    {f : Str × Str → Option β}
    (hall : ∀ lit, lit ∈ alts → w.take lit.length = lit →
      f (lit, w.drop lit.length) = none) :
    firstSome (litMatches alts w) f = none := by
  induction alts with
  | nil => rfl
  | cons a as ih =>
    dsimp only [litMatches, List.filterMap_cons]
    by_cases hpa : w.take a.length = a
    · rw [if_pos hpa]
      dsimp only
      rw [firstSome, hall a (List.mem_cons_self a as) hpa]
      dsimp only
      exact ih (fun l2 hm ht => hall l2 (List.mem_cons_of_mem a hm) ht)
    · rw [if_neg hpa]
      dsimp only
      exact ih (fun l2 hm ht => hall l2 (List.mem_cons_of_mem a hm) ht)

theorem firstSome_litM_resc_build {β : Type} {alts : List Str} {w : Str}
    {f : Str × Str → Option β} {v : β}
    (hall : ∀ lit, lit ∈ alts → w.take lit.length = lit →
      f (lit, w.drop lit.length) = none ∨ f (lit, w.drop lit.length) = some v) :
    firstSome (litMatches alts w) f = none ∨ firstSome (litMatches alts w) f = some v := by
  induction alts with
  | nil => exact Or.inl rfl
  | cons a as ih =>
    dsimp only [litMatches, List.filterMap_cons]
    by_cases hpa : w.take a.length = a
    · rw [if_pos hpa]
      dsimp only
      rw [firstSome]
      rcases hall a (List.mem_cons_self a as) hpa with hn | hs
      · rw [hn]
        dsimp only
        exact ih (fun l2 hm ht => hall l2 (List.mem_cons_of_mem a hm) ht)
      · rw [hs]
        exact Or.inr rfl
    · rw [if_neg hpa]
      dsimp only
      exact ih (fun l2 hm ht => hall l2 (List.mem_cons_of_mem a hm) ht)

theorem repCgg_nil (n : Nat) : repRun (sepThen cgg) n [] = ([], []) :=
  repRun_nil rfl n

theorem repTown_nil (n : Nat) : repRun (sepThen town) n [] = ([], []) :=
  repRun_nil rfl n

theorem tailOpt_nil : tailOpt [] = ([], []) := rfl

theorem spaces1_shape {u a b : Str} (h : spaces1 u = some (a, b)) :
    a = u.takeWhile isSpaceC ∧ b = u.drop (u.takeWhile isSpaceC).length := by
  dsimp only [spaces1] at h
  split at h
  · cases h
  · simp only [Option.some.injEq, Prod.mk.injEq] at h
    exact ⟨h.1.symm, h.2.symm⟩

theorem rawCity_shape {z rc r2 : Str} (h : rawCity z = some (rc, r2)) :
    rc = z.takeWhile isKo ∧ r2 = z.drop (z.takeWhile isKo).length ∧
      2 ≤ (z.takeWhile isKo).length := by
  dsimp only [rawCity] at h
  by_cases h2 : 2 ≤ (z.takeWhile isKo).length
  · rw [if_pos h2] at h
    simp only [Option.some.injEq, Prod.mk.injEq] at h
    exact ⟨h.1.symm, h.2.symm, h2⟩
  · rw [if_neg h2] at h
    cases h

theorem spaces1_agree {x w spx zx spw zw : Str} (hx : spaces1 x = some (spx, zx))
    (hw2 : spaces1 w = some (spw, zw)) (hpr : w <+: x) (hznil : zw ≠ []) :
    spw = spx ∧ zw <+: zx := by
  obtain ⟨hax, hbx⟩ := spaces1_shape hx
  obtain ⟨haw, hbw⟩ := spaces1_shape hw2
  subst hax
  subst hbx
  subst haw
  subst hbw
  have hsub : w.takeWhile isSpaceC <+: x.takeWhile isSpaceC := takeWhile_mono_pfx hpr
  have hlen_le := hsub.length_le
  have hlen_ge : (x.takeWhile isSpaceC).length ≤ (w.takeWhile isSpaceC).length := by
    by_contra hlt
    push_neg at hlt
    obtain ⟨hallw, hnew, hstopw⟩ := spaces1_some hw2
    cases hd : w.drop (w.takeWhile isSpaceC).length with
    | nil => exact hznil hd
    | cons d tail =>
      have hdns : isSpaceC d = false := by
        rw [hd] at hstopw
        simpa using hstopw
      have h1 : w[(w.takeWhile isSpaceC).length]? = some d := by
        have hq := congrArg List.head? hd
        rw [head?_drop] at hq
        simpa using hq
      have hjw : (w.takeWhile isSpaceC).length < w.length := by
        have hld := congrArg List.length hd
        rw [List.length_drop, List.length_cons] at hld
        omega
      have h2 : x[(w.takeWhile isSpaceC).length]? = some d := by
        rw [← getElem?_eq_of_prefix hpr hjw]
        exact h1
      have h3 : x[(w.takeWhile isSpaceC).length]?
          = (x.takeWhile isSpaceC)[(w.takeWhile isSpaceC).length]? := by
        conv_lhs => rw [← takeWhile_append_drop isSpaceC x]
        rw [List.getElem?_append_left hlt]
      have hdm : d ∈ x.takeWhile isSpaceC := by
        have h4 : (x.takeWhile isSpaceC)[(w.takeWhile isSpaceC).length]? = some d := by
          rw [← h3]
          exact h2
        obtain ⟨hlt2, hget⟩ := List.getElem?_eq_some.mp h4
        rw [← hget]
        exact List.getElem_mem _
      have := List.all_eq_true.mp (all_takeWhile isSpaceC x) d hdm
      rw [hdns] at this
      cases this
  have hspeq : w.takeWhile isSpaceC = x.takeWhile isSpaceC :=
    hsub.eq_of_length (Nat.le_antisymm hlen_le hlen_ge)
  refine ⟨hspeq, ?_⟩
  rw [hspeq]
  exact prefix_drop_mono hpr _

theorem sepThen_rawCity_trunc {x w c1 s1 c2 s2 : Str}
    (hx : sepThen rawCity x = some (c1, s1)) (hpr : w <+: x)
    (hw : sepThen rawCity w = some (c2, s2)) :
    s2 = [] ∨ (c2 = c1 ∧ s2 <+: s1) := by
  dsimp only [sepThen] at hx hw
  cases hsx : spaces1 x with
  | none =>
    rw [hsx] at hx
    exact Option.noConfusion hx
  | some px =>
    cases px with
    | mk spx zx =>
      rw [hsx] at hx
      dsimp only at hx
      cases hrx : rawCity zx with
      | none =>
        rw [hrx] at hx
        exact Option.noConfusion hx
      | some qx =>
        cases qx with
        | mk rcx r2x =>
          rw [hrx] at hx
          dsimp only at hx
          simp only [Option.some.injEq, Prod.mk.injEq] at hx
          obtain ⟨hc1, hs1⟩ := hx
          subst hc1
          subst hs1
          cases hsw : spaces1 w with
          | none =>
            rw [hsw] at hw
            exact Option.noConfusion hw
          | some pw =>
            cases pw with
            | mk spw zw =>
              rw [hsw] at hw
              dsimp only at hw
              cases hrw : rawCity zw with
              | none =>
                rw [hrw] at hw
                exact Option.noConfusion hw
              | some qw =>
                cases qw with
                | mk rcw r2w =>
                  rw [hrw] at hw
                  dsimp only at hw
                  simp only [Option.some.injEq, Prod.mk.injEq] at hw
                  obtain ⟨hc2, hs2⟩ := hw
                  subst hc2
                  subst hs2
                  obtain ⟨hrcx, hr2x, hlx⟩ := rawCity_shape hrx
                  obtain ⟨hrcw, hr2w, hlw⟩ := rawCity_shape hrw
                  subst hrcx
                  subst hr2x
                  subst hrcw
                  subst hr2w
                  by_cases hnil : zw.drop (zw.takeWhile isKo).length = []
                  · left
                    exact hnil
                  · right
                    have hznil : zw ≠ [] := by
                      intro hz
                      rw [hz] at hlw
                      simp at hlw
                    obtain ⟨hspeq, hzpr⟩ := spaces1_agree hsx hsw hpr hznil
                    rw [drop_takeWhile_length] at hnil
                    cases hdw : zw.dropWhile isKo with
                    | nil => exact absurd hdw hnil
                    | cons e tail =>
                      have hek : isKo e = false := by
                        have hq := dropWhile_head_false isKo zw
                        rw [hdw] at hq
                        simpa using hq
                      have hzwsplit : zw.takeWhile isKo ++ (e :: tail) = zw := by
                        rw [← hdw]
                        exact List.takeWhile_append_dropWhile isKo zw
                      obtain ⟨ext, hext⟩ := hzpr
                      have hzx2 : zx = zw.takeWhile isKo ++ (e :: (tail ++ ext)) := by
                        rw [← hext]
                        conv_lhs => rw [← hzwsplit]
                        simp
                      have hpx := takeWhile_prefix_eq (p := isKo)
                        (all_takeWhile isKo zw) (b := e :: (tail ++ ext))
                        (by
                          simp only [List.head?_cons, Option.map_some', Option.getD_some]
                          exact hek)
                      constructor
                      · rw [hspeq, hzx2, hpx.1]
                      · rw [drop_takeWhile_length, drop_takeWhile_length, hdw, hzx2, hpx.2]
                        exact ⟨ext, by simp⟩

theorem sejongBrF {s w : Str} (h : sejongBr s = none) (hw : w <+: s) :
    sejongBr w = none := by
  dsimp only [sejongBr] at h ⊢
  apply firstSome_litM_none_build
  intro lit hm htw
  have hts := take_eq_of_pfx hw htw rfl
  exact absurd (firstSome_litM_none h lit hm hts) (by simp)

theorem provEtcBrResc {s w : Str} (h : provEtcBr s = none) (hw : w <+: s) :
    provEtcBr w = none ∨ provEtcBr w = some (w, []) := by
  dsimp only [provEtcBr] at h ⊢
  apply firstSome_litM_resc_build
  intro lit hm htw
  have hts := take_eq_of_pfx hw htw rfl
  have hfs := firstSome_litM_none h lit hm hts
  dsimp only at hfs
  cases hsc : sepThen cgg (s.drop lit.length) with
  | some p =>
    obtain ⟨c1, s2⟩ := p
    rw [hsc] at hfs
    dsimp only at hfs
    exact Option.noConfusion hfs
  | none =>
    rcases sepCggResc hsc (prefix_drop_mono hw lit.length) with hn | hr
    · left
      dsimp only
      rw [hn]
    · right
      dsimp only
      rw [hr]
      dsimp only
      rw [repCgg_nil]
      dsimp only
      rw [repTown_nil]
      dsimp only
      rw [tailOpt_nil]
      dsimp only
      have hlw : lit ++ w.drop lit.length = w := by
        conv_rhs => rw [← List.take_append_drop lit.length w]
        rw [htw]
      simp only [List.append_nil]
      rw [hlw]

theorem sggOnlyBrResc {s w : Str} (h : sggOnlyBr s = none) (hw : w <+: s) :
    sggOnlyBr w = none ∨ sggOnlyBr w = some (w, []) := by
  have hcgg : cgg s = none := by
    dsimp only [sggOnlyBr] at h
    cases hc : cgg s with
    | none => rfl
    | some p =>
      obtain ⟨c1, s2⟩ := p
      rw [hc] at h
      dsimp only at h
      exact Option.noConfusion h
  rcases cggF hcgg hw with hn | hr
  · left
    dsimp only [sggOnlyBr]
    rw [hn]
  · right
    dsimp only [sggOnlyBr]
    rw [hr]
    dsimp only
    rw [repCgg_nil]
    dsimp only
    rw [repTown_nil]
    dsimp only
    rw [tailOpt_nil]
    simp only [List.append_nil]

theorem provRawBrF {s w : Str} (h : provRawBr s = none) (hw : w <+: s) :
    provRawBr w = none := by
  dsimp only [provRawBr] at h ⊢
  apply firstSome_litM_none_build
  intro lit hm htw
  have hts := take_eq_of_pfx hw htw rfl
  have hfs := firstSome_litM_none h lit hm hts
  dsimp only at hfs ⊢
  have hdpr : w.drop lit.length <+: s.drop lit.length := prefix_drop_mono hw lit.length
  cases hrcw : sepThen rawCity (w.drop lit.length) with
  | none => rfl
  | some pw =>
    obtain ⟨rcw, s2w⟩ := pw
    cases hrcs : sepThen rawCity (s.drop lit.length) with
    | none =>
      exfalso
      have hq := sepThenF (fun hy hz => rawCityF hy hz) rfl hrcs hdpr
      rw [hrcw] at hq
      exact Option.noConfusion hq
    | some ps =>
      obtain ⟨rcs, s2s⟩ := ps
      rw [hrcs] at hfs
      dsimp only at hfs
      cases hts2 : sepThen town s2s with
      | some q =>
        obtain ⟨t1, s3⟩ := q
        rw [hts2] at hfs
        dsimp only at hfs
        exact Option.noConfusion hfs
      | none =>
        dsimp only
        rcases sepThen_rawCity_trunc hrcs hdpr hrcw with hnil | ⟨hceq, hspr⟩
        · subst hnil
          rw [sepThen_nil]
        · rw [sepTownF hts2 hspr]

theorem rawCity_ne {s c r : Str} (h : rawCity s = some (c, r)) : c ≠ [] :=
  (rawCity_lastNS_ne h).2

theorem tailOpt_self {R TL r : Str} (h : tailOpt R = (TL, r)) : tailOpt TL = (TL, []) := by
  have q := tailOptT h List.nil_prefix
  rwa [List.append_nil] at q

theorem repTownT {n : Nat} {x T R2 w : Str} (h : repRun (sepThen town) n x = (T, R2))
    (hw : w <+: R2) : repRun (sepThen town) n (T ++ w) = (T, w) :=
  repRunT_plain (fun {a b c} hy => sepThen_consumed (fun {d e f2} hz => town_consumed hz) hy)
    (fun {a b c d} hy hz => sepTownT hy hz) (fun {a b} hy hz => sepTownF hy hz) h hw

theorem sepCgg_ne {y cc rr : Str} (h : sepThen cgg y = some (cc, rr)) : cc ≠ [] :=
  (sepThen_lastNS (fun {d e f2} hz => cgg_lastNS_ne hz) h).2

theorem repCggT_resc {n m : Nat} {x C R w : Str} (h : repRun (sepThen cgg) n x = (C, R))
    (hlen : x.length ≤ n) (hw : w <+: R) (hm : C.length + w.length ≤ m) :
    repRun (sepThen cgg) m (C ++ w) = (C, w) ∨
    repRun (sepThen cgg) m (C ++ w) = (C ++ w, []) :=
  repRunT_len_resc
    (fun {a b c} hy => sepThen_consumed (fun {d e f2} hz => cgg_consumed hz) hy)
    (fun {a b c} hy => sepCgg_ne hy)
    (fun {a b c d} hy hz => sepCggT hy hz)
    (fun {a b} hy hz => sepCggResc hy hz)
    (sepThen_nil cgg) h hlen hw hm

theorem sepRawT {x c r w : Str} (h : sepThen rawCity x = some (c, r)) (hw : w <+: r) :
    sepThen rawCity (c ++ w) = some (c, w) :=
  sepThenT (fun {a b c2} hy => rawCity_consumed hy) (fun {a b c2 d} hy hz => rawCityT hy hz)
    (fun {a b c2} hy => rawCity_ne hy) h hw

theorem sejongBrSelf {s c r : Str} (h : sejongBr s = some (c, r)) :
    sejongBr c = some (c, []) := by
  have hcs : c <+: s := ⟨r, sejongBr_consumed h⟩
  dsimp only [sejongBr] at h ⊢
  obtain ⟨A1, lit, A2, hsplit, hA1, hlit, hf⟩ := firstSome_litM_split h
  dsimp only at hf
  cases hrep : repRun (sepThen town) 3 (s.drop lit.length) with
  | mk T R1 =>
    rw [hrep] at hf
    dsimp only at hf
    cases htl : tailOpt R1 with
    | mk TL r2 =>
      rw [htl] at hf
      dsimp only at hf
      simp only [Option.some.injEq, Prod.mk.injEq] at hf
      obtain ⟨hc, hr⟩ := hf
      subst hc
      subst hr
      have hTLpr : TL <+: R1 := ⟨r2, tailOpt_consumed htl⟩
      have hrep2 : repRun (sepThen town) 3 (T ++ TL) = (T, TL) := repTownT hrep hTLpr
      have htl2 : tailOpt TL = (TL, []) := tailOpt_self htl
      rw [hsplit]
      apply firstSome_litM_build
      · intro lit2 hm2 htc
        exact absurd (hA1 lit2 hm2 (take_eq_of_pfx hcs htc rfl)) (by simp)
      · have hpre : lit <+: lit ++ T ++ TL := by
          rw [List.append_assoc]
          exact ⟨T ++ TL, rfl⟩
        exact (List.prefix_iff_eq_take.mp hpre).symm
      · have hdrop : (lit ++ T ++ TL).drop lit.length = T ++ TL := by
          rw [List.append_assoc, List.drop_left]
        dsimp only
        rw [hdrop, hrep2]
        dsimp only
        rw [htl2]

theorem provTownBrSelf {s c r : Str} (h : provTownBr s = some (c, r)) :
    provTownBr c = some (c, []) := by
  have hcs : c <+: s := ⟨r, provTownBr_consumed h⟩
  dsimp only [provTownBr] at h ⊢
  obtain ⟨A1, lit, A2, hsplit, hA1, hlit, hf⟩ := firstSome_litM_split h
  dsimp only at hf
  cases hts : sepThen town (s.drop lit.length) with
  | none =>
    rw [hts] at hf
    dsimp only at hf
    exact Option.noConfusion hf
  | some p =>
    obtain ⟨T1, S2⟩ := p
    rw [hts] at hf
    dsimp only at hf
    cases hrep : repRun (sepThen town) 2 S2 with
    | mk T R2 =>
      rw [hrep] at hf
      dsimp only at hf
      cases htl : tailOpt R2 with
      | mk TL r2 =>
        rw [htl] at hf
        dsimp only at hf
        simp only [Option.some.injEq, Prod.mk.injEq] at hf
        obtain ⟨hc, hr⟩ := hf
        subst hc
        subst hr
        have hTR : T ++ R2 = S2 := by
          have q := repRun_consumed
            (fun {a b c2} hy => sepThen_consumed (fun {d e f2} hz => town_consumed hz) hy) 2 S2
          rw [hrep] at q
          exact q
        have hTLpr : TL <+: R2 := ⟨r2, tailOpt_consumed htl⟩
        have hTTL : T ++ TL <+: S2 := by
          rw [← hTR]
          exact prefix_append_left _ hTLpr
        have hts2 : sepThen town (T1 ++ (T ++ TL)) = some (T1, T ++ TL) := sepTownT hts hTTL
        have hrep2 := repTownT hrep hTLpr
        have htl2 := tailOpt_self htl
        rw [hsplit]
        apply firstSome_litM_build
        · intro lit2 hm2 htc
          have hfs2 := hA1 lit2 hm2 (take_eq_of_pfx hcs htc rfl)
          dsimp only at hfs2
          left
          dsimp only
          cases hsc2 : sepThen town (s.drop lit2.length) with
          | some q2 =>
            obtain ⟨u1, u2⟩ := q2
            rw [hsc2] at hfs2
            dsimp only at hfs2
            exact absurd hfs2 (by simp)
          | none =>
            rw [sepTownF hsc2 (prefix_drop_mono hcs lit2.length)]
        · have hpre : lit <+: lit ++ T1 ++ T ++ TL := ⟨T1 ++ T ++ TL, by simp⟩
          exact (List.prefix_iff_eq_take.mp hpre).symm
        · have hdrop : (lit ++ T1 ++ T ++ TL).drop lit.length = T1 ++ (T ++ TL) := by
            rw [show lit ++ T1 ++ T ++ TL = lit ++ (T1 ++ (T ++ TL)) from by simp,
              List.drop_left]
          dsimp only
          rw [hdrop, hts2]
          dsimp only
          rw [hrep2]
          dsimp only
          rw [htl2]

theorem sggOnlyBrSelf {s c r : Str} (h : sggOnlyBr s = some (c, r)) :
    sggOnlyBr c = some (c, []) := by
  dsimp only [sggOnlyBr] at h ⊢
  cases hc1 : cgg s with
  | none =>
    rw [hc1] at h
    dsimp only at h
    exact Option.noConfusion h
  | some p =>
    obtain ⟨C1, S2⟩ := p
    rw [hc1] at h
    dsimp only at h
    cases hcs : repRun (sepThen cgg) S2.length S2 with
    | mk CS R1 =>
      rw [hcs] at h
      dsimp only at h
      cases hrep : repRun (sepThen town) 3 R1 with
      | mk T R2 =>
        rw [hrep] at h
        dsimp only at h
        cases htl : tailOpt R2 with
        | mk TL r2 =>
          rw [htl] at h
          dsimp only at h
          simp only [Option.some.injEq, Prod.mk.injEq] at h
          obtain ⟨hc, hr⟩ := h
          subst hc
          subst hr
          have hCSR : CS ++ R1 = S2 := by
            have q := repRun_consumed
              (fun {a b c2} hy => sepThen_consumed (fun {d e f2} hz => cgg_consumed hz) hy)
              S2.length S2
            rw [hcs] at q
            exact q
          have hTR : T ++ R2 = R1 := by
            have q := repRun_consumed
              (fun {a b c2} hy => sepThen_consumed (fun {d e f2} hz => town_consumed hz) hy)
              3 R1
            rw [hrep] at q
            exact q
          have hTLpr : TL <+: R2 := ⟨r2, tailOpt_consumed htl⟩
          have hTTL : T ++ TL <+: R1 := by
            rw [← hTR]
            exact prefix_append_left _ hTLpr
          have hcgg3 : cgg (C1 ++ CS ++ T ++ TL) = some (C1, CS ++ (T ++ TL)) := by
            rw [show (C1 ++ CS ++ T ++ TL : Str) = C1 ++ (CS ++ (T ++ TL)) from by simp]
            exact cggT hc1 (by
              rw [← hCSR]
              exact prefix_append_left _ hTTL)
          rw [hcgg3]
          dsimp only
          rcases repCggT_resc hcs (Nat.le_refl _) hTTL
              ((List.length_append CS (T ++ TL)).symm.le) with hres | hres
          · rw [hres]
            dsimp only
            rw [repTownT hrep hTLpr]
            dsimp only
            rw [tailOpt_self htl]
          · rw [hres]
            dsimp only
            rw [repTown_nil]
            dsimp only
            rw [tailOpt_nil]
            simp [List.append_assoc]

theorem provEtcBrSelf {s c r : Str} (h : provEtcBr s = some (c, r)) :
    provEtcBr c = some (c, []) := by
  have hcs : c <+: s := ⟨r, provEtcBr_consumed h⟩
  dsimp only [provEtcBr] at h ⊢
  obtain ⟨A1, lit, A2, hsplit, hA1, hlit, hf⟩ := firstSome_litM_split h
  dsimp only at hf
  cases hsc : sepThen cgg (s.drop lit.length) with
  | none =>
    rw [hsc] at hf
    dsimp only at hf
    exact Option.noConfusion hf
  | some p =>
    obtain ⟨C1, S2⟩ := p
    rw [hsc] at hf
    dsimp only at hf
    cases hcs2 : repRun (sepThen cgg) S2.length S2 with
    | mk CS R1 =>
      rw [hcs2] at hf
      dsimp only at hf
      cases hrep : repRun (sepThen town) 3 R1 with
      | mk T R2 =>
        rw [hrep] at hf
        dsimp only at hf
        cases htl : tailOpt R2 with
        | mk TL r2 =>
          rw [htl] at hf
          dsimp only at hf
          simp only [Option.some.injEq, Prod.mk.injEq] at hf
          obtain ⟨hc, hr⟩ := hf
          subst hc
          subst hr
          have hCSR : CS ++ R1 = S2 := by
            have q := repRun_consumed
              (fun {a b c2} hy => sepThen_consumed (fun {d e f2} hz => cgg_consumed hz) hy)
              S2.length S2
            rw [hcs2] at q
            exact q
          have hTR : T ++ R2 = R1 := by
            have q := repRun_consumed
              (fun {a b c2} hy => sepThen_consumed (fun {d e f2} hz => town_consumed hz) hy)
              3 R1
            rw [hrep] at q
            exact q
          have hTLpr : TL <+: R2 := ⟨r2, tailOpt_consumed htl⟩
          have hTTL : T ++ TL <+: R1 := by
            rw [← hTR]
            exact prefix_append_left _ hTLpr
          have hCSTL : CS ++ (T ++ TL) <+: S2 := by
            rw [← hCSR]
            exact prefix_append_left _ hTTL
          have hsc2 : sepThen cgg (C1 ++ (CS ++ (T ++ TL))) = some (C1, CS ++ (T ++ TL)) :=
            sepCggT hsc hCSTL
          rw [hsplit]
          apply firstSome_litM_build
          · intro lit2 hm2 htc
            have hfs2 := hA1 lit2 hm2 (take_eq_of_pfx hcs htc rfl)
            dsimp only at hfs2
            cases hsc3 : sepThen cgg (s.drop lit2.length) with
            | some q2 =>
              obtain ⟨u1, u2⟩ := q2
              rw [hsc3] at hfs2
              dsimp only at hfs2
              exact absurd hfs2 (by simp)
            | none =>
              rcases sepCggResc hsc3 (prefix_drop_mono hcs lit2.length) with hn | hr4
              · left
                dsimp only
                rw [hn]
              · right
                dsimp only
                rw [hr4]
                dsimp only
                rw [repCgg_nil]
                dsimp only
                rw [repTown_nil]
                dsimp only
                rw [tailOpt_nil]
                dsimp only
                have hlw : lit2 ++ (lit ++ C1 ++ CS ++ T ++ TL).drop lit2.length
                    = lit ++ C1 ++ CS ++ T ++ TL := by
                  conv_rhs => rw [← List.take_append_drop lit2.length
                    (lit ++ C1 ++ CS ++ T ++ TL)]
                  rw [htc]
                simp only [List.append_nil]
                rw [hlw]
          · have hpre : lit <+: lit ++ C1 ++ CS ++ T ++ TL := ⟨C1 ++ CS ++ T ++ TL, by simp⟩
            exact (List.prefix_iff_eq_take.mp hpre).symm
          · have hdrop : (lit ++ C1 ++ CS ++ T ++ TL).drop lit.length
                = C1 ++ (CS ++ (T ++ TL)) := by
              rw [show lit ++ C1 ++ CS ++ T ++ TL
                  = lit ++ (C1 ++ (CS ++ (T ++ TL))) from by simp, List.drop_left]
            dsimp only
            rw [hdrop, hsc2]
            dsimp only
            rcases repCggT_resc hcs2 (Nat.le_refl _) hTTL
                ((List.length_append CS (T ++ TL)).symm.le) with hres | hres
            · rw [hres]
              dsimp only
              rw [repTownT hrep hTLpr]
              dsimp only
              rw [tailOpt_self htl]
            · rw [hres]
              dsimp only
              rw [repTown_nil]
              dsimp only
              rw [tailOpt_nil]
              simp [List.append_assoc]

theorem provRawBrSelf {s c r : Str} (h : provRawBr s = some (c, r)) :
    provRawBr c = some (c, []) := by
  have hcs : c <+: s := ⟨r, provRawBr_consumed h⟩
  dsimp only [provRawBr] at h ⊢
  obtain ⟨A1, lit, A2, hsplit, hA1, hlit, hf⟩ := firstSome_litM_split h
  dsimp only at hf
  cases hrc : sepThen rawCity (s.drop lit.length) with
  | none =>
    rw [hrc] at hf
    dsimp only at hf
    exact Option.noConfusion hf
  | some p =>
    obtain ⟨RC, S2⟩ := p
    rw [hrc] at hf
    dsimp only at hf
    cases hts : sepThen town S2 with
    | none =>
      rw [hts] at hf
      dsimp only at hf
      exact Option.noConfusion hf
    | some q =>
      obtain ⟨T1, S3⟩ := q
      rw [hts] at hf
      dsimp only at hf
      cases hrep : repRun (sepThen town) 2 S3 with
      | mk T R2 =>
        rw [hrep] at hf
        dsimp only at hf
        cases htl : tailOpt R2 with
        | mk TL r2 =>
          rw [htl] at hf
          dsimp only at hf
          simp only [Option.some.injEq, Prod.mk.injEq] at hf
          obtain ⟨hc, hr⟩ := hf
          subst hc
          subst hr
          have hT1S : T1 ++ S3 = S2 :=
            sepThen_consumed (fun {d e f2} hz => town_consumed hz) hts
          have hTR : T ++ R2 = S3 := by
            have q := repRun_consumed
              (fun {a b c2} hy => sepThen_consumed (fun {d e f2} hz => town_consumed hz) hy)
              2 S3
            rw [hrep] at q
            exact q
          have hTLpr : TL <+: R2 := ⟨r2, tailOpt_consumed htl⟩
          have hTTL : T ++ TL <+: S3 := by
            rw [← hTR]
            exact prefix_append_left _ hTLpr
          have hT1TL : T1 ++ (T ++ TL) <+: S2 := by
            rw [← hT1S]
            exact prefix_append_left _ hTTL
          have hrc2 : sepThen rawCity (RC ++ (T1 ++ (T ++ TL)))
              = some (RC, T1 ++ (T ++ TL)) := sepRawT hrc hT1TL
          have hts2 : sepThen town (T1 ++ (T ++ TL)) = some (T1, T ++ TL) :=
            sepTownT hts hTTL
          rw [hsplit]
          apply firstSome_litM_build
          · intro lit2 hm2 htc
            have hfs2 := hA1 lit2 hm2 (take_eq_of_pfx hcs htc rfl)
            dsimp only at hfs2
            left
            dsimp only
            have hdpr := prefix_drop_mono hcs lit2.length
            cases hrcw : sepThen rawCity
                ((lit ++ RC ++ T1 ++ T ++ TL).drop lit2.length) with
            | none => rfl
            | some pw =>
              obtain ⟨rcw, s2w⟩ := pw
              cases hrcs : sepThen rawCity (s.drop lit2.length) with
              | none =>
                exfalso
                have hq := sepThenF (fun hy hz => rawCityF hy hz) rfl hrcs hdpr
                rw [hrcw] at hq
                exact Option.noConfusion hq
              | some ps =>
                obtain ⟨rcs, s2s⟩ := ps
                rw [hrcs] at hfs2
                dsimp only at hfs2
                cases hts3 : sepThen town s2s with
                | some q2 =>
                  obtain ⟨u1, u2⟩ := q2
                  rw [hts3] at hfs2
                  dsimp only at hfs2
                  exact Option.noConfusion hfs2
                | none =>
                  dsimp only
                  rcases sepThen_rawCity_trunc hrcs hdpr hrcw with hnil | ⟨hceq, hspr⟩
                  · subst hnil
                    rw [sepThen_nil]
                  · rw [sepTownF hts3 hspr]
          · have hpre : lit <+: lit ++ RC ++ T1 ++ T ++ TL :=
              ⟨RC ++ T1 ++ T ++ TL, by simp⟩
            exact (List.prefix_iff_eq_take.mp hpre).symm
          · have hdrop : (lit ++ RC ++ T1 ++ T ++ TL).drop lit.length
                = RC ++ (T1 ++ (T ++ TL)) := by
              rw [show lit ++ RC ++ T1 ++ T ++ TL
                  = lit ++ (RC ++ (T1 ++ (T ++ TL))) from by simp, List.drop_left]
            dsimp only
            rw [hdrop, hrc2]
            dsimp only
            rw [hts2]
            dsimp only
            rw [repTownT hrep hTLpr]
            dsimp only
            rw [tailOpt_self htl]

theorem addrBodySelf {s c r : Str} (h : addrBody s = some (c, r)) :
    addrBody c = some (c, []) := by
  have hcs : c <+: s := ⟨r, addrBody_consumed h⟩
  dsimp only [addrBody] at h ⊢
  cases h1 : sejongBr s with
  | some p =>
    obtain ⟨c1, r1⟩ := p
    rw [h1] at h
    dsimp only at h
    injection h with h2
    injection h2 with hc hr
    subst hc
    subst hr
    rw [sejongBrSelf h1]
  | none =>
    rw [h1] at h
    dsimp only at h
    rw [sejongBrF h1 hcs]
    dsimp only
    cases h2 : provEtcBr s with
    | some p =>
      obtain ⟨c1, r1⟩ := p
      rw [h2] at h
      dsimp only at h
      injection h with h3
      injection h3 with hc hr
      subst hc
      subst hr
      rw [provEtcBrSelf h2]
    | none =>
      rw [h2] at h
      dsimp only at h
      rcases provEtcBrResc h2 hcs with hn2 | hr2
      · rw [hn2]
        dsimp only
        cases h3 : sggOnlyBr s with
        | some p =>
          obtain ⟨c1, r1⟩ := p
          rw [h3] at h
          dsimp only at h
          injection h with h4
          injection h4 with hc hr
          subst hc
          subst hr
          rw [sggOnlyBrSelf h3]
        | none =>
          rw [h3] at h
          dsimp only at h
          rcases sggOnlyBrResc h3 hcs with hn3 | hr3
          · rw [hn3]
            dsimp only
            cases h4 : provRawBr s with
            | some p =>
              obtain ⟨c1, r1⟩ := p
              rw [h4] at h
              dsimp only at h
              injection h with h5
              injection h5 with hc hr
              subst hc
              subst hr
              rw [provRawBrSelf h4]
            | none =>
              rw [h4] at h
              dsimp only at h
              rw [provRawBrF h4 hcs]
              dsimp only
              exact provTownBrSelf h
          · rw [hr3]
      · rw [hr2]

theorem pyStrip_eq_self {s : Str} (hhd : ((s.head?.map isSpaceC).getD false) = false)
    (hlast : LastNS s) : pyStrip s = s := by
  dsimp only [pyStrip]
  have h1 : s.dropWhile isSpaceC = s := by
    cases s with
    | nil => rfl
    | cons a t =>
      simp only [List.head?_cons, Option.map_some', Option.getD_some] at hhd
      rw [List.dropWhile_cons, hhd]
      rfl
  rw [h1]
  have h2 : s.reverse.dropWhile isSpaceC = s.reverse := by
    cases hrev : s.reverse with
    | nil => rfl
    | cons b t2 =>
      have hb : s.getLast? = some b := by
        rw [← List.head?_reverse, hrev]
        rfl
      have hbs : isSpaceC b = false := by
        dsimp only [LastNS] at hlast
        rw [hb] at hlast
        simpa using hlast
      rw [List.dropWhile_cons, hbs]
      rfl
  rw [h2, List.reverse_reverse]

/-- C5: `extract_address` is idempotent: for every title `t`,
`extract_address (extract_address t)` equals `extract_address t`.  The
re-extraction re-parses the previously extracted address: the stripped
prefix is empty on the address (it starts with a Hangul syllable), the
first succeeding alternative either succeeds again on exactly the whole
address or an earlier alternative succeeds by consuming the whole
address at end-of-string, and the final `strip` is the identity because
the address starts and ends with non-space characters. -/
theorem C5_extract_address_idem (t : Option String) :
    extract_address (some (extract_address t)) = extract_address t := by
  cases hab : addrBody (matchPfx ((t.getD "").data)).2 with
  | none =>
    have hrx : rxAddrMatch ((t.getD "").data) = none := by
      dsimp only [rxAddrMatch]
      rw [hab]
      rfl
    have hrhs : extract_address t = "" := by
      dsimp only [extract_address]
      rw [hrx]
    rw [hrhs]
    dsimp only [extract_address]
    have hnil : rxAddrMatch (((some ("" : String)).getD "").data) = none := rfl
    rw [hnil]
  | some b =>
    obtain ⟨B, R⟩ := b
    obtain ⟨⟨ch, bt, hB, hko⟩, hlast⟩ := addrBody_shape hab
    have hKoHd : KoHeadOrNil B := Or.inr ⟨ch, bt, hB, hko⟩
    have hmp : matchPfx ((matchPfx ((t.getD "").data)).1 ++ B)
        = ((matchPfx ((t.getD "").data)).1, B) :=
      matchPfx_reparse
        (rfl : matchPfx ((t.getD "").data)
          = ((matchPfx ((t.getD "").data)).1, (matchPfx ((t.getD "").data)).2)) hKoHd
    have hpb : pyStrip B = B :=
      pyStrip_eq_self
        (by
          rw [hB]
          simp only [List.head?_cons, Option.map_some', Option.getD_some]
          exact isKo_not_space hko)
        hlast
    have hrx2 : rxAddrMatch ((t.getD "").data)
        = some ((matchPfx ((t.getD "").data)).1 ++ B) := by
      dsimp only [rxAddrMatch]
      rw [hab]
      rfl
    have hrhs : extract_address t = String.mk B := by
      dsimp only [extract_address]
      rw [hrx2]
      dsimp only
      rw [hmp]
      dsimp only
      rw [hpb]
    rw [hrhs]
    dsimp only [extract_address, Option.getD]
    have hmpB : matchPfx B = ([], B) := by
      rw [hB]
      exact matchPfx_ko_head hko
    have habB : addrBody B = some (B, []) := addrBodySelf hab
    have hrxB : rxAddrMatch B = some B := by
      dsimp only [rxAddrMatch]
      rw [hmpB]
      dsimp only
      rw [habB]
      rfl
    rw [hrxB]
    dsimp only
    rw [hmpB]
    dsimp only
    rw [hpb]
